import Mathlib

/-!
# Container primitives of bg3se (`GameDefinitions/BaseContainers.h`) and the set proxy
(`Lua/Shared/Proxies/LuaSetProxy.h`)

Shallow embedding.

* `uint32_t` values are natural numbers, reduced with `toUInt32` wherever the source does
  arithmetic on them; `int` / `int32_t` values are integers, wrapped with `toInt32` at
  every conversion and signed operation.
* A heap buffer is a list of slots; a slot of an element buffer is `none` while it is raw
  (allocated, not constructed) and `some v` once an element has been constructed in it.
* Every operation returns an `Option`: `none` stands for an execution that leaves defined
  behaviour (an access outside the buffer or to a raw slot, a division by a zero bucket
  count) or that never returns (a chain walk caught in a cycle).
* A chain of `Map` nodes is the list of its nodes in link order; a value slot (`TValue*`)
  is the pair of the bucket index and the position of the node in its chain.
* A pointer `Values + index` returned by `MultiHashMap::Find` is the index itself.
* The lifetime tracker and the validating dispatch of proxy handles are not among the
  sources; their definitions follow the specification and say so.
-/

set_option autoImplicit false
set_option linter.unusedSectionVars false

namespace bg3se

/-! ## Machine integers and buffers -/

/-- Conversion to `uint32_t`. -/
def toUInt32 (n : Nat) : Nat := n % 4294967296

/-- Conversion to `int` / `int32_t` (two's complement). -/
def toInt32 (z : Int) : Int := (z + 2147483648) % 4294967296 - 2147483648

/-- Conversion of an `int` to the `uint32_t` index of `operator []`. -/
def intToUInt32 (z : Int) : Nat := (z % 4294967296).toNat

/-- Read of `buf[i]` in an element buffer: defined on a constructed slot inside the buffer. -/
def readSlot {T : Type} (buf : List (Option T)) (i : Nat) : Option T :=
  match buf[i]? with
  | some (some v) => some v
  | _ => none

/-- Write of `buf[i]` (assignment or placement construction): defined inside the buffer. -/
def writeSlot {T : Type} (buf : List (Option T)) (i : Nat) (v : T) : Option (List (Option T)) :=
  if i < buf.length then some (buf.set i (some v)) else none

/-- Destruction of `buf[i]` (`buf[i].~T()`): the slot is raw afterwards. -/
def destroySlot {T : Type} (buf : List (Option T)) (i : Nat) : Option (List (Option T)) :=
  if i < buf.length then some (buf.set i none) else none

/-- The loop `for (i = lo; i < lo + n; i++) body(i)` on a state, stopping at the first
undefined step. -/
def forLoop {σ : Type} (body : Nat → σ → Option σ) : Nat → Nat → σ → Option σ
  | 0, _, s => some s
  | n + 1, i, s => (body i s).bind (forLoop body n (i + 1))

/-- The loop `for (i = hi; i > hi - n; i--) body(i)` on a state, stopping at the first
undefined step. -/
def forLoopDown {σ : Type} (body : Nat → σ → Option σ) : Nat → Nat → σ → Option σ
  | 0, _, s => some s
  | n + 1, i, s => (body i s).bind (forLoopDown body n (i - 1))

/-! ## `Array<T>` -/

/-- The struct `Array<T>`: `Buf` holds the slots of the allocated buffer (empty for
`nullptr`). -/
structure Array (T : Type) where
  Buf : List (Option T)
  Capacity : Nat
  Unknown : Nat
  Size : Nat
  Unknown2 : Nat
deriving DecidableEq, Repr

namespace Array

variable {T : Type}

/-- The default constructor `Array()`. -/
def empty : Array T := ⟨[], 0, 0, 0, 0⟩

/-- The unchecked `operator [] (uint32_t index)`. -/
def get (a : Array T) (index : Nat) : Option T := readSlot a.Buf index

/-- The assignment `a[index] = value` through `operator []`. -/
def set (a : Array T) (index : Nat) (value : T) : Option (Array T) :=
  (writeSlot a.Buf index value).map (fun buf => { a with Buf := buf })

/-- `Array::CapacityIncrement`. -/
def CapacityIncrement (a : Array T) : Nat :=
  if a.Capacity > 0 then toUInt32 (2 * a.Capacity) else 1

/-- `Array::Clear`: destroys the elements `0 .. Size-1` and sets `Size` to 0. -/
def Clear (a : Array T) : Option (Array T) :=
  (forLoop (fun i buf => destroySlot buf i) a.Size 0 a.Buf).map
    (fun buf => { a with Buf := buf, Size := 0 })

/-- `Array::Reallocate`: a new raw buffer of `newCapacity` slots receives copies of the
first `min(Size, newCapacity)` elements and replaces the old buffer, which is destroyed
and freed; `Size` is not touched. -/
def Reallocate (a : Array T) (newCapacity : Nat) : Option (Array T) :=
  (forLoop (fun i newBuf => (readSlot a.Buf i).bind (writeSlot newBuf i))
      (min a.Size newCapacity) 0 (List.replicate newCapacity none)).map
    (fun newBuf => { a with Buf := newBuf, Capacity := newCapacity })

/-- `Array::Add`. -/
def Add (a : Array T) (value : T) : Option (Array T) :=
  (if a.Capacity ≤ a.Size then a.Reallocate a.CapacityIncrement else some a).bind fun a1 =>
  (writeSlot a1.Buf a1.Size value).map fun buf =>
    { a1 with Buf := buf, Size := toUInt32 (a1.Size + 1) }

/-- `Array::Remove`: an index at or after `Size` is logged and the call returns at once;
otherwise the loop `for (i = index; i < Size - 1; i++) Buf[i] = Buf[i + 1]` runs, the last
element is destroyed and `Size` is decremented (`Size - 1` cannot wrap here, as
`index < Size`). -/
def Remove (a : Array T) (index : Nat) : Option (Array T) :=
  if index ≥ a.Size then some a
  else
    (forLoop (fun i buf => (readSlot buf (i + 1)).bind (writeSlot buf i))
        (a.Size - 1 - index) index a.Buf).bind fun buf =>
    (destroySlot buf (a.Size - 1)).map fun buf1 =>
      { a with Buf := buf1, Size := a.Size - 1 }

/-- `Array::CopyFrom`, the body of the copy constructor and of copy assignment: the two
unknown fields are taken over, the array is cleared and, when `a` has elements, reallocated
to `a.Size` slots that receive copies of the elements of `a`. -/
def CopyFrom (self a : Array T) : Option (Array T) :=
  { self with Unknown := a.Unknown, Unknown2 := a.Unknown2 }.Clear.bind fun s1 =>
  if a.Size > 0 then
    (s1.Reallocate a.Size).bind fun s2 =>
    (forLoop (fun i buf => (a.get i).bind (writeSlot buf i)) a.Size 0 s2.Buf).map fun buf =>
      { s2 with Buf := buf, Size := a.Size }
  else some s1

end Array

/-! ## `CompactSet<T>` -/

/-- The struct `CompactSet<T, Allocator, StoreSize>`: `Buf` holds the slots of the
allocated buffer (empty for `nullptr`). -/
structure CompactSet (T : Type) where
  Buf : List (Option T)
  Capacity : Nat
  Size : Nat
deriving DecidableEq, Repr

namespace CompactSet

variable {T : Type}

/-- The default constructor `CompactSet()`. -/
def empty : CompactSet T := ⟨[], 0, 0⟩

/-- The unchecked `operator [] (uint32_t index)`. -/
def get (c : CompactSet T) (index : Nat) : Option T := readSlot c.Buf index

/-- `CompactSet::Remove`: an index at or after `Size` is logged and the call returns at
once; otherwise the loop `for (i = index; i < Size - 1; i++) Buf[i] = Buf[i + 1]` runs, the
last element is destroyed and `Size` is decremented. -/
def Remove (c : CompactSet T) (index : Nat) : Option (CompactSet T) :=
  if index ≥ c.Size then some c
  else
    (forLoop (fun i buf => (readSlot buf (i + 1)).bind (writeSlot buf i))
        (c.Size - 1 - index) index c.Buf).bind fun buf =>
    (destroySlot buf (c.Size - 1)).map fun buf1 =>
      { c with Buf := buf1, Size := c.Size - 1 }

/-- `CompactSet::Clear`: destroys the elements `0 .. Size-1` and sets `Size` to 0. -/
def Clear (c : CompactSet T) : Option (CompactSet T) :=
  (forLoop (fun i buf => destroySlot buf i) c.Size 0 c.Buf).map
    (fun buf => { c with Buf := buf, Size := 0 })

/-- `CompactSet::RawReallocate`: `Buf` becomes a new raw buffer of `newCapacity` slots, or
`nullptr` when `newCapacity` is 0, and `Capacity` is set; the old buffer is left to the
caller. The 8-byte size header of the `StoreSize` variant lies before the slots and is not
part of them. -/
def RawReallocate (c : CompactSet T) (newCapacity : Nat) : CompactSet T :=
  { c with Buf := if newCapacity > 0 then List.replicate newCapacity none else [],
           Capacity := newCapacity }

/-- `CompactSet::Reallocate`: after `RawReallocate` the first `min(Size, newCapacity)`
elements of the old buffer are copied into the new one, then the `Size` elements of the old
buffer are destroyed and the old buffer is freed; `Size` is not touched. -/
def Reallocate (c : CompactSet T) (newCapacity : Nat) : Option (CompactSet T) :=
  let oldBuf := c.Buf
  let c1 := c.RawReallocate newCapacity
  (forLoop (fun i buf => (readSlot oldBuf i).bind (writeSlot buf i))
      (min c1.Size newCapacity) 0 c1.Buf).bind fun buf =>
  (forLoop (fun i old => destroySlot old i) c1.Size 0 oldBuf).map fun _ =>
    { c1 with Buf := buf }

end CompactSet

/-! ## `Set<T>` -/

/-- The struct `Set<T, Allocator, StoreSize>`: a `CompactSet` with the `uint64_t` field
`CapacityIncrementSize`. -/
structure Set (T : Type) extends CompactSet T where
  CapacityIncrementSize : Nat
deriving DecidableEq, Repr

namespace Set

variable {T : Type}

/-- `Set::CapacityIncrement`, a `uint32_t`: `Capacity + (uint32_t)CapacityIncrementSize`
when `CapacityIncrementSize` is not 0, else `2 * Capacity` when `Capacity > 0`, else 1. -/
def CapacityIncrement (s : Set T) : Nat :=
  if s.CapacityIncrementSize ≠ 0 then toUInt32 (s.Capacity + toUInt32 s.CapacityIncrementSize)
  else if s.Capacity > 0 then toUInt32 (2 * s.Capacity)
  else 1

/-- `Set::Add`. -/
def Add (s : Set T) (value : T) : Option (Set T) :=
  (if s.Capacity ≤ s.Size then
      (s.toCompactSet.Reallocate s.CapacityIncrement).map fun c => { s with toCompactSet := c }
    else some s).bind fun s1 =>
  (writeSlot s1.Buf s1.Size value).map fun buf =>
    { s1 with Buf := buf, Size := toUInt32 (s1.Size + 1) }

/-- `Set::InsertAt`: after the same reallocation as in `Add`, the loop
`for (i = Size; i > index; i--) Buf[i] = Buf[i - 1]` runs, `Buf[index] = value` is assigned
and `Size` is incremented; `index` is not compared with `Size` or `Capacity`. -/
def InsertAt (s : Set T) (index : Nat) (value : T) : Option (Set T) :=
  (if s.Capacity ≤ s.Size then
      (s.toCompactSet.Reallocate s.CapacityIncrement).map fun c => { s with toCompactSet := c }
    else some s).bind fun s1 =>
  (forLoopDown (fun i buf => (readSlot buf (i - 1)).bind (writeSlot buf i))
      (s1.Size - index) s1.Size s1.Buf).bind fun buf =>
  (writeSlot buf index value).map fun buf1 =>
    { s1 with Buf := buf1, Size := toUInt32 (s1.Size + 1) }

end Set

/-! ## `MultiHashSet<T>` -/

/-- The two functions `MultiHashSet` calls that are declared outside `BaseContainers.h`:
the 64-bit hash of a key and the table-size function. -/
structure HashEnv (T : Type) where
  MultiHashMapHash : T → Nat
  GetNearestMultiHashMapPrime : Nat → Nat

/-- The struct `MultiHashSet<T>`; `HashKeys` is `none` for `nullptr`. -/
structure MultiHashSet (T : Type) where
  HashKeys : Option (List Int)
  NumHashKeys : Nat
  NextIds : Array Int
  Keys : Array T
deriving DecidableEq, Repr

namespace MultiHashSet

variable {T : Type} [DecidableEq T]

/-- The default constructor `MultiHashSet()`. -/
def empty : MultiHashSet T := ⟨none, 0, Array.empty, Array.empty⟩

/-- Read of `HashKeys[i]`. -/
def readHashKeys (s : MultiHashSet T) (i : Nat) : Option Int :=
  s.HashKeys.bind fun hk => hk[i]?

/-- Write of `HashKeys[i]`. -/
def writeHashKeys (s : MultiHashSet T) (i : Nat) (v : Int) : Option (List Int) :=
  s.HashKeys.bind fun hk => if i < hk.length then some (hk.set i v) else none

/-- The bucket `(uint32_t)MultiHashMapHash(key) % NumHashKeys`; undefined for a zero
bucket count. -/
def bucketOf (E : HashEnv T) (s : MultiHashSet T) (key : T) : Option Nat :=
  if s.NumHashKeys = 0 then none else some (toUInt32 (E.MultiHashMapHash key) % s.NumHashKeys)

/-- The chain walk of `FindIndex`: `while (keyIndex >= 0) ...`. The fuel counts the
executions of the loop body. -/
def FindIndexLoop (s : MultiHashSet T) (key : T) : Nat → Int → Option Int
  | fuel, keyIndex =>
    if keyIndex < 0 then some (-1)
    else
      match fuel with
      | 0 => none
      | fuel + 1 =>
        (s.Keys.get (intToUInt32 keyIndex)).bind fun k =>
          if k = key then some keyIndex
          else (s.NextIds.get (intToUInt32 keyIndex)).bind fun next =>
            FindIndexLoop s key fuel next

/-- `MultiHashSet::FindIndex`. Each execution of the loop body reads a slot of `Keys.Buf`
and nothing is written, so a walk of more executions than the buffer has slots reads one
slot twice and never ends; the walk is run with that many executions as fuel. -/
def FindIndex (E : HashEnv T) (s : MultiHashSet T) (key : T) : Option Int :=
  if s.NumHashKeys = 0 then some (-1)
  else
    (s.readHashKeys (toUInt32 (E.MultiHashMapHash key) % s.NumHashKeys)).bind fun keyIndex =>
      FindIndexLoop s key s.Keys.Buf.length keyIndex

/-- `MultiHashSet::Contains`. -/
def Contains (E : HashEnv T) (s : MultiHashSet T) (key : T) : Option Bool :=
  (FindIndex E s key).map fun index => decide (index ≠ -1)

/-- `MultiHashSet::Clear`: `std::fill` over the bucket table, then both arrays cleared. -/
def Clear (s : MultiHashSet T) : Option (MultiHashSet T) :=
  (match s.HashKeys with
    | some hk =>
      if s.NumHashKeys ≤ hk.length then
        some (some (List.replicate s.NumHashKeys (-1) ++ hk.drop s.NumHashKeys))
      else none
    | none => if s.NumHashKeys = 0 then some none else none).bind fun hk =>
  s.NextIds.Clear.bind fun nextIds =>
  s.Keys.Clear.map fun keys =>
    { s with HashKeys := hk, NextIds := nextIds, Keys := keys }

/-- `MultiHashSet::InsertToHashMap`. -/
def InsertToHashMap (E : HashEnv T) (s : MultiHashSet T) (key : T) (keyIdx : Int) :
    Option (MultiHashSet T) :=
  (bucketOf E s key).bind fun bucket =>
  (s.readHashKeys bucket).bind fun prevKeyIdx =>
  let prevKeyIdx := if prevKeyIdx < 0 then toInt32 (-2 - toInt32 bucket) else prevKeyIdx
  (s.NextIds.set (intToUInt32 keyIdx) prevKeyIdx).bind fun nextIds =>
  let s1 := { s with NextIds := nextIds }
  (s1.writeHashKeys bucket keyIdx).map fun hk =>
    { s1 with HashKeys := some hk }

/-- `MultiHashSet::ResizeHashMap`. -/
def ResizeHashMap (E : HashEnv T) (s : MultiHashSet T) (newSize : Nat) :
    Option (MultiHashSet T) :=
  let numBuckets := E.GetNearestMultiHashMapPrime newSize
  let s1 := { s with HashKeys := some (List.replicate numBuckets (-1)), NumHashKeys := numBuckets }
  forLoop (fun k s2 => (s2.Keys.get k).bind fun key => InsertToHashMap E s2 key (toInt32 k))
    s1.Keys.Size 0 s1

/-- `MultiHashSet::Add`: the returned index and the new state. -/
def Add (E : HashEnv T) (s : MultiHashSet T) (key : T) : Option (Int × MultiHashSet T) :=
  (FindIndex E s key).bind fun index =>
  if index ≠ -1 then some (index, s)
  else
    let keyIdx := toInt32 s.Keys.Size
    (s.Keys.Add key).bind fun keys =>
    (s.NextIds.Add (-1)).bind fun nextIds =>
    let s1 := { s with NextIds := nextIds, Keys := keys }
    (if s1.NumHashKeys ≥ toUInt32 (s1.Keys.Size * 2) then InsertToHashMap E s1 key keyIdx
     else ResizeHashMap E s1 (toUInt32 (2 * s1.Keys.Size))).map fun s2 =>
    (keyIdx, s2)

/-- The copy constructor `MultiHashSet(MultiHashSet const& other)`: `NextIds` and `Keys`
are copy-constructed (`Array::CopyFrom` on a default-constructed array), `NumHashKeys` is
taken over and, when `other.HashKeys` is not null, a new table receives the first
`NumHashKeys` entries of the table of `other`. -/
def copyConstruct (other : MultiHashSet T) : Option (MultiHashSet T) :=
  (Array.empty.CopyFrom other.NextIds).bind fun nextIds =>
  (Array.empty.CopyFrom other.Keys).bind fun keys =>
  (match other.HashKeys with
    | some hk =>
      if other.NumHashKeys ≤ hk.length then some (some (hk.take other.NumHashKeys)) else none
    | none => some none).map fun hashKeys =>
  ⟨hashKeys, other.NumHashKeys, nextIds, keys⟩

end MultiHashSet

/-! ## `MultiHashMap<TKey, TValue>` -/

/-- The struct `MultiHashMap<TKey, TValue>`: the base `MultiHashSet<TKey>` with the buffer
`Values` (`none` for `nullptr`) and the `int32_t` count `NumValues`. -/
structure MultiHashMap (TKey TValue : Type) extends MultiHashSet TKey where
  Values : Option (List (Option TValue))
  NumValues : Int

namespace MultiHashMap

variable {TKey TValue : Type} [DecidableEq TKey]

/-- The default constructor `MultiHashMap()`. -/
def empty : MultiHashMap TKey TValue := ⟨MultiHashSet.empty, none, 0⟩

/-- `MultiHashMap::Find`: absent when `FindIndex` is -1, otherwise the pointer
`Values + index`, given by its index. -/
def Find (E : HashEnv TKey) (m : MultiHashMap TKey TValue) (key : TKey) :
    Option (Option Int) :=
  (MultiHashSet.FindIndex E m.toMultiHashSet key).map fun index =>
    if index = -1 then none else some index

/-- Read through a pointer `Values + index`. -/
def valueAt (m : MultiHashMap TKey TValue) (index : Int) : Option TValue :=
  m.Values.bind fun values => if index < 0 then none else readSlot values index.toNat

/-- `MultiHashMap::Set`: the index of the key is looked up and, when it is -1, it is the
result of `Add(key)`; the statement `if (NumValues <= index)` that follows has an empty body,
so nothing is done to `Values` or `NumValues`; then `Values[index] = value` is assigned. -/
def Set (E : HashEnv TKey) (m : MultiHashMap TKey TValue) (key : TKey) (value : TValue) :
    Option (MultiHashMap TKey TValue) :=
  (MultiHashSet.FindIndex E m.toMultiHashSet key).bind fun index =>
  (if index = -1 then
      (MultiHashSet.Add E m.toMultiHashSet key).map fun r =>
        (r.1, { m with toMultiHashSet := r.2 })
    else some (index, m)).bind fun r =>
  r.2.Values.bind fun values =>
  if r.1 < 0 then none
  else (writeSlot values r.1.toNat value).map fun values1 => { r.2 with Values := some values1 }

/-- The loop of the copy constructor and of copy assignment,
`for (auto i = 0; i < NumValues < i++) { new (Values + i) TValue(other.Values[i]); }`.
Its header holds one `;` only. It is read as a loop with the condition
`(i < NumValues) < (i++)` and no increment expression, the operands evaluated from left to
right: the comparison `i < NumValues` yields 0 or 1 and is compared with the value that `i`
had before the increment; the body then runs with the incremented `i`. The fuel bounds the
number of times the condition is evaluated. -/
def copyValuesLoop (other : List (Option TValue)) (numValues : Int) :
    Nat → Int → List (Option TValue) → Option (List (Option TValue))
  | 0, _, _ => none
  | fuel + 1, i, values =>
    if (if i < numValues then (1 : Int) else 0) < i then
      (if toInt32 (i + 1) < 0 then none else readSlot other (toInt32 (i + 1)).toNat).bind
        fun v => (writeSlot values (toInt32 (i + 1)).toNat v).bind fun values1 =>
          copyValuesLoop other numValues fuel (toInt32 (i + 1)) values1
    else some values

/-- The copy constructor `MultiHashMap(MultiHashMap const& other)`: the base is
copy-constructed, `NumValues` is taken over and, when `other.Values` is not null, `Values`
is a new array of `NumValues` slots on which the copy loop runs. `GameAllocArray` is
declared outside the sources at hand; `fresh` is what each slot of a new array holds (`none`
for raw memory, `some d` for a default value `d`). -/
def copyConstruct (fresh : Option TValue) (other : MultiHashMap TKey TValue) :
    Option (MultiHashMap TKey TValue) :=
  (MultiHashSet.copyConstruct other.toMultiHashSet).bind fun base =>
  match other.Values with
  | some otherValues =>
    (copyValuesLoop otherValues other.NumValues (other.NumValues.toNat + 1) 0
        (List.replicate other.NumValues.toNat fresh)).map fun values =>
      ⟨base, some values, other.NumValues⟩
  | none => some ⟨base, none, other.NumValues⟩

/-- `MultiHashMap::FreeValues`: when `Values` is not null its `NumValues` elements are
destroyed and the array is freed. The pointer is left dangling; a freed array is `none`
here, so that every later access through it is undefined. -/
def FreeValues (m : MultiHashMap TKey TValue) : Option (MultiHashMap TKey TValue) :=
  match m.Values with
  | some values =>
    (forLoop (fun i buf => destroySlot buf i) m.NumValues.toNat 0 values).map fun _ =>
      { m with Values := none }
  | none => some m

/-- The copy assignment `MultiHashMap::operator =`: `FreeValues()`, then `NumValues` is
taken over and, when `other.Values` is not null, `Values` is a new array of `NumValues`
slots on which the copy loop runs. The assignment operator of the base `MultiHashSet` is
not called. -/
def assign (fresh : Option TValue) (self other : MultiHashMap TKey TValue) :
    Option (MultiHashMap TKey TValue) :=
  self.FreeValues.bind fun m1 =>
  match other.Values with
  | some otherValues =>
    (copyValuesLoop otherValues other.NumValues (other.NumValues.toNat + 1) 0
        (List.replicate other.NumValues.toNat fresh)).map fun values =>
      { m1 with Values := some values, NumValues := other.NumValues }
  | none => some { m1 with NumValues := other.NumValues }

end MultiHashMap

/-! ## `Map<TKey, TValue>` -/

/-- A chain node of `Map`; the `Next` pointer is the position in the chain list. -/
structure MapNode (TKey TValue : Type) where
  Key : TKey
  Value : TValue
deriving DecidableEq, Repr

/-- The class `Map<TKey, TValue>`: `HashTable` lists the chains of the buckets (an empty
chain is a null head pointer, an empty table is `nullptr`). -/
structure Map (TKey TValue : Type) where
  HashSize : Nat
  HashTable : List (List (MapNode TKey TValue))
  ItemCount : Nat
deriving DecidableEq, Repr

/-- A `TValue*` into a map: bucket index and position of the node in the chain. -/
abbrev ValueSlot : Type := Nat × Nat

namespace Map

variable {TKey TValue : Type} [DecidableEq TKey] [Inhabited TValue]

/-- The default constructor `Map()`. -/
def empty : Map TKey TValue := ⟨0, [], 0⟩

/-- `Map::Init`. -/
def Init (_m : Map TKey TValue) (hashSize : Nat) : Map TKey TValue :=
  { HashSize := hashSize, HashTable := List.replicate hashSize [], ItemCount := 0 }

/-- The walk `while (item != nullptr) { if (key == item->Key) ...; item = item->Next; }` of
`Insert` and `Find`: the position of the first node that holds `key`. -/
def walkChain (key : TKey) : List (MapNode TKey TValue) → Option Nat
  | [] => none
  | item :: rest => if key = item.Key then some 0 else (walkChain key rest).map (· + 1)

/-- Read of the bucket head `HashTable[Hash(key) % HashSize]`. -/
def bucketChain (Hash : TKey → Nat) (m : Map TKey TValue) (key : TKey) :
    Option (List (MapNode TKey TValue)) :=
  if m.HashSize = 0 then none else m.HashTable[Hash key % m.HashSize]?

/-- `Map::Insert(key)`: the returned value slot and the new state. -/
def Insert (Hash : TKey → Nat) (m : Map TKey TValue) (key : TKey) :
    Option (ValueSlot × Map TKey TValue) :=
  (bucketChain Hash m key).map fun chain =>
    match walkChain key chain with
    | some pos => ((Hash key % m.HashSize, pos), m)
    | none =>
      ((Hash key % m.HashSize, chain.length),
        { m with
          HashTable := m.HashTable.set (Hash key % m.HashSize) (chain ++ [⟨key, default⟩]),
          ItemCount := toUInt32 (m.ItemCount + 1) })

/-- Read through a value slot (`*slot`). -/
def valueAt (m : Map TKey TValue) (slot : ValueSlot) : Option TValue :=
  (m.HashTable[slot.1]?).bind fun chain => (chain[slot.2]?).map fun node => node.Value

/-- Write through a value slot (`*slot = value`). -/
def setValueAt (m : Map TKey TValue) (slot : ValueSlot) (value : TValue) :
    Option (Map TKey TValue) :=
  (m.HashTable[slot.1]?).bind fun chain =>
    (chain[slot.2]?).map fun node =>
      { m with HashTable := m.HashTable.set slot.1 (chain.set slot.2 { node with Value := value }) }

/-- `Map::Insert(key, value)`. -/
def InsertValue (Hash : TKey → Nat) (m : Map TKey TValue) (key : TKey) (value : TValue) :
    Option (ValueSlot × Map TKey TValue) :=
  (Insert Hash m key).bind fun r => (r.2.setValueAt r.1 value).map fun m2 => (r.1, m2)

/-- `Map::Find`: the inner `none` is `nullptr`. -/
def Find (Hash : TKey → Nat) (m : Map TKey TValue) (key : TKey) : Option (Option ValueSlot) :=
  (bucketChain Hash m key).map fun chain =>
    (walkChain key chain).map fun pos => (Hash key % m.HashSize, pos)

/-- `Map::FreeHashChain`: the number of nodes deleted; entered with a null pointer it
dereferences it. -/
def FreeHashChain (node : List (MapNode TKey TValue)) : Option Nat :=
  if node.isEmpty then none else some node.length

/-- `Map::Clear`. -/
def Clear (m : Map TKey TValue) : Option (Map TKey TValue) :=
  (forLoop (fun i table =>
      (table[i]?).bind fun item =>
        if item.isEmpty then some table else (FreeHashChain item).map fun _ => table.set i [])
    m.HashSize 0 m.HashTable).map fun table =>
  { m with ItemCount := 0, HashTable := table }

/-- `Map::Count`. -/
def Count (m : Map TKey TValue) : Nat := m.ItemCount

/-- `Map::Iterate`: the calls `visitor(item->Key, item->Value)` in the order in which they
are made, bucket after bucket and along each chain. -/
def Iterate (m : Map TKey TValue) : Option (List (TKey × TValue)) :=
  forLoop (fun bucket visits =>
      (m.HashTable[bucket]?).map fun chain =>
        visits ++ chain.map fun item => (item.Key, item.Value))
    m.HashSize 0 []

end Map

/-! ## `RefMap<TKey, TValue>` -/

/-- The class `RefMap<TKey, TValue>`; its nodes have the fields of the nodes of `Map`. -/
structure RefMap (TKey TValue : Type) where
  ItemCount : Nat
  HashSize : Nat
  HashTable : List (List (MapNode TKey TValue))
deriving DecidableEq, Repr

namespace RefMap

variable {TKey TValue : Type} [DecidableEq TKey] [Inhabited TValue]

/-- The constructor `RefMap(uint32_t hashSize = 31)`. -/
def construct (hashSize : Nat) : RefMap TKey TValue :=
  { ItemCount := 0, HashSize := hashSize, HashTable := List.replicate hashSize [] }

/-- `RefMap::Count`. -/
def Count (m : RefMap TKey TValue) : Nat := m.ItemCount

/-- `RefMap::FreeHashChain`: the number of nodes deleted; entered with a null pointer it
dereferences it. -/
def FreeHashChain (node : List (MapNode TKey TValue)) : Option Nat :=
  if node.isEmpty then none else some node.length

/-- `RefMap::Clear`. -/
def Clear (m : RefMap TKey TValue) : Option (RefMap TKey TValue) :=
  (forLoop (fun i table =>
      (table[i]?).bind fun item =>
        if item.isEmpty then some table else (FreeHashChain item).map fun _ => table.set i [])
    m.HashSize 0 m.HashTable).map fun table =>
  { m with ItemCount := 0, HashTable := table }

/-- Read of the bucket head `HashTable[Hash(key) % HashSize]`. -/
def bucketChain (Hash : TKey → Nat) (m : RefMap TKey TValue) (key : TKey) :
    Option (List (MapNode TKey TValue)) :=
  if m.HashSize = 0 then none else m.HashTable[Hash key % m.HashSize]?

/-- `RefMap::Find`: the inner `none` is `nullptr`. -/
def Find (Hash : TKey → Nat) (m : RefMap TKey TValue) (key : TKey) :
    Option (Option ValueSlot) :=
  (bucketChain Hash m key).map fun chain =>
    (Map.walkChain key chain).map fun pos => (Hash key % m.HashSize, pos)

/-- `RefMap::Insert(key)`: the returned value slot and the new state. -/
def Insert (Hash : TKey → Nat) (m : RefMap TKey TValue) (key : TKey) :
    Option (ValueSlot × RefMap TKey TValue) :=
  (bucketChain Hash m key).map fun chain =>
    match Map.walkChain key chain with
    | some pos => ((Hash key % m.HashSize, pos), m)
    | none =>
      ((Hash key % m.HashSize, chain.length),
        { m with
          HashTable := m.HashTable.set (Hash key % m.HashSize) (chain ++ [⟨key, default⟩]),
          ItemCount := toUInt32 (m.ItemCount + 1) })

/-- Read through a value slot (`*slot`). -/
def valueAt (m : RefMap TKey TValue) (slot : ValueSlot) : Option TValue :=
  (m.HashTable[slot.1]?).bind fun chain => (chain[slot.2]?).map fun node => node.Value

/-- Write through a value slot (`*slot = value`). -/
def setValueAt (m : RefMap TKey TValue) (slot : ValueSlot) (value : TValue) :
    Option (RefMap TKey TValue) :=
  (m.HashTable[slot.1]?).bind fun chain =>
    (chain[slot.2]?).map fun node =>
      { m with HashTable := m.HashTable.set slot.1 (chain.set slot.2 { node with Value := value }) }

/-- `RefMap::Insert(key, value)`. -/
def InsertValue (Hash : TKey → Nat) (m : RefMap TKey TValue) (key : TKey) (value : TValue) :
    Option (ValueSlot × RefMap TKey TValue) :=
  (Insert Hash m key).bind fun r => (r.2.setValueAt r.1 value).map fun m2 => (r.1, m2)

/-- `RefMap::Iterate`: the calls of the visitor in the order in which they are made. -/
def Iterate (m : RefMap TKey TValue) : Option (List (TKey × TValue)) :=
  forLoop (fun bucket visits =>
      (m.HashTable[bucket]?).map fun chain =>
        visits ++ chain.map fun item => (item.Key, item.Value))
    m.HashSize 0 []

end RefMap

/-! ## `BitArray<TDWords>` -/

/-- The struct `BitArray<TDWords>`: the words `Bits[0 .. TDWords-1]`, each a `uint32_t`. -/
structure BitArray (TDWords : Nat) where
  Bits : List Nat
deriving DecidableEq, Repr

namespace BitArray

variable {TDWords : Nat}

/-- The guard `index <= 0 || index > (TDWords * 32)` of `Set`, `Clear` and `IsSet`; the
product is a `uint32_t`. -/
def outOfRange (TDWords index : Nat) : Bool :=
  decide (index ≤ 0 ∨ index > toUInt32 (TDWords * 32))

/-- The mask `1 << ((index - 1) & 0x1f)`, an `int` shifted by at most 31 bits, as the
`uint32_t` that is combined with a word. -/
def mask (index : Nat) : Nat := toUInt32 (1 <<< ((index - 1) &&& 0x1f))

/-- `BitArray::Set`: the returned flag and the new state. -/
def Set (b : BitArray TDWords) (index : Nat) : Option (Bool × BitArray TDWords) :=
  if outOfRange TDWords index then some (false, b)
  else
    (b.Bits[(index - 1) >>> 5]?).map fun word =>
      (true, ⟨b.Bits.set ((index - 1) >>> 5) (word ||| mask index)⟩)

/-- `BitArray::Clear`: the returned flag and the new state; `~mask` is the complement of
the mask in 32 bits. -/
def Clear (b : BitArray TDWords) (index : Nat) : Option (Bool × BitArray TDWords) :=
  if outOfRange TDWords index then some (false, b)
  else
    (b.Bits[(index - 1) >>> 5]?).map fun word =>
      (true, ⟨b.Bits.set ((index - 1) >>> 5) (word &&& (4294967295 ^^^ mask index))⟩)

/-- `BitArray::IsSet`. -/
def IsSet (b : BitArray TDWords) (index : Nat) : Option Bool :=
  if outOfRange TDWords index then some false
  else
    (b.Bits[(index - 1) >>> 5]?).map fun word => decide (word &&& mask index ≠ 0)

end BitArray

/-! ## `MultiHashSetProxyImpl<T>` -/

namespace lua

/-- A value pushed on the Lua stack by the set proxy. -/
inductive Pushed (T : Type) where
  | integer (i : Int)
  | element (k : T)
deriving DecidableEq, Repr

namespace MultiHashSetProxyImpl

variable {T : Type}

/-- `MultiHashSetProxyImpl::GetElementAt`: the returned flag and the values pushed. The
source writes the size as `obj->size()`; `Size` of `Keys` is the number of elements. -/
def GetElementAt (obj : MultiHashSet T) (arrayIndex : Nat) : Option (Bool × List (Pushed T)) :=
  if arrayIndex > 0 ∧ arrayIndex ≤ obj.Keys.Size then
    (obj.Keys.get (arrayIndex - 1)).map fun k => (true, [Pushed.element k])
  else some (false, [])

end MultiHashSetProxyImpl

/-! ### Lifetime scopes and proxy handles -/

/-- Modelled from the spec: a lifetime handle, the reference to a lifetime scope held by a
proxy handle: the id of the scope and the generation of the scope recorded when the handle
was made. The type `LifetimeHandle` is named in `LuaSetProxy.h` and declared elsewhere. -/
structure LifetimeHandle where
  scope : Nat
  generation : Nat
deriving DecidableEq, Repr

/-- Modelled from the spec: the Lifetime Tracker, which is not among the sources at hand.
A scope is an opaque generation token; the tracker holds the current generation of every
scope it has opened, by scope id. -/
structure LifetimeTracker where
  generations : List Nat
deriving DecidableEq, Repr

/-- Modelled from the spec: `OpenScope() -> ScopeId` opens a new scope and returns its id. -/
def OpenScope (t : LifetimeTracker) : Nat × LifetimeTracker :=
  (t.generations.length, ⟨t.generations ++ [0]⟩)

/-- Modelled from the spec: `CloseScope(ScopeId)` invalidates every handle bound to the
scope in O(1): only the generation counter of the scope changes. -/
def CloseScope (t : LifetimeTracker) (scope : Nat) : LifetimeTracker :=
  match t.generations[scope]? with
  | some g => ⟨t.generations.set scope (g + 1)⟩
  | none => t

/-- Modelled from the spec: the lifetime handle that the host-hook layer passes for the
currently active scope at the moment a native value crosses into scripting. -/
def currentLifetime (t : LifetimeTracker) (scope : Nat) : Option LifetimeHandle :=
  (t.generations[scope]?).map fun g => ⟨scope, g⟩

/-- Modelled from the spec: `IsValid(handle)`: a handle is valid iff its recorded generation
equals the current generation of its scope. -/
def IsValid (t : LifetimeTracker) (h : LifetimeHandle) : Bool :=
  decide (t.generations[h.scope]? = some h.generation)

/-- The proxy handle `CppObjectMetadata` as the set proxy uses it: the native pointer
`Ptr`, the two type tags and the lifetime handle. -/
structure CppObjectMetadata where
  Ptr : Nat
  MetatableTag : Nat
  PropertyMapTag : Nat
  Lifetime : LifetimeHandle
deriving DecidableEq, Repr

/-- The tag `MetatableTag::SetProxy`, an enumerator whose value is declared elsewhere. -/
def MetatableTag_SetProxy : Nat := 0

/-- `SetProxyMetatable::MakeImpl`: the handle pushed by
`lua_push_cppobject(L, MetatableTag::SetProxy, impl->GetRegistryIndex(), object, lifetime)`. -/
def MakeImpl (object : Nat) (lifetime : LifetimeHandle) (registryIndex : Nat) :
    CppObjectMetadata :=
  ⟨object, MetatableTag_SetProxy, registryIndex, lifetime⟩

/-- The accesses that the set proxy metatable offers on a handle: `Index`, `NewIndex`,
`Length`, `Next`, `ToString` and `IsEqual`. -/
inductive ProxyAccess where
  | get
  | set
  | length
  | next
  | toString
  | equals
deriving DecidableEq, Repr

/-- The error conditions of the boundary layer that concern lifetimes. -/
inductive ProxyError where
  | InvalidLifetime
deriving DecidableEq, Repr

/-- Modelled from the spec: an access through a handle re-enters the dispatch layer, which
validates the scope and only then delegates to the container behind the native pointer
(`deref`); with an invalidated handle the access fails with `InvalidLifetime`. -/
def dispatch {α : Type} (t : LifetimeTracker) (self : CppObjectMetadata) (op : ProxyAccess)
    (deref : Nat → ProxyAccess → α) : Except ProxyError α :=
  if IsValid t self.Lifetime then Except.ok (deref self.Ptr op)
  else Except.error ProxyError.InvalidLifetime

/-- An event of the tracker after a handle was made: a scope is opened or closed. -/
inductive TrackerEvent where
  | openScope
  | closeScope (scope : Nat)
deriving DecidableEq, Repr

/-- The tracker after a sequence of events. -/
def runEvents (t : LifetimeTracker) : List TrackerEvent → LifetimeTracker
  | [] => t
  | TrackerEvent.openScope :: es => runEvents (OpenScope t).2 es
  | TrackerEvent.closeScope scope :: es => runEvents (CloseScope t scope) es

end lua

/-! ## Specification predicates -/

namespace Array

variable {T : Type}

/-- Representation invariant of `Array<T>`: the buffer has `Capacity` slots, `Capacity` is a
`uint32_t`, `Capacity ≥ Size`, the first `Size` slots hold constructed elements and the
other slots are raw. -/
structure WF (a : Array T) : Prop where
  buf : a.Buf.length = a.Capacity
  cap : a.Capacity < 4294967296
  size : a.Size ≤ a.Capacity
  elems : ∀ i, i < a.Size → ∃ v, a.get i = some v
  raw : ∀ i, a.Size ≤ i → a.get i = none

/-- The capacity of an array that grew from the default-constructed one by `Add`: zero or
a power of two representable in 32 bits. -/
def Doubling (a : Array T) : Prop :=
  a.Capacity = 0 ∨ ∃ k, k ≤ 31 ∧ a.Capacity = 2 ^ k

/-- The element sequence of an array: the elements read at the indices `0 .. Size-1`. -/
def toList (a : Array T) : List T := (List.range a.Size).filterMap a.get

end Array

namespace CompactSet

variable {T : Type}

/-- The buffer, capacity and size of a `CompactSet` seen as an `Array` (whose two unknown
fields are zero), to speak of its representation invariant and its element sequence. -/
def toArray (c : CompactSet T) : Array T := ⟨c.Buf, c.Capacity, 0, c.Size, 0⟩

/-- Representation invariant of `CompactSet<T>`: that of `Array<T>` on the same fields. -/
def WF (c : CompactSet T) : Prop := c.toArray.WF

/-- The element sequence of a `CompactSet`. -/
def toList (c : CompactSet T) : List T := (List.range c.Size).filterMap c.get

end CompactSet

namespace MultiHashSet

variable {T : Type} [DecidableEq T]

/-- The states reachable from the default-constructed set by calls of `Add` and `Clear`
that return. -/
inductive Reachable (E : HashEnv T) : MultiHashSet T → Prop
  | empty : Reachable E MultiHashSet.empty
  | add (s : MultiHashSet T) (key : T) (index : Int) (s' : MultiHashSet T) :
      Reachable E s → Add E s key = some (index, s') → Reachable E s'
  | clear (s s' : MultiHashSet T) : Reachable E s → s.Clear = some s' → Reachable E s'

/-- The key index `i` lies on the chain that starts at key index `j`: it is reached from `j`
along `NextIds` entries that each point to a smaller key index. -/
inductive Chain (s : MultiHashSet T) : Nat → Nat → Prop
  | here (i : Nat) : Chain s i i
  | step (j j' i : Nat) : s.NextIds.get j = some (j' : Int) → j' < j → Chain s j' i → Chain s j i

/-- The bucket table and `NextIds` link the first `m` keys: every bucket entry is -1 or
the index of a key of that bucket, every `NextIds` entry is the bucket's sentinel
`-2 - bucket` or the index of an earlier key of the same bucket, and every key lies on the
chain of its bucket. -/
structure Linked (E : HashEnv T) (s : MultiHashSet T) (m : Nat) : Prop where
  table : ∃ hk, s.HashKeys = some hk ∧ hk.length = s.NumHashKeys
  numPos : 0 < s.NumHashKeys
  heads : ∀ b h, s.readHashKeys b = some h →
    h = -1 ∨ ∃ (j : Nat) (k : T), h = (j : Int) ∧ j < m ∧ s.Keys.get j = some k ∧ bucketOf E s k = some b
  links : ∀ i k, i < m → s.Keys.get i = some k →
    ∃ v, s.NextIds.get i = some v ∧
      ((∃ b, bucketOf E s k = some b ∧ v = toInt32 (-2 - toInt32 b)) ∨
        ∃ (j : Nat) (k' : T), v = (j : Int) ∧ j < i ∧ s.Keys.get j = some k' ∧
          bucketOf E s k' = bucketOf E s k)
  onChain : ∀ i k, i < m → s.Keys.get i = some k →
    ∃ (b h : Nat), bucketOf E s k = some b ∧ s.readHashKeys b = some (h : Int) ∧ Chain s h i

/-- Invariant of the reachable states of `MultiHashSet`: both arrays are well-formed and of
one size, the keys are pairwise distinct, there is no table exactly when the bucket count is
zero, which only happens while the set is empty, and otherwise the table links every key. -/
structure Inv (E : HashEnv T) (s : MultiHashSet T) : Prop where
  keys : s.Keys.WF
  nextIds : s.NextIds.WF
  sizes : s.NextIds.Size = s.Keys.Size
  distinct : ∀ i j k, i < s.Keys.Size → j < s.Keys.Size →
    s.Keys.get i = some k → s.Keys.get j = some k → i = j
  noTable : s.NumHashKeys = 0 → s.HashKeys = none ∧ s.Keys.Size = 0
  linked : 0 < s.NumHashKeys → Linked E s s.Keys.Size

/-- Representation invariant of `MultiHashSet<T>`: `HashKeys` is null with `NumHashKeys = 0`
or points to a table of `NumHashKeys` entries, and both arrays are well-formed. -/
structure WF (s : MultiHashSet T) : Prop where
  table : (s.HashKeys = none ∧ s.NumHashKeys = 0) ∨
    ∃ hk, s.HashKeys = some hk ∧ hk.length = s.NumHashKeys
  keys : s.Keys.WF
  nextIds : s.NextIds.WF

end MultiHashSet

namespace Map

variable {TKey TValue : Type} [DecidableEq TKey] [Inhabited TValue]

/-- Representation invariant of `Map`: the table holds `HashSize` bucket heads. -/
def WF (m : Map TKey TValue) : Prop := m.HashTable.length = m.HashSize

/-- The total number of nodes over all chains. -/
def nodeCount (m : Map TKey TValue) : Nat := (m.HashTable.map List.length).sum

/-- The states reachable from `Init(hashSize)` with `hashSize > 0` by calls of
`Insert(key)`, `Insert(key, value)` and `Clear` that return, each with the list of the keys
inserted since the last `Clear` (or since `Init`). -/
inductive ReachableFrom (Hash : TKey → Nat) : Map TKey TValue → List TKey → Prop
  | init (m0 : Map TKey TValue) (hashSize : Nat) :
      0 < hashSize → ReachableFrom Hash (m0.Init hashSize) []
  | insert (m : Map TKey TValue) (keys : List TKey) (key : TKey) (slot : ValueSlot)
      (m' : Map TKey TValue) :
      ReachableFrom Hash m keys → Insert Hash m key = some (slot, m') →
      ReachableFrom Hash m' (key :: keys)
  | insertValue (m : Map TKey TValue) (keys : List TKey) (key : TKey) (value : TValue)
      (slot : ValueSlot) (m' : Map TKey TValue) :
      ReachableFrom Hash m keys → InsertValue Hash m key value = some (slot, m') →
      ReachableFrom Hash m' (key :: keys)
  | clear (m : Map TKey TValue) (keys : List TKey) (m' : Map TKey TValue) :
      ReachableFrom Hash m keys → m.Clear = some m' → ReachableFrom Hash m' []

/-- Invariant of the reachable states of `Map`, against the list of the keys inserted since
the last `Clear`: the table has `HashSize > 0` buckets, every node lies in the chain of
bucket `Hash(key) % HashSize` and holds an inserted key, no chain holds a key twice, and
`ItemCount` is the number of nodes as a `uint32_t`. -/
structure TableInv (Hash : TKey → Nat) (m : Map TKey TValue) (keys : List TKey) : Prop where
  wf : m.WF
  pos : 0 < m.HashSize
  inBucket : ∀ (b : Nat) (chain : List (MapNode TKey TValue)),
    m.HashTable[b]? = some chain →
    ∀ node ∈ chain, Hash node.Key % m.HashSize = b ∧ node.Key ∈ keys
  nodup : ∀ (b : Nat) (chain : List (MapNode TKey TValue)),
    m.HashTable[b]? = some chain → (chain.map MapNode.Key).Nodup
  count : m.ItemCount = toUInt32 m.nodeCount

end Map

/-- A call of one of the operations that `Map` and `RefMap` share. -/
inductive MapCall (TKey TValue : Type) where
  | insert (key : TKey)
  | insertValue (key : TKey) (value : TValue)
  | find (key : TKey)
  | clear
deriving DecidableEq, Repr

/-- What a call returns: for `Insert` and `Find` the returned pointer (`none` for
`nullptr`) and the value read through it, for `Clear` nothing. -/
inductive MapReturn (TValue : Type) where
  | pointer (slot : Option ValueSlot) (value : Option TValue)
  | nothing
deriving DecidableEq, Repr

namespace Map

variable {TKey TValue : Type} [DecidableEq TKey] [Inhabited TValue]

/-- One call on a `Map`: what it returns and the state it leaves. -/
def call (Hash : TKey → Nat) (m : Map TKey TValue) :
    MapCall TKey TValue → Option (MapReturn TValue × Map TKey TValue)
  | MapCall.insert key =>
    (Insert Hash m key).map fun r => (MapReturn.pointer (some r.1) (r.2.valueAt r.1), r.2)
  | MapCall.insertValue key value =>
    (InsertValue Hash m key value).map fun r =>
      (MapReturn.pointer (some r.1) (r.2.valueAt r.1), r.2)
  | MapCall.find key =>
    (Find Hash m key).map fun r => (MapReturn.pointer r (r.bind m.valueAt), m)
  | MapCall.clear => m.Clear.map fun m' => (MapReturn.nothing, m')

/-- A sequence of calls on a `Map`: what they return, in order, and the final state. -/
def run (Hash : TKey → Nat) (m : Map TKey TValue) :
    List (MapCall TKey TValue) → Option (List (MapReturn TValue) × Map TKey TValue)
  | [] => some ([], m)
  | c :: cs =>
    (call Hash m c).bind fun r => (run Hash r.2 cs).map fun rs => (r.1 :: rs.1, rs.2)

end Map

namespace RefMap

variable {TKey TValue : Type} [DecidableEq TKey] [Inhabited TValue]

/-- One call on a `RefMap`: what it returns and the state it leaves. -/
def call (Hash : TKey → Nat) (m : RefMap TKey TValue) :
    MapCall TKey TValue → Option (MapReturn TValue × RefMap TKey TValue)
  | MapCall.insert key =>
    (Insert Hash m key).map fun r => (MapReturn.pointer (some r.1) (r.2.valueAt r.1), r.2)
  | MapCall.insertValue key value =>
    (InsertValue Hash m key value).map fun r =>
      (MapReturn.pointer (some r.1) (r.2.valueAt r.1), r.2)
  | MapCall.find key =>
    (Find Hash m key).map fun r => (MapReturn.pointer r (r.bind m.valueAt), m)
  | MapCall.clear => m.Clear.map fun m' => (MapReturn.nothing, m')

/-- A sequence of calls on a `RefMap`: what they return, in order, and the final state. -/
def run (Hash : TKey → Nat) (m : RefMap TKey TValue) :
    List (MapCall TKey TValue) → Option (List (MapReturn TValue) × RefMap TKey TValue)
  | [] => some ([], m)
  | c :: cs =>
    (call Hash m c).bind fun r => (run Hash r.2 cs).map fun rs => (r.1 :: rs.1, rs.2)

/-- The `Map` with the fields of a `RefMap`. -/
def toMap (m : RefMap TKey TValue) : Map TKey TValue := ⟨m.HashSize, m.HashTable, m.ItemCount⟩

/-- The `RefMap` with the fields of a `Map`. -/
def ofMap (m : Map TKey TValue) : RefMap TKey TValue := ⟨m.ItemCount, m.HashSize, m.HashTable⟩

end RefMap

namespace BitArray

variable {TDWords : Nat}

/-- Representation invariant of `BitArray<TDWords>`: `Bits` has `TDWords` words. -/
def WF (b : BitArray TDWords) : Prop := b.Bits.length = TDWords

end BitArray

/-! ## Concrete inputs -/

/-- The map after `Init(3)`, `Insert(4, 7)`, `Insert(7, 9)` with the identity as hash. -/
def exampleMap : Map Nat Nat :=
  ⟨3, [[], [⟨4, 7⟩, ⟨7, 9⟩], []], 2⟩

/-- The map with one bucket after `Init(1)` and `Insert(key)` for the keys 0, 1, ..., n-1. -/
def chainMap (n : Nat) : Map Nat Nat :=
  ⟨1, [(List.range n).map fun k => ⟨k, default⟩], toUInt32 n⟩

/-- A hash environment on natural-number keys: the hash of a key is the key, and table sizes
come from a short table of primes. -/
def exampleEnv : HashEnv Nat :=
  ⟨fun k => k,
   fun n => if n ≤ 2 then 2 else if n ≤ 5 then 5 else if n ≤ 11 then 11 else 2 * n + 1⟩

/-- The set after `Add(5)` on the default-constructed set under `exampleEnv`. -/
def exampleSet1 : MultiHashSet Nat :=
  ⟨some [-1, 0], 2, ⟨[some (-3)], 1, 0, 1, 0⟩, ⟨[some 5], 1, 0, 1, 0⟩⟩

/-- The set after `Add(4294967290)` on the default-constructed set under `exampleEnv`. -/
def exampleSet3 : MultiHashSet Nat :=
  ⟨some [0, -1], 2, ⟨[some (-2)], 1, 0, 1, 0⟩, ⟨[some 4294967290], 1, 0, 1, 0⟩⟩

/-- The set that holds the one key 4294967290 in a table of `n` buckets, with the key's
index 0 as head of bucket `b` and `next` as its `NextIds` entry. -/
def hugeTableSet (n b : Nat) (next : Int) : MultiHashSet Nat :=
  ⟨some ((List.replicate n (-1)).set b 0), n, ⟨[some next], 1, 0, 1, 0⟩,
    ⟨[some 4294967290], 1, 0, 1, 0⟩⟩

/-- The full array of the `n` elements 0, 1, ..., n-1. -/
def rangeArray (n : Nat) : Array Nat := ⟨(List.range n).map some, n, 0, n, 0⟩

/-- A hash environment with the hash function `hash` whose table-size function returns
`n + 1` for `n`: a positive bucket count that is at least its argument. -/
def successorEnv (hash : Nat → Nat) : HashEnv Nat := ⟨hash, fun n => n + 1⟩

/-- A hash environment with the identity as hash function whose table-size function
returns 1 for every `n`: a positive bucket count. -/
def oneBucketEnv : HashEnv Nat := ⟨fun k => k, fun _ => 1⟩

/-- A map with the key 5 at index 0 and the value 3 for it. -/
def exampleMultiHashMap : MultiHashMap Nat Nat := ⟨exampleSet1, some [some 3], 1⟩

/-- A map with the key 4294967290 at index 0 and the value 1 for it. -/
def exampleOtherMultiHashMap : MultiHashMap Nat Nat := ⟨exampleSet3, some [some 1], 1⟩

/-- A bit array of two words with the bits 1 and 34 set. -/
def exampleBitArray : BitArray 2 := ⟨[1, 2]⟩

/-- The bit array of `TDWords` words in which no bit is set. -/
def zeroBitArray (TDWords : Nat) : BitArray TDWords := ⟨List.replicate TDWords 0⟩

/-- A `Set` of capacity 4 that holds the one element 7. -/
def exampleSparseSet : Set Nat := ⟨⟨[some 7, none, none, none], 4, 1⟩, 0⟩

/-- A full `Set` of one element whose `CapacityIncrementSize` is `inc`. -/
def fullSet (inc : Nat) : Set Nat := ⟨⟨[some 7], 1, 1⟩, inc⟩

/-- A full compact set of the three elements 0, 1, 2. -/
def exampleCompactSet : CompactSet Nat := ⟨[some 0, some 1, some 2], 3, 3⟩

/-- The set after `Add(5)`, `Add(7)` on the default-constructed set under `exampleEnv`. -/
def exampleSet2 : MultiHashSet Nat :=
  ⟨some [0, -1, 1, -1, -1], 5, ⟨[some (-2), some (-4)], 2, 0, 2, 0⟩,
    ⟨[some 5, some 7], 2, 0, 2, 0⟩⟩

/-! # Theorems -/

/-! ## Machine integers, slots and loops -/

theorem toInt32_of_range (z : Int) (h0 : -2147483648 ≤ z) (h1 : z < 2147483648) :
    toInt32 z = z := by
  unfold toInt32
  rw [Int.emod_eq_of_lt (by omega) (by omega)]
  omega

theorem toInt32_natCast (n : Nat) (h : n < 2147483648) : toInt32 (n : Int) = n :=
  toInt32_of_range _ (by omega) (by omega)

theorem intToUInt32_natCast (n : Nat) (h : n < 4294967296) : intToUInt32 (n : Int) = n := by
  unfold intToUInt32
  rw [Int.emod_eq_of_lt (by omega) (by omega)]
  simp

theorem sentinel_eq (b : Nat) (h : b < 2147483647) :
    toInt32 (-2 - toInt32 (b : Int)) = -2 - (b : Int) := by
  rw [toInt32_natCast b (by omega)]
  exact toInt32_of_range _ (by omega) (by omega)

theorem toUInt32_of_lt (n : Nat) (h : n < 4294967296) : toUInt32 n = n :=
  Nat.mod_eq_of_lt h

theorem forLoop_inv {σ : Type} (body : Nat → σ → Option σ) (P : Nat → σ → Prop) :
    ∀ (n lo : Nat) (s : σ), P lo s →
      (∀ i t, lo ≤ i → i < lo + n → P i t → ∃ t', body i t = some t' ∧ P (i + 1) t') →
      ∃ s', forLoop body n lo s = some s' ∧ P (lo + n) s' := by
  intro n
  induction n with
  | zero => intro lo s h0 _; exact ⟨s, rfl, by simpa using h0⟩
  | succ n ih =>
    intro lo s h0 hstep
    obtain ⟨t, ht, hP⟩ := hstep lo s (le_refl _) (by omega) h0
    obtain ⟨s', hs', hP'⟩ := ih (lo + 1) t hP (fun i u h1 h2 hu => hstep i u (by omega) (by omega) hu)
    refine ⟨s', ?_, ?_⟩
    · simp [forLoop, ht, hs']
    · have : lo + (n + 1) = lo + 1 + n := by omega
      rw [this]; exact hP'

theorem readSlot_eq_some {T : Type} (buf : List (Option T)) (i : Nat) (v : T) :
    readSlot buf i = some v ↔ buf[i]? = some (some v) := by
  unfold readSlot
  split
  · rename_i w h; rw [h]; simp
  · rename_i h
    constructor
    · intro h'; cases h'
    · intro h'; exact absurd h' (h v)

theorem readSlot_lt {T : Type} (buf : List (Option T)) (i : Nat) (v : T)
    (h : readSlot buf i = some v) : i < buf.length := by
  rw [readSlot_eq_some] at h
  by_contra hc
  rw [List.getElem?_eq_none (by omega)] at h
  cases h

theorem readSlot_set_eq {T : Type} (buf : List (Option T)) (i : Nat) (v : T)
    (h : i < buf.length) : readSlot (buf.set i (some v)) i = some v := by
  rw [readSlot_eq_some]; simp [h]

theorem readSlot_set_ne {T : Type} (buf : List (Option T)) (i j : Nat) (x : Option T)
    (h : j ≠ i) : readSlot (buf.set j x) i = readSlot buf i := by
  unfold readSlot
  rw [List.getElem?_set_ne h]

/-! ## `Array<T>` -/

namespace Array

variable {T : Type}

theorem copy_step (l : List (Option T)) (n i : Nat) (v : T) (hi : i < n)
    (hv : l[i]? = some (some v)) :
    (l.take i ++ List.replicate (n - i) none).set i (some v)
      = l.take (i + 1) ++ List.replicate (n - (i + 1)) none := by
  have hl : i < l.length := by
    by_contra hc
    rw [List.getElem?_eq_none (by omega)] at hv
    cases hv
  apply List.ext_getElem?
  intro j
  rcases Nat.lt_trichotomy j i with h | h | h
  · rw [List.getElem?_set_ne (by omega)]
    rw [List.getElem?_append_left (by simp; omega), List.getElem?_append_left (by simp; omega)]
    rw [List.getElem?_take, List.getElem?_take, if_pos h, if_pos (by omega)]
  · subst h
    rw [List.getElem?_set_self (by simp; omega)]
    rw [List.getElem?_append_left (by simp; omega)]
    simp [List.getElem?_take, hv]
  · have e1 : (l.take i).length = i := by simp; omega
    have e2 : (l.take (i + 1)).length = i + 1 := by simp; omega
    rw [List.getElem?_set_ne (by omega)]
    rw [List.getElem?_append_right (by omega), List.getElem?_append_right (by omega)]
    rw [e1, e2, List.getElem?_replicate, List.getElem?_replicate]
    by_cases hj : j < n
    · rw [if_pos (by omega), if_pos (by omega)]
    · rw [if_neg (by omega), if_neg (by omega)]

/-- Closed form of `Reallocate` when the elements to copy are constructed. -/
theorem Reallocate_eq (a : Array T) (newCapacity : Nat)
    (h : ∀ i, i < min a.Size newCapacity → ∃ v, a.get i = some v) :
    a.Reallocate newCapacity = some { a with
      Buf := a.Buf.take (min a.Size newCapacity)
        ++ List.replicate (newCapacity - min a.Size newCapacity) none,
      Capacity := newCapacity } := by
  unfold Reallocate
  obtain ⟨nb, hnb, hP⟩ := forLoop_inv
    (fun i newBuf => (readSlot a.Buf i).bind (writeSlot newBuf i))
    (fun i nb => nb = a.Buf.take i ++ List.replicate (newCapacity - i) none)
    (min a.Size newCapacity) 0 (List.replicate newCapacity none) (by simp)
    (by
      intro i t _ hi ht
      obtain ⟨v, hv⟩ := h i (by omega)
      have hv' : readSlot a.Buf i = some v := hv
      refine ⟨a.Buf.take (i + 1) ++ List.replicate (newCapacity - (i + 1)) none, ?_, rfl⟩
      have hin : i < newCapacity := by
        have := Nat.min_le_right a.Size newCapacity
        omega
      have hlen : i < a.Buf.length := readSlot_lt _ _ _ hv'
      show (readSlot a.Buf i).bind (writeSlot t i) = _
      rw [hv', Option.some_bind, ht]
      unfold writeSlot
      rw [if_pos (by simp; omega)]
      rw [copy_step a.Buf newCapacity i v hin ((readSlot_eq_some _ _ _).1 hv')])
  rw [hnb]
  simp only [Nat.zero_add] at hP
  simp [hP]

theorem clear_step (l : List (Option T)) (i : Nat) (hi : i < l.length) :
    (List.replicate i none ++ l.drop i).set i none
      = List.replicate (i + 1) none ++ l.drop (i + 1) := by
  apply List.ext_getElem?
  intro j
  rcases Nat.lt_trichotomy j i with h | h | h
  · rw [List.getElem?_set_ne (by omega)]
    rw [List.getElem?_append_left (by simp; omega), List.getElem?_append_left (by simp; omega)]
    rw [List.getElem?_replicate, List.getElem?_replicate]
    simp [h]; omega
  · subst h
    rw [List.getElem?_set_self (by simp; omega)]
    rw [List.getElem?_append_left (by simp)]
    rw [List.getElem?_replicate]; simp
  · rw [List.getElem?_set_ne (by omega)]
    rw [List.getElem?_append_right (by simp; omega), List.getElem?_append_right (by simp; omega)]
    simp only [List.length_replicate, List.getElem?_drop]
    congr 1; omega

/-- Closed form of `Clear` when `Size` does not exceed the buffer. -/
theorem Clear_eq (a : Array T) (h : a.Size ≤ a.Buf.length) :
    a.Clear = some { a with
      Buf := List.replicate a.Size none ++ a.Buf.drop a.Size, Size := 0 } := by
  unfold Clear
  obtain ⟨nb, hnb, hP⟩ := forLoop_inv
    (fun i (buf : List (Option T)) => destroySlot buf i)
    (fun i nb => nb = List.replicate i none ++ a.Buf.drop i)
    a.Size 0 a.Buf (by simp)
    (by
      intro i t _ hi ht
      refine ⟨List.replicate (i + 1) none ++ a.Buf.drop (i + 1), ?_, rfl⟩
      show destroySlot t i = _
      unfold destroySlot
      rw [ht, if_pos (by simp; omega), clear_step a.Buf i (by omega)])
  rw [hnb]
  simp only [Nat.zero_add] at hP
  simp [hP]

theorem readSlot_take_append (l r : List (Option T)) (m i : Nat) (h : i < m)
    (hm : m ≤ l.length) : readSlot (l.take m ++ r) i = readSlot l i := by
  unfold readSlot
  rw [List.getElem?_append_left (by simp; omega), List.getElem?_take, if_pos h]

theorem readSlot_append_replicate (l : List (Option T)) (n i : Nat) (h : l.length ≤ i) :
    readSlot (l ++ List.replicate n none) i = none := by
  unfold readSlot
  rw [List.getElem?_append_right h, List.getElem?_replicate]
  split <;> simp_all

theorem CapacityIncrement_lt (a : Array T) : a.CapacityIncrement < 4294967296 := by
  unfold CapacityIncrement toUInt32
  split
  · exact Nat.mod_lt _ (by norm_num)
  · norm_num

/-- The placement construction `new (&Buf[Size++]) T(value)` on an array with a free slot. -/
theorem push_spec (a : Array T) (v : T) (hbuf : a.Buf.length = a.Capacity)
    (hcap : a.Capacity < 4294967296) (hsz : a.Size < a.Capacity)
    (hel : ∀ i, i < a.Size → ∃ w, a.get i = some w)
    (hraw : ∀ i, a.Size ≤ i → a.get i = none) :
    WF { a with Buf := a.Buf.set a.Size (some v), Size := toUInt32 (a.Size + 1) } ∧
    toUInt32 (a.Size + 1) = a.Size + 1 ∧
    (∀ i, i < a.Size → readSlot (a.Buf.set a.Size (some v)) i = a.get i) ∧
    readSlot (a.Buf.set a.Size (some v)) a.Size = some v := by
  have e : toUInt32 (a.Size + 1) = a.Size + 1 := toUInt32_of_lt _ (by omega)
  have r1 : ∀ i, i < a.Size → readSlot (a.Buf.set a.Size (some v)) i = a.get i := by
    intro i hi
    rw [readSlot_set_ne _ _ _ _ (by omega)]; rfl
  have r2 : readSlot (a.Buf.set a.Size (some v)) a.Size = some v :=
    readSlot_set_eq _ _ _ (by omega)
  refine ⟨⟨?_, hcap, ?_, ?_, ?_⟩, e, r1, r2⟩
  · simpa using hbuf
  · show toUInt32 (a.Size + 1) ≤ a.Capacity
    rw [e]; omega
  · intro i hi
    have hi' : i < a.Size + 1 := by
      have : i < toUInt32 (a.Size + 1) := hi
      rwa [e] at this
    show ∃ w, readSlot (a.Buf.set a.Size (some v)) i = some w
    by_cases h : i < a.Size
    · rw [r1 i h]; exact hel i h
    · have : i = a.Size := by omega
      subst this; exact ⟨v, r2⟩
  · intro i hi
    have hi' : a.Size + 1 ≤ i := by
      have : toUInt32 (a.Size + 1) ≤ i := hi
      rwa [e] at this
    show readSlot (a.Buf.set a.Size (some v)) i = none
    rw [readSlot_set_ne _ _ _ _ (by omega)]
    exact hraw i (by omega)

/-- What a returning `Add` does to a well-formed array. -/
theorem array_Add_spec (a a' : Array T) (v : T) (hwf : a.WF) (h : a.Add v = some a') :
    a'.WF ∧ a'.Size = a.Size + 1 ∧ (∀ i, i < a.Size → a'.get i = a.get i) ∧
    a'.get a.Size = some v ∧ a'.Unknown = a.Unknown ∧ a'.Unknown2 = a.Unknown2 ∧
    a'.Capacity = (if a.Capacity ≤ a.Size then a.CapacityIncrement else a.Capacity) := by
  unfold Add at h
  by_cases hc : a.Capacity ≤ a.Size
  · rw [if_pos hc, Reallocate_eq a _ (fun i hi => hwf.elems i (by omega))] at h
    simp only [Option.some_bind] at h
    have heq : a.Size = a.Capacity := Nat.le_antisymm hwf.size hc
    have hmin : min a.Size a.CapacityIncrement ≤ a.CapacityIncrement := Nat.min_le_right _ _
    have hmin' : min a.Size a.CapacityIncrement ≤ a.Buf.length := by
      rw [hwf.buf, ← heq]; exact Nat.min_le_left _ _
    have hlen : (a.Buf.take (min a.Size a.CapacityIncrement)
        ++ List.replicate (a.CapacityIncrement - min a.Size a.CapacityIncrement) none).length
        = a.CapacityIncrement := by
      simp only [List.length_append, List.length_take, List.length_replicate]
      omega
    unfold writeSlot at h
    by_cases hw : a.Size < a.CapacityIncrement
    · rw [if_pos (by rw [hlen]; exact hw)] at h
      simp only [Option.map_some', Option.some.injEq] at h
      have hm : min a.Size a.CapacityIncrement = a.Size := Nat.min_eq_left (Nat.le_of_lt hw)
      have hp := push_spec
        ⟨a.Buf.take (min a.Size a.CapacityIncrement)
            ++ List.replicate (a.CapacityIncrement - min a.Size a.CapacityIncrement) none,
          a.CapacityIncrement, a.Unknown, a.Size, a.Unknown2⟩ v hlen (CapacityIncrement_lt a) hw
        (by
          intro i hi
          obtain ⟨w, hw'⟩ := hwf.elems i hi
          refine ⟨w, ?_⟩
          show readSlot _ i = some w
          rw [readSlot_take_append _ _ _ _ (by rw [hm]; exact hi) hmin']
          exact hw')
        (by
          intro i hi
          show readSlot _ i = none
          exact readSlot_append_replicate _ _ _ (by
            simp only [List.length_take]
            have : a.Size ≤ i := hi
            omega))
      obtain ⟨h1, h2, h3, h4⟩ := hp
      subst h
      refine ⟨h1, h2, ?_, h4, rfl, rfl, by rw [if_pos hc]⟩
      intro i hi
      show readSlot _ i = _
      rw [h3 i hi]
      show readSlot _ i = _
      rw [readSlot_take_append _ _ _ _ (by rw [hm]; exact hi) hmin']; rfl
    · rw [if_neg (by rw [hlen]; exact hw)] at h
      cases h
  · rw [if_neg hc] at h
    simp only [Option.some_bind] at h
    unfold writeSlot at h
    have hs : a.Size < a.Capacity := by omega
    rw [if_pos (by rw [hwf.buf]; exact hs)] at h
    simp only [Option.map_some', Option.some.injEq] at h
    obtain ⟨h1, h2, h3, h4⟩ := push_spec a v hwf.buf hwf.cap hs hwf.elems hwf.raw
    subst h
    exact ⟨h1, h2, h3, h4, rfl, rfl, by rw [if_neg hc]⟩

/-- `Add` returns whenever the array has room or its capacity can be doubled in 32 bits. -/
theorem array_Add_total (a : Array T) (v : T) (hwf : a.WF)
    (h : a.Size < a.Capacity ∨ 2 * a.Capacity < 4294967296) : ∃ a', a.Add v = some a' := by
  unfold Add
  by_cases hc : a.Capacity ≤ a.Size
  · rw [if_pos hc, Reallocate_eq a _ (fun i hi => hwf.elems i (by omega))]
    simp only [Option.some_bind]
    have h2 : 2 * a.Capacity < 4294967296 := by
      rcases h with h | h
      · omega
      · exact h
    have hw : a.Size < a.CapacityIncrement := by
      have := hwf.size
      unfold CapacityIncrement
      split
      · rw [toUInt32_of_lt _ h2]; omega
      · omega
    have hmin' : min a.Size a.CapacityIncrement ≤ a.Buf.length := by
      rw [hwf.buf]; exact Nat.le_trans (Nat.min_le_left _ _) hwf.size
    unfold writeSlot
    rw [if_pos (by
      simp only [List.length_append, List.length_take, List.length_replicate]
      omega)]
    exact ⟨_, rfl⟩
  · rw [if_neg hc]
    simp only [Option.some_bind]
    unfold writeSlot
    rw [if_pos (by rw [hwf.buf]; omega)]
    exact ⟨_, rfl⟩

theorem array_doubling_le (a : Array T) (h : a.Doubling) : a.Capacity ≤ 2147483648 := by
  rcases h with h | ⟨k, hk, h⟩
  · omega
  · rw [h]
    calc 2 ^ k ≤ 2 ^ 31 := Nat.pow_le_pow_right (by norm_num) hk
      _ = 2147483648 := by norm_num

theorem array_Add_doubling (a a' : Array T) (v : T) (hwf : a.WF) (hd : a.Doubling)
    (h : a.Add v = some a') : a'.Doubling := by
  obtain ⟨hwf', hsz, _, _, _, _, hcap⟩ := array_Add_spec a a' v hwf h
  by_cases hc : a.Capacity ≤ a.Size
  · rw [if_pos hc] at hcap
    have hpos : 0 < a'.Capacity := by have := hwf'.size; omega
    unfold CapacityIncrement at hcap
    rcases hd with h0 | ⟨k, hk, hk'⟩
    · rw [if_neg (by omega)] at hcap
      exact Or.inr ⟨0, by omega, by rw [hcap]; rfl⟩
    · have hp : 0 < a.Capacity := by rw [hk']; exact Nat.pos_pow_of_pos _ (by norm_num)
      rw [if_pos hp, hk'] at hcap
      by_cases h31 : k = 31
      · subst h31
        rw [hcap] at hpos
        exact absurd hpos (by decide)
      · refine Or.inr ⟨k + 1, by omega, ?_⟩
        have hlt : 2 * 2 ^ k < 4294967296 := by
          have : 2 ^ (k + 1) ≤ 2 ^ 31 := Nat.pow_le_pow_right (by norm_num) (by omega)
          rw [pow_succ] at this
          omega
        rw [hcap, toUInt32_of_lt _ hlt, pow_succ]; ring
  · rw [if_neg hc] at hcap
    unfold Doubling
    rw [hcap]; exact hd

theorem array_Clear_spec (a : Array T) (hwf : a.WF) :
    ∃ a', a.Clear = some a' ∧ a'.WF ∧ a'.Size = 0 ∧ a'.Capacity = a.Capacity := by
  have hle : a.Size ≤ a.Buf.length := by rw [hwf.buf]; exact hwf.size
  refine ⟨_, Clear_eq a hle, ⟨?_, hwf.cap, Nat.zero_le _, ?_, ?_⟩, rfl, rfl⟩
  · simp only [List.length_append, List.length_replicate, List.length_drop]
    have := hwf.buf
    omega
  · intro i hi
    exact absurd hi (Nat.not_lt_zero _)
  · intro i _
    show readSlot (List.replicate a.Size none ++ a.Buf.drop a.Size) i = none
    by_cases h : i < a.Size
    · unfold readSlot
      rw [List.getElem?_append_left (by simpa using h), List.getElem?_replicate, if_pos h]
    · have hr := hwf.raw i (by omega)
      unfold get readSlot at hr
      unfold readSlot
      rw [List.getElem?_append_right (by simp; omega), List.length_replicate,
        List.getElem?_drop]
      have : a.Size + (i - a.Size) = i := by omega
      rw [this]; exact hr

end Array

/-! ## `MultiHashSet<T>`: chains and lookups -/

namespace Array

variable {T : Type}

theorem get_lt (a : Array T) (i : Nat) (v : T) (h : a.get i = some v) : i < a.Buf.length :=
  readSlot_lt _ _ _ h

/-- The assignment `a[i] = v` to a constructed element of a well-formed array. -/
theorem array_set_spec (a : Array T) (i : Nat) (v : T) (hwf : a.WF) (hi : i < a.Size) :
    ∃ a', a.set i v = some a' ∧ a'.WF ∧ a'.Size = a.Size ∧ a'.Capacity = a.Capacity ∧
      a'.get i = some v ∧ ∀ j, j ≠ i → a'.get j = a.get j := by
  have hlen : i < a.Buf.length := by rw [hwf.buf]; exact Nat.lt_of_lt_of_le hi hwf.size
  refine ⟨{ a with Buf := a.Buf.set i (some v) }, ?_, ⟨?_, hwf.cap, hwf.size, ?_, ?_⟩, rfl, rfl,
    readSlot_set_eq _ _ _ hlen, fun j hj => readSlot_set_ne _ _ _ _ (Ne.symm hj)⟩
  · unfold set writeSlot
    rw [if_pos hlen]; rfl
  · simpa using hwf.buf
  · intro j hj
    show ∃ w, readSlot (a.Buf.set i (some v)) j = some w
    by_cases h : j = i
    · subst h; exact ⟨v, readSlot_set_eq _ _ _ hlen⟩
    · rw [readSlot_set_ne _ _ _ _ (Ne.symm h)]; exact hwf.elems j hj
  · intro j hj
    have hj' : a.Size ≤ j := hj
    show readSlot (a.Buf.set i (some v)) j = none
    rw [readSlot_set_ne _ _ _ _ (by omega)]; exact hwf.raw j hj'

end Array

namespace MultiHashSet

variable {T : Type} [DecidableEq T]

theorem chain_le {s : MultiHashSet T} {j i : Nat} (h : Chain s j i) : i ≤ j := by
  induction h with
  | here i => exact Nat.le_refl _
  | step j j' i _ hlt _ ih => omega

theorem chain_congr {s s' : MultiHashSet T} {j i : Nat} (h : Chain s j i)
    (hn : ∀ x, x ≤ j → s'.NextIds.get x = s.NextIds.get x) : Chain s' j i := by
  induction h with
  | here i => exact Chain.here i
  | step j j' i hget hlt _ ih =>
    refine Chain.step j j' i ?_ hlt (ih (fun x hx => hn x (by omega)))
    rw [hn j (Nat.le_refl _)]; exact hget

theorem bucketOf_eq (E : HashEnv T) (s s' : MultiHashSet T) (h : s'.NumHashKeys = s.NumHashKeys)
    (k : T) : bucketOf E s' k = bucketOf E s k := by
  unfold bucketOf; rw [h]

theorem bucketOf_lt (E : HashEnv T) (s : MultiHashSet T) (k : T) (b : Nat)
    (h : bucketOf E s k = some b) :
    0 < s.NumHashKeys ∧ b = toUInt32 (E.MultiHashMapHash k) % s.NumHashKeys ∧
      b < s.NumHashKeys := by
  unfold bucketOf at h
  by_cases h0 : s.NumHashKeys = 0
  · rw [if_pos h0] at h; cases h
  · rw [if_neg h0] at h
    have hp : 0 < s.NumHashKeys := Nat.pos_of_ne_zero h0
    cases h
    exact ⟨hp, rfl, Nat.mod_lt _ hp⟩

theorem bucketOf_pos (E : HashEnv T) (s : MultiHashSet T) (k : T) (h : 0 < s.NumHashKeys) :
    bucketOf E s k = some (toUInt32 (E.MultiHashMapHash k) % s.NumHashKeys) := by
  unfold bucketOf; rw [if_neg (by omega)]

/-- The walk started on the chain of a stored key returns the index of that key. -/
theorem FindIndexLoop_chain (s : MultiHashSet T) (key : T) (i m : Nat)
    (hkey : s.Keys.get i = some key)
    (hread : ∀ j, j < m → ∃ k, s.Keys.get j = some k)
    (hdist : ∀ j, j < m → s.Keys.get j = some key → j = i)
    (hm : m ≤ 4294967296) :
    ∀ j, Chain s j i → j < m → ∀ fuel, j < fuel →
      FindIndexLoop s key fuel (j : Int) = some (i : Int) := by
  intro j hc
  induction hc with
  | here i =>
    intro hj fuel hf
    obtain ⟨f, rfl⟩ : ∃ f, fuel = f + 1 := ⟨fuel - 1, by omega⟩
    unfold FindIndexLoop
    rw [if_neg (by omega)]
    simp only [intToUInt32_natCast i (by omega), hkey, Option.some_bind, if_true]
  | step j j' i hget hlt _ ih =>
    intro hj fuel hf
    obtain ⟨f, rfl⟩ : ∃ f, fuel = f + 1 := ⟨fuel - 1, by omega⟩
    obtain ⟨k, hk⟩ := hread j hj
    unfold FindIndexLoop
    rw [if_neg (by omega)]
    simp only [intToUInt32_natCast j (by omega), hk, Option.some_bind]
    by_cases hkk : k = key
    · rw [if_pos hkk]
      have : j = i := hdist j hj (by rw [hk, hkk])
      rw [this]
    · rw [if_neg hkk, hget, Option.some_bind]
      exact ih hkey hdist (by omega) f (by omega)

/-- Whatever the walk returns is -1 or the index of a slot that holds the key. -/
theorem FindIndexLoop_sound (s : MultiHashSet T) (key : T) :
    ∀ (fuel : Nat) (j r : Int), FindIndexLoop s key fuel j = some r →
      r = -1 ∨ (0 ≤ r ∧ s.Keys.get (intToUInt32 r) = some key) := by
  intro fuel
  induction fuel with
  | zero =>
    intro j r h
    unfold FindIndexLoop at h
    by_cases hj : j < 0
    · rw [if_pos hj] at h; cases h; exact Or.inl rfl
    · rw [if_neg hj] at h; cases h
  | succ f ih =>
    intro j r h
    unfold FindIndexLoop at h
    by_cases hj : j < 0
    · rw [if_pos hj] at h; cases h; exact Or.inl rfl
    · rw [if_neg hj] at h
      simp only at h
      cases hk : s.Keys.get (intToUInt32 j) with
      | none => rw [hk] at h; cases h
      | some k =>
        rw [hk, Option.some_bind] at h
        by_cases hkk : k = key
        · rw [if_pos hkk] at h
          cases h
          exact Or.inr ⟨by omega, by rw [hk, hkk]⟩
        · rw [if_neg hkk] at h
          cases hn : s.NextIds.get (intToUInt32 j) with
          | none => rw [hn] at h; cases h
          | some nx =>
            rw [hn, Option.some_bind] at h
            exact ih nx r h

theorem FindIndex_sound (E : HashEnv T) (s : MultiHashSet T) (key : T) (r : Int)
    (h : FindIndex E s key = some r) :
    r = -1 ∨ (0 ≤ r ∧ s.Keys.get (intToUInt32 r) = some key) := by
  unfold FindIndex at h
  by_cases h0 : s.NumHashKeys = 0
  · rw [if_pos h0] at h; cases h; exact Or.inl rfl
  · rw [if_neg h0] at h
    cases hh : s.readHashKeys (toUInt32 (E.MultiHashMapHash key) % s.NumHashKeys) with
    | none => rw [hh] at h; cases h
    | some j =>
      rw [hh, Option.some_bind] at h
      exact FindIndexLoop_sound s key _ j r h

/-- In a state that satisfies the invariant, `FindIndex` of a stored key returns its dense
index. -/
theorem FindIndex_present (E : HashEnv T) (s : MultiHashSet T) (hinv : Inv E s) (key : T)
    (i : Nat) (hi : i < s.Keys.Size) (hkey : s.Keys.get i = some key) :
    FindIndex E s key = some (i : Int) := by
  have hpos : 0 < s.NumHashKeys := by
    by_contra hc
    have := (hinv.noTable (by omega)).2
    omega
  have hl := hinv.linked hpos
  obtain ⟨b, h, hb, hh, hch⟩ := hl.onChain i key hi hkey
  obtain ⟨_, hb', _⟩ := bucketOf_lt E s key b hb
  have hlt : h < s.Keys.Size := by
    rcases hl.heads b h hh with h1 | ⟨j, k, h1, h2, _, _⟩
    · omega
    · have : h = j := by exact_mod_cast h1
      omega
  have hcap : s.Keys.Size ≤ s.Keys.Buf.length := by rw [hinv.keys.buf]; exact hinv.keys.size
  unfold FindIndex
  rw [if_neg (by omega), ← hb', hh, Option.some_bind]
  exact FindIndexLoop_chain s key i s.Keys.Size hkey hinv.keys.elems
    (fun j hj hk => hinv.distinct j i key hj hi hk hkey)
    (by have := hinv.keys.cap; have := hinv.keys.size; omega) h hch hlt _ (by omega)

/-- One call of `InsertToHashMap` for the key at index `m` extends the linking of the
first `m` keys to the first `m + 1` keys. -/
theorem InsertToHashMap_step (E : HashEnv T) (s : MultiHashSet T) (key : T) (m : Nat)
    (hl : Linked E s m) (hn : s.NextIds.WF) (hm : m < s.NextIds.Size)
    (hkey : s.Keys.get m = some key) (h31 : m < 2147483648) :
    ∃ s', InsertToHashMap E s key (toInt32 (m : Int)) = some s' ∧ s'.Keys = s.Keys ∧
      s'.NumHashKeys = s.NumHashKeys ∧ s'.NextIds.WF ∧ s'.NextIds.Size = s.NextIds.Size ∧
      s'.NextIds.Capacity = s.NextIds.Capacity ∧ Linked E s' (m + 1) := by
  obtain ⟨hk, hhk, hlen⟩ := hl.table
  have hpos := hl.numPos
  have hb := bucketOf_pos E s key hpos
  generalize hbdef : toUInt32 (E.MultiHashMapHash key) % s.NumHashKeys = b at hb
  have hblt : b < s.NumHashKeys := by rw [← hbdef]; exact Nat.mod_lt _ hpos
  have hblt' : b < hk.length := by rw [hlen]; exact hblt
  have hr : s.readHashKeys b = some hk[b] := by
    unfold readHashKeys
    rw [hhk, Option.some_bind, List.getElem?_eq_getElem hblt']
  generalize hprev : hk[b] = prev at hr
  obtain ⟨n', hset, hwf', hsz', hcap', hget', hother⟩ :=
    Array.array_set_spec s.NextIds m
      (if prev < 0 then toInt32 (-2 - toInt32 (b : Int)) else prev) hn hm
  have hrs : ∀ b', readHashKeys ⟨some (hk.set b (m : Int)), s.NumHashKeys, n', s.Keys⟩ b'
      = (hk.set b (m : Int))[b']? := fun b' => rfl
  have hro : ∀ b', s.readHashKeys b' = hk[b']? := by
    intro b'; unfold readHashKeys; rw [hhk, Option.some_bind]
  have hbk : ∀ k, bucketOf E ⟨some (hk.set b (m : Int)), s.NumHashKeys, n', s.Keys⟩ k
      = bucketOf E s k := fun k => bucketOf_eq E s _ rfl k
  have hhead := hl.heads b prev hr
  refine ⟨⟨some (hk.set b (m : Int)), s.NumHashKeys, n', s.Keys⟩, ?_, rfl, rfl, hwf', hsz',
    hcap', ⟨⟨_, rfl, by simpa using hlen⟩, hpos, ?_, ?_, ?_⟩⟩
  · unfold InsertToHashMap
    rw [hb, Option.some_bind, hr, Option.some_bind]
    simp only [toInt32_natCast m h31, intToUInt32_natCast m (by omega), hset,
      Option.some_bind]
    unfold writeHashKeys
    simp only [hhk, Option.some_bind, if_pos hblt', Option.map_some']
  · intro b' h hh
    rw [hrs] at hh
    by_cases hbb : b' = b
    · subst hbb
      rw [List.getElem?_set_self hblt'] at hh
      cases hh
      exact Or.inr ⟨m, key, rfl, Nat.lt_succ_self _, hkey, by rw [hbk]; exact hb⟩
    · rw [List.getElem?_set_ne (Ne.symm hbb), ← hro] at hh
      rcases hl.heads b' h hh with h1 | ⟨j, k, h1, h2, h3, h4⟩
      · exact Or.inl h1
      · exact Or.inr ⟨j, k, h1, by omega, h3, by rw [hbk]; exact h4⟩
  · intro i k hi hik
    have hik' : s.Keys.get i = some k := hik
    by_cases him : i = m
    · subst him
      have hkk : k = key := by rw [hkey] at hik'; cases hik'; rfl
      subst hkk
      refine ⟨_, hget', ?_⟩
      rcases hhead with h1 | ⟨j, k', h1, h2, h3, h4⟩
      · left
        refine ⟨b, by rw [hbk]; exact hb, ?_⟩
        rw [if_pos (by omega)]
      · right
        refine ⟨j, k', ?_, h2, h3, by rw [hbk, hbk, h4, hb]⟩
        rw [if_neg (by omega)]; exact h1
    · obtain ⟨v, hv, hor⟩ := hl.links i k (by omega) hik'
      refine ⟨v, by rw [← hv]; exact hother i him, ?_⟩
      rcases hor with ⟨b0, h1, h2⟩ | ⟨j, k', h1, h2, h3, h4⟩
      · exact Or.inl ⟨b0, by rw [hbk]; exact h1, h2⟩
      · exact Or.inr ⟨j, k', h1, h2, h3, by rw [hbk, hbk]; exact h4⟩
  · intro i k hi hik
    have hik' : s.Keys.get i = some k := hik
    by_cases him : i = m
    · subst him
      have hkk : k = key := by rw [hkey] at hik'; cases hik'; rfl
      subst hkk
      refine ⟨b, i, by rw [hbk]; exact hb, ?_, Chain.here i⟩
      rw [hrs, List.getElem?_set_self hblt']
    · obtain ⟨b0, h0, hb0, hh0, hch⟩ := hl.onChain i k (by omega) hik'
      have hh0lt : h0 < m := by
        rcases hl.heads b0 h0 hh0 with h1 | ⟨j, _, h1, h2, _, _⟩
        · omega
        · have : h0 = j := by exact_mod_cast h1
          omega
      have hch' : Chain ⟨some (hk.set b (m : Int)), s.NumHashKeys, n', s.Keys⟩ h0 i :=
        chain_congr hch (fun x hx => hother x (by omega))
      by_cases hbb : b0 = b
      · subst hbb
        have hp : prev = (h0 : Int) := by
          rw [hr] at hh0; cases hh0; rfl
        refine ⟨b0, m, by rw [hbk]; exact hb0, ?_, Chain.step m h0 i ?_ hh0lt hch'⟩
        · rw [hrs, List.getElem?_set_self hblt']
        · show n'.get m = _
          rw [hget', hp, if_neg (by omega)]
      · refine ⟨b0, h0, by rw [hbk]; exact hb0, ?_, hch'⟩
        rw [hrs, List.getElem?_set_ne (Ne.symm hbb), ← hro]; exact hh0

/-! ## `MultiHashSet<T>`: the invariant is kept by `ResizeHashMap`, `Add` and `Clear` -/

theorem linked_congr (E : HashEnv T) (s s1 : MultiHashSet T) (m : Nat) (hl : Linked E s m)
    (hh : s1.HashKeys = s.HashKeys) (hnum : s1.NumHashKeys = s.NumHashKeys)
    (hkeys : ∀ j, j < m → s1.Keys.get j = s.Keys.get j)
    (hnext : ∀ j, j < m → s1.NextIds.get j = s.NextIds.get j) : Linked E s1 m := by
  have hbk : ∀ k, bucketOf E s1 k = bucketOf E s k := fun k => bucketOf_eq E s s1 hnum k
  have hro : ∀ b, s1.readHashKeys b = s.readHashKeys b := by
    intro b; unfold readHashKeys; rw [hh]
  have hlt : ∀ b (h : Nat), s.readHashKeys b = some (h : Int) → h < m := by
    intro b h hh0
    rcases hl.heads b h hh0 with h1 | ⟨j, _, h1, h2, _, _⟩
    · omega
    · have : h = j := by exact_mod_cast h1
      omega
  refine ⟨?_, by rw [hnum]; exact hl.numPos, ?_, ?_, ?_⟩
  · obtain ⟨hk, h1, h2⟩ := hl.table
    exact ⟨hk, by rw [hh]; exact h1, by rw [hnum]; exact h2⟩
  · intro b h hb
    rw [hro] at hb
    rcases hl.heads b h hb with h1 | ⟨j, k, h1, h2, h3, h4⟩
    · exact Or.inl h1
    · exact Or.inr ⟨j, k, h1, h2, by rw [hkeys j h2]; exact h3, by rw [hbk]; exact h4⟩
  · intro i k hi hik
    rw [hkeys i hi] at hik
    obtain ⟨v, hv, hor⟩ := hl.links i k hi hik
    refine ⟨v, by rw [hnext i hi]; exact hv, ?_⟩
    rcases hor with ⟨b0, h1, h2⟩ | ⟨j, k', h1, h2, h3, h4⟩
    · exact Or.inl ⟨b0, by rw [hbk]; exact h1, h2⟩
    · exact Or.inr ⟨j, k', h1, h2, by rw [hkeys j (by omega)]; exact h3,
        by rw [hbk, hbk]; exact h4⟩
  · intro i k hi hik
    rw [hkeys i hi] at hik
    obtain ⟨b0, h0, hb0, hh0, hch⟩ := hl.onChain i k hi hik
    have := hlt b0 h0 hh0
    exact ⟨b0, h0, by rw [hbk]; exact hb0, by rw [hro]; exact hh0,
      chain_congr hch (fun x hx => hnext x (by omega))⟩

/-- A table in which every bucket is empty links no keys. -/
theorem linked_fresh (E : HashEnv T) (s : MultiHashSet T) (n : Nat) (hn : 0 < n)
    (hh : s.HashKeys = some (List.replicate n (-1))) (hnum : s.NumHashKeys = n) :
    Linked E s 0 := by
  refine ⟨⟨_, hh, by simp [hnum]⟩, by omega, ?_, ?_, ?_⟩
  · intro b h hb
    unfold readHashKeys at hb
    rw [hh, Option.some_bind, List.getElem?_replicate] at hb
    split at hb
    · cases hb; exact Or.inl rfl
    · cases hb
  · intro i k hi; exact absurd hi (Nat.not_lt_zero _)
  · intro i k hi; exact absurd hi (Nat.not_lt_zero _)

/-- `ResizeHashMap` returns and links every key in the new table. -/
theorem ResizeHashMap_spec (E : HashEnv T) (s : MultiHashSet T) (newSize : Nat)
    (hk : s.Keys.WF) (hn : s.NextIds.WF) (hsz : s.NextIds.Size = s.Keys.Size)
    (h31 : s.Keys.Size ≤ 2147483648) (hp : 0 < E.GetNearestMultiHashMapPrime newSize) :
    ∃ s', ResizeHashMap E s newSize = some s' ∧ s'.Keys = s.Keys ∧
      s'.NumHashKeys = E.GetNearestMultiHashMapPrime newSize ∧ s'.NextIds.WF ∧
      s'.NextIds.Size = s.NextIds.Size ∧ s'.NextIds.Capacity = s.NextIds.Capacity ∧
      Linked E s' s.Keys.Size := by
  unfold ResizeHashMap
  obtain ⟨s', hs', h1, h2, h3, h4, h5, h6⟩ := forLoop_inv
    (fun k s2 => (s2.Keys.get k).bind fun key => InsertToHashMap E s2 key (toInt32 k))
    (fun k s2 => s2.Keys = s.Keys ∧
      s2.NumHashKeys = E.GetNearestMultiHashMapPrime newSize ∧ s2.NextIds.WF ∧
      s2.NextIds.Size = s.NextIds.Size ∧ s2.NextIds.Capacity = s.NextIds.Capacity ∧
      Linked E s2 k)
    s.Keys.Size 0
    { s with HashKeys := some (List.replicate (E.GetNearestMultiHashMapPrime newSize) (-1)),
             NumHashKeys := E.GetNearestMultiHashMapPrime newSize }
    ⟨rfl, rfl, hn, rfl, rfl, linked_fresh E _ _ hp rfl rfl⟩
    (by
      intro i t _ hi ⟨t1, t2, t3, t4, t5, t6⟩
      have hi' : i < s.Keys.Size := by omega
      obtain ⟨key, hkey⟩ := hk.elems i hi'
      rw [← t1] at hkey
      obtain ⟨t', e1, e2, e3, e4, e5, e6, e7⟩ :=
        InsertToHashMap_step E t key i t6 t3 (by omega) hkey (by omega)
      refine ⟨t', ?_, by rw [e2, t1], by rw [e3, t2], e4, by rw [e5, t4], by rw [e6, t5], e7⟩
      show (t.Keys.get i).bind _ = _
      rw [hkey, Option.some_bind]
      exact e1)
  refine ⟨s', hs', h1, h2, h3, h4, h5, ?_⟩
  simpa using h6


theorem array_empty_wf (U : Type) : (Array.empty : Array U).WF :=
  ⟨rfl, by norm_num [Array.empty], Nat.le_refl _, fun i hi => absurd hi (Nat.not_lt_zero _),
    fun _ _ => rfl⟩

theorem inv_empty (E : HashEnv T) : Inv E (MultiHashSet.empty : MultiHashSet T) :=
  ⟨array_empty_wf T, array_empty_wf Int, rfl,
    fun _ _ _ hi => absurd hi (Nat.not_lt_zero _), fun _ => ⟨rfl, rfl⟩,
    fun h => absurd h (Nat.lt_irrefl _)⟩

/-- In a state that satisfies the invariant, `FindIndex` returns -1 only for a key that is
not stored and otherwise the dense index of the key. -/
theorem FindIndex_char (E : HashEnv T) (s : MultiHashSet T) (hinv : Inv E s) (key : T)
    (r : Int) (h : FindIndex E s key = some r) :
    (r = -1 ∧ ∀ i, i < s.Keys.Size → s.Keys.get i ≠ some key) ∨
    (∃ i : Nat, i < s.Keys.Size ∧ r = (i : Int) ∧ s.Keys.get i = some key) := by
  by_cases hex : ∃ i : Nat, i < s.Keys.Size ∧ s.Keys.get i = some key
  · obtain ⟨i, hi, hk⟩ := hex
    have := FindIndex_present E s hinv key i hi hk
    rw [h] at this
    cases this
    exact Or.inr ⟨i, hi, rfl, hk⟩
  · have habs : ∀ i, i < s.Keys.Size → s.Keys.get i ≠ some key :=
      fun i hi hk => hex ⟨i, hi, hk⟩
    rcases FindIndex_sound E s key r h with h1 | ⟨_, h2⟩
    · exact Or.inl ⟨h1, habs⟩
    · by_cases hlt : intToUInt32 r < s.Keys.Size
      · exact absurd h2 (habs _ hlt)
      · rw [hinv.keys.raw _ (by omega)] at h2
        cases h2

/-- The second half of `Add`, for a key that `FindIndex` did not find: when both array
appends return, `Add` returns the old size as index, the key is stored there, the earlier
keys keep their places and the invariant holds again. -/
theorem set_Add_absent (E : HashEnv T) (s : MultiHashSet T) (hinv : Inv E s) (key : T)
    (hp : 0 < E.GetNearestMultiHashMapPrime (toUInt32 (2 * (s.Keys.Size + 1))))
    (h31 : s.Keys.Size < 2147483648)
    (hf : FindIndex E s key = some (-1)) (keys : Array T) (nextIds : Array Int)
    (hka : s.Keys.Add key = some keys) (hna : s.NextIds.Add (-1) = some nextIds) :
    ∃ s', Add E s key = some ((s.Keys.Size : Int), s') ∧ Inv E s' ∧ s'.Keys = keys ∧
      s'.NextIds.Capacity = nextIds.Capacity ∧
      ((s.NumHashKeys ≥ toUInt32 (keys.Size * 2) ∧ s'.NumHashKeys = s.NumHashKeys) ∨
        (¬ s.NumHashKeys ≥ toUInt32 (keys.Size * 2) ∧
          s'.NumHashKeys = E.GetNearestMultiHashMapPrime (toUInt32 (2 * keys.Size)))) := by
  obtain ⟨kw, ksz, kold, knew, _, _, _⟩ := Array.array_Add_spec s.Keys keys key hinv.keys hka
  obtain ⟨nw, nsz, nold, _, _, _, _⟩ :=
    Array.array_Add_spec s.NextIds nextIds (-1) hinv.nextIds hna
  have habs : ∀ j, j < s.Keys.Size → s.Keys.get j ≠ some key := by
    intro j hj hk
    have := FindIndex_present E s hinv key j hj hk
    rw [hf] at this
    cases this
  have hsz : nextIds.Size = keys.Size := by rw [nsz, ksz, hinv.sizes]
  -- the state after the second half, whichever branch is taken
  have main : ∃ s2,
      (if s.NumHashKeys ≥ toUInt32 (keys.Size * 2) then
          InsertToHashMap E { s with NextIds := nextIds, Keys := keys } key (toInt32 s.Keys.Size)
        else ResizeHashMap E { s with NextIds := nextIds, Keys := keys }
          (toUInt32 (2 * keys.Size))) = some s2 ∧
      s2.Keys = keys ∧ s2.NextIds.WF ∧ s2.NextIds.Size = nextIds.Size ∧
      s2.NextIds.Capacity = nextIds.Capacity ∧ Linked E s2 keys.Size ∧
      ((s.NumHashKeys ≥ toUInt32 (keys.Size * 2) ∧ s2.NumHashKeys = s.NumHashKeys) ∨
        (¬ s.NumHashKeys ≥ toUInt32 (keys.Size * 2) ∧
          s2.NumHashKeys = E.GetNearestMultiHashMapPrime (toUInt32 (2 * keys.Size)))) := by
    by_cases hc : s.NumHashKeys ≥ toUInt32 (keys.Size * 2)
    · rw [if_pos hc]
      have hpos : 0 < s.NumHashKeys := by
        by_contra h0
        have hz : s.NumHashKeys = 0 := by omega
        have := (hinv.noTable hz).2
        rw [ksz, this, hz] at hc
        exact absurd hc (by decide)
      have hl : Linked E { s with NextIds := nextIds, Keys := keys } s.Keys.Size :=
        linked_congr E s _ _ (hinv.linked hpos) rfl rfl kold
          (fun j hj => nold j (by rw [hinv.sizes]; exact hj))
      obtain ⟨s2, e1, e2, e3, e4, e5, e6, e7⟩ :=
        InsertToHashMap_step E { s with NextIds := nextIds, Keys := keys } key s.Keys.Size hl nw
          (by show s.Keys.Size < nextIds.Size; rw [hsz, ksz]; omega) knew h31
      exact ⟨s2, e1, e2, e4, e5, e6, by rw [ksz]; exact e7, Or.inl ⟨hc, e3⟩⟩
    · rw [if_neg hc]
      obtain ⟨s2, e1, e2, e3, e4, e5, e6, e7⟩ :=
        ResizeHashMap_spec E { s with NextIds := nextIds, Keys := keys }
          (toUInt32 (2 * keys.Size)) kw nw hsz
          (by show keys.Size ≤ 2147483648; rw [ksz]; omega) (by rw [ksz]; exact hp)
      exact ⟨s2, e1, e2, e4, e5, e6, e7, Or.inr ⟨hc, e3⟩⟩
  obtain ⟨s2, e1, e2, e3, e4, e5, e6, e7⟩ := main
  refine ⟨s2, ?_, ⟨by rw [e2]; exact kw, e3, by rw [e4, e2, hsz], ?_,
    ?_, fun _ => by rw [e2]; exact e6⟩, e2, e5, e7⟩
  · unfold Add
    rw [hf, Option.some_bind, if_neg (by simp), hka, Option.some_bind, hna, Option.some_bind]
    simp only [toInt32_natCast s.Keys.Size h31] at e1 ⊢
    rw [e1]; rfl
  · intro i j k hi hj hik hjk
    rw [e2] at hi hj hik hjk
    rw [ksz] at hi hj
    by_cases hi' : i < s.Keys.Size
    · by_cases hj' : j < s.Keys.Size
      · rw [kold i hi'] at hik
        rw [kold j hj'] at hjk
        exact hinv.distinct i j k hi' hj' hik hjk
      · have : j = s.Keys.Size := by omega
        subst this
        rw [knew] at hjk; cases hjk
        rw [kold i hi'] at hik
        exact absurd hik (habs i hi')
    · have : i = s.Keys.Size := by omega
      subst this
      by_cases hj' : j < s.Keys.Size
      · rw [knew] at hik; cases hik
        rw [kold j hj'] at hjk
        exact absurd hjk (habs j hj')
      · omega
  · intro h0
    exact absurd e6.numPos (by omega)

/-- What a returning `Add` does in a state that satisfies the invariant and whose key array
grew by doubling: either the key was found and nothing changes, or it was appended at index
`Size`. -/
theorem set_Add_spec (E : HashEnv T) (hp : ∀ n, 0 < E.GetNearestMultiHashMapPrime n)
    (s : MultiHashSet T) (hinv : Inv E s) (hd : s.Keys.Doubling) (key : T) (index : Int)
    (s' : MultiHashSet T) (h : Add E s key = some (index, s')) :
    Inv E s' ∧
    ((FindIndex E s key = some index ∧ index ≠ -1 ∧ s' = s) ∨
     (FindIndex E s key = some (-1) ∧ index = (s.Keys.Size : Int) ∧
        s.Keys.Size < 2147483648 ∧ s.Keys.Add key = some s'.Keys ∧
        (∃ nextIds, s.NextIds.Add (-1) = some nextIds ∧
          s'.NextIds.Capacity = nextIds.Capacity) ∧
        ((s.NumHashKeys ≥ toUInt32 (s'.Keys.Size * 2) ∧ s'.NumHashKeys = s.NumHashKeys) ∨
          (¬ s.NumHashKeys ≥ toUInt32 (s'.Keys.Size * 2) ∧
            s'.NumHashKeys = E.GetNearestMultiHashMapPrime (toUInt32 (2 * s'.Keys.Size)))))) := by
  cases hf : FindIndex E s key with
  | none => unfold Add at h; rw [hf] at h; cases h
  | some idx =>
    by_cases hidx : idx = -1
    · subst hidx
      cases hka : s.Keys.Add key with
      | none => unfold Add at h; rw [hf, Option.some_bind, if_neg (by simp), hka] at h; cases h
      | some keys =>
        cases hna : s.NextIds.Add (-1) with
        | none =>
          unfold Add at h
          rw [hf, Option.some_bind, if_neg (by simp), hka, Option.some_bind, hna] at h
          cases h
        | some nextIds =>
          have h31 : s.Keys.Size < 2147483648 := by
            obtain ⟨kw, ksz, _⟩ := Array.array_Add_spec s.Keys keys key hinv.keys hka
            have := Array.array_doubling_le keys
              (Array.array_Add_doubling s.Keys keys key hinv.keys hd hka)
            have := kw.size
            omega
          obtain ⟨s2, e1, e2, e3, e4, e5⟩ :=
            set_Add_absent E s hinv key (hp _) h31 hf keys nextIds hka hna
          rw [e1] at h
          cases h
          refine ⟨e2, Or.inr ⟨rfl, rfl, h31, by rw [e3], ⟨nextIds, rfl, e4⟩, ?_⟩⟩
          rw [e3]; exact e5
    · unfold Add at h
      rw [hf, Option.some_bind, if_pos hidx] at h
      cases h
      exact ⟨hinv, Or.inl ⟨rfl, hidx, rfl⟩⟩

/-- `Clear` returns in every state that satisfies the invariant, and keeps it. -/
theorem set_Clear_spec (E : HashEnv T) (s : MultiHashSet T) (hinv : Inv E s) :
    ∃ s', s.Clear = some s' ∧ Inv E s' ∧ s'.Keys.Size = 0 ∧
      s'.NumHashKeys = s.NumHashKeys ∧ s'.Keys.Capacity = s.Keys.Capacity ∧
      s'.NextIds.Capacity = s.NextIds.Capacity := by
  obtain ⟨keys, hk, kw, ksz, kcap⟩ := Array.array_Clear_spec s.Keys hinv.keys
  obtain ⟨nextIds, hn, nw, nsz, ncap⟩ := Array.array_Clear_spec s.NextIds hinv.nextIds
  by_cases h0 : s.NumHashKeys = 0
  · have hnone := (hinv.noTable h0).1
    refine ⟨⟨none, s.NumHashKeys, nextIds, keys⟩, ?_,
      ⟨kw, nw, by show nextIds.Size = keys.Size; rw [nsz, ksz],
        fun i j k hi => absurd hi (by show ¬ i < keys.Size; omega),
        fun _ => ⟨rfl, ksz⟩, fun hpos => absurd hpos (by show ¬ 0 < s.NumHashKeys; omega)⟩,
      ksz, rfl, kcap, ncap⟩
    unfold Clear
    rw [hnone]
    simp only [if_pos h0, Option.some_bind, hn, hk, Option.map_some']
  · have hpos : 0 < s.NumHashKeys := Nat.pos_of_ne_zero h0
    obtain ⟨hkl, hhk, hlen⟩ := (hinv.linked hpos).table
    have hfill : List.replicate s.NumHashKeys (-1) ++ hkl.drop s.NumHashKeys
        = List.replicate s.NumHashKeys (-1) := by
      rw [← hlen, List.drop_length, List.append_nil]
    refine ⟨⟨some (List.replicate s.NumHashKeys (-1)), s.NumHashKeys, nextIds, keys⟩, ?_,
      ⟨kw, nw, by show nextIds.Size = keys.Size; rw [nsz, ksz],
        fun i j k hi => absurd hi (by show ¬ i < keys.Size; omega),
        fun hz => absurd hz h0, fun _ => ?_⟩,
      ksz, rfl, kcap, ncap⟩
    · unfold Clear
      rw [hhk]
      simp only [if_pos (Nat.le_of_eq hlen.symm), Option.some_bind, hn, hk, Option.map_some',
        hfill]
    · show Linked E _ keys.Size
      rw [ksz]
      exact linked_fresh E _ s.NumHashKeys hpos rfl rfl

/-- Every reachable state satisfies the invariant, and its arrays grew by doubling. -/
theorem reachable_inv (E : HashEnv T) (hp : ∀ n, 0 < E.GetNearestMultiHashMapPrime n)
    (s : MultiHashSet T) (h : Reachable E s) :
    Inv E s ∧ s.Keys.Doubling ∧ s.NextIds.Doubling := by
  induction h with
  | empty => exact ⟨inv_empty E, Or.inl rfl, Or.inl rfl⟩
  | add s key index s' _ hadd ih =>
    obtain ⟨hinv, hdk, hdn⟩ := ih
    obtain ⟨hinv', hcase⟩ := set_Add_spec E hp s hinv hdk key index s' hadd
    refine ⟨hinv', ?_⟩
    rcases hcase with ⟨_, _, hs⟩ | ⟨_, _, _, hka, ⟨nextIds, hna, hcap⟩, _⟩
    · rw [hs]; exact ⟨hdk, hdn⟩
    · refine ⟨Array.array_Add_doubling s.Keys _ key hinv.keys hdk hka, ?_⟩
      have := Array.array_Add_doubling s.NextIds nextIds (-1) hinv.nextIds hdn hna
      unfold Array.Doubling
      rw [hcap]; exact this
  | clear s s' _ hc ih =>
    obtain ⟨hinv, hdk, hdn⟩ := ih
    obtain ⟨s2, e1, e2, _, _, e5, e6⟩ := set_Clear_spec E s hinv
    rw [e1] at hc
    cases hc
    refine ⟨e2, ?_, ?_⟩
    · unfold Array.Doubling; rw [e5]; exact hdk
    · unfold Array.Doubling; rw [e6]; exact hdn

/-- With fewer than 2^31 buckets every bucket sentinel `-2 - bucket` is negative, and the
walk from any linked key index ends. -/
theorem FindIndexLoop_total (E : HashEnv T) (s : MultiHashSet T) (m : Nat)
    (hl : Linked E s m) (hk : s.Keys.WF) (hm : m ≤ s.Keys.Size)
    (h31 : s.NumHashKeys < 2147483648) (key : T) :
    ∀ j, j < m → ∀ fuel, j < fuel → ∃ r, FindIndexLoop s key fuel (j : Int) = some r := by
  intro j
  induction j using Nat.strong_induction_on with
  | _ j ih =>
    intro hj fuel hf
    obtain ⟨f, rfl⟩ : ∃ f, fuel = f + 1 := ⟨fuel - 1, by omega⟩
    obtain ⟨k, hkj⟩ := hk.elems j (by omega)
    have hj32 : j < 4294967296 := by
      have := hk.cap; have := hk.size; omega
    unfold FindIndexLoop
    rw [if_neg (by omega)]
    simp only [intToUInt32_natCast j hj32, hkj, Option.some_bind]
    by_cases hkk : k = key
    · rw [if_pos hkk]; exact ⟨_, rfl⟩
    · rw [if_neg hkk]
      obtain ⟨v, hv, hor⟩ := hl.links j k hj hkj
      rw [hv, Option.some_bind]
      rcases hor with ⟨b, hb, hvb⟩ | ⟨j', _, hv', hlt, _, _⟩
      · obtain ⟨_, _, hblt⟩ := bucketOf_lt E s k b hb
        have : v < 0 := by
          rw [hvb, sentinel_eq b (by omega)]; omega
        unfold FindIndexLoop
        rw [if_pos this]; exact ⟨_, rfl⟩
      · rw [hv']
        exact ih j' hlt (by omega) f (by omega)

/-- `FindIndex` returns in every state that satisfies the invariant and has fewer than
2^31 buckets. -/
theorem FindIndex_total (E : HashEnv T) (s : MultiHashSet T) (hinv : Inv E s)
    (h31 : s.NumHashKeys < 2147483648) (key : T) : ∃ r, FindIndex E s key = some r := by
  unfold FindIndex
  by_cases h0 : s.NumHashKeys = 0
  · rw [if_pos h0]; exact ⟨_, rfl⟩
  · rw [if_neg h0]
    have hpos : 0 < s.NumHashKeys := Nat.pos_of_ne_zero h0
    have hl := hinv.linked hpos
    obtain ⟨hkl, hhk, hlen⟩ := hl.table
    have hblt : toUInt32 (E.MultiHashMapHash key) % s.NumHashKeys < hkl.length := by
      rw [hlen]; exact Nat.mod_lt _ hpos
    have hr : s.readHashKeys (toUInt32 (E.MultiHashMapHash key) % s.NumHashKeys)
        = some hkl[toUInt32 (E.MultiHashMapHash key) % s.NumHashKeys] := by
      unfold readHashKeys
      rw [hhk, Option.some_bind, List.getElem?_eq_getElem hblt]
    rw [hr, Option.some_bind]
    rcases hl.heads _ _ hr with h1 | ⟨j, _, h1, h2, _, _⟩
    · rw [h1]
      unfold FindIndexLoop
      rw [if_pos (by decide)]; exact ⟨_, rfl⟩
    · rw [h1]
      have hcap : s.Keys.Size ≤ s.Keys.Buf.length := by
        rw [hinv.keys.buf]; exact hinv.keys.size
      exact FindIndexLoop_total E s s.Keys.Size hl hinv.keys (Nat.le_refl _) h31 key j h2 _
        (by omega)

/-- `Add` returns in every state that satisfies the invariant, whose arrays grew by
doubling, that holds fewer than 2^31 keys and has fewer than 2^31 buckets. -/
theorem set_Add_total (E : HashEnv T) (hp : ∀ n, 0 < E.GetNearestMultiHashMapPrime n)
    (s : MultiHashSet T) (hinv : Inv E s) (hdk : s.Keys.Doubling) (hdn : s.NextIds.Doubling)
    (hsz : s.Keys.Size < 2147483648)
    (h31 : s.NumHashKeys < 2147483648) (key : T) :
    ∃ index s', Add E s key = some (index, s') := by
  obtain ⟨r, hr⟩ := FindIndex_total E s hinv h31 key
  by_cases hidx : r = -1
  · subst hidx
    have hroom : ∀ {U : Type} (a : Array U), a.WF → a.Doubling → a.Size < 2147483648 →
        a.Size < a.Capacity ∨ 2 * a.Capacity < 4294967296 := by
      intro U a hw hd hs
      by_cases hc : a.Size < a.Capacity
      · exact Or.inl hc
      · have := hw.size
        exact Or.inr (by omega)
    obtain ⟨keys, hka⟩ := Array.array_Add_total s.Keys key hinv.keys
      (hroom s.Keys hinv.keys hdk hsz)
    obtain ⟨nextIds, hna⟩ := Array.array_Add_total s.NextIds (-1) hinv.nextIds
      (hroom s.NextIds hinv.nextIds hdn (by rw [hinv.sizes]; exact hsz))
    obtain ⟨s2, e1, _⟩ := set_Add_absent E s hinv key (hp _) hsz hr keys nextIds hka hna
    exact ⟨_, s2, e1⟩
  · refine ⟨r, s, ?_⟩
    unfold Add
    rw [hr, Option.some_bind, if_pos hidx]

/-! ## `MultiHashSet<T>`: the claims -/

theorem exampleEnv_pos : ∀ n, 0 < exampleEnv.GetNearestMultiHashMapPrime n := by
  intro n
  show 0 < (if n ≤ 2 then 2 else if n ≤ 5 then 5 else if n ≤ 11 then 11 else 2 * n + 1)
  split_ifs <;> omega

theorem exampleSet1_reachable : Reachable exampleEnv exampleSet1 :=
  Reachable.add MultiHashSet.empty 5 0 exampleSet1 Reachable.empty (by decide)

theorem exampleSet2_reachable : Reachable exampleEnv exampleSet2 :=
  Reachable.add exampleSet1 7 1 exampleSet2 exampleSet1_reachable (by decide)

/-- C1 (amended). In every state reachable from the default-constructed set by `Add` and
`Clear`, with a table-size function that returns positive bucket counts, that holds fewer
than 2^31 keys in fewer than 2^31 buckets, and for every key `x`: `Add(x)` returns, and in
the state it leaves `Contains(x)` is true and `FindIndex(x)` is the index that `Add`
returned. In every reachable state, whatever its size, `Contains(x)` is true and
`FindIndex(x)` is the returned index once `Add(x)` has returned. -/
theorem C1_add_then_contains (E : HashEnv T)
    (hp : ∀ n, 0 < E.GetNearestMultiHashMapPrime n) (s : MultiHashSet T)
    (hr : Reachable E s) (x : T) :
    (s.Keys.Size < 2147483648 → s.NumHashKeys < 2147483648 →
      ∃ index s', Add E s x = some (index, s') ∧
        Contains E s' x = some true ∧ FindIndex E s' x = some index) ∧
    (∀ index s', Add E s x = some (index, s') →
      Contains E s' x = some true ∧ FindIndex E s' x = some index) := by
  obtain ⟨hinv, hdk, hdn⟩ := reachable_inv E hp s hr
  have hpost : ∀ index s', Add E s x = some (index, s') →
      Contains E s' x = some true ∧ FindIndex E s' x = some index := by
    intro index s' h
    have key : FindIndex E s' x = some index ∧ index ≠ -1 := by
      obtain ⟨hinv', hcase⟩ := set_Add_spec E hp s hinv hdk x index s' h
      rcases hcase with ⟨hf, hne, hs⟩ | ⟨_, hidx, _, hka, _, _⟩
      · rw [hs]; exact ⟨hf, hne⟩
      · obtain ⟨_, ksz, _, knew, _⟩ := Array.array_Add_spec s.Keys s'.Keys x hinv.keys hka
        rw [hidx]
        exact ⟨FindIndex_present E s' hinv' x s.Keys.Size (by rw [ksz]; omega) knew, by omega⟩
    refine ⟨?_, key.1⟩
    unfold Contains
    rw [key.1, Option.map_some', decide_eq_true key.2]
  refine ⟨?_, hpost⟩
  intro hsz h31
  obtain ⟨index, s', h⟩ := set_Add_total E hp s hinv hdk hdn hsz h31 x
  exact ⟨index, s', h, hpost index s' h⟩

theorem C1_add_then_contains_witness :
    (∃ index s', Add exampleEnv exampleSet1 7 = some (index, s') ∧
      Contains exampleEnv s' 7 = some true ∧ FindIndex exampleEnv s' 7 = some index) ∧
    (Contains exampleEnv exampleSet2 7 = some true ∧
      FindIndex exampleEnv exampleSet2 7 = some 1) :=
  ⟨(C1_add_then_contains exampleEnv exampleEnv_pos exampleSet1 exampleSet1_reachable 7).1
      (by decide) (by decide),
   (C1_add_then_contains exampleEnv exampleEnv_pos exampleSet1 exampleSet1_reachable 7).2
      1 exampleSet2 (by decide)⟩

/-- C2. `Add` is idempotent: in every reachable state, for a key `x` stored at dense index
`i`, `Add(x)` returns `i` and the state it leaves is the state before the call, field by
field. A key for which `Contains` answers true is stored at some dense index. -/
theorem C2_add_idempotent (E : HashEnv T)
    (hp : ∀ n, 0 < E.GetNearestMultiHashMapPrime n) (s : MultiHashSet T)
    (hr : Reachable E s) (x : T) :
    (∀ i : Nat, i < s.Keys.Size → s.Keys.get i = some x →
      Add E s x = some ((i : Int), s)) ∧
    (Contains E s x = some true →
      ∃ i : Nat, i < s.Keys.Size ∧ s.Keys.get i = some x ∧
        Add E s x = some ((i : Int), s)) := by
  obtain ⟨hinv, _, _⟩ := reachable_inv E hp s hr
  have h1 : ∀ i : Nat, i < s.Keys.Size → s.Keys.get i = some x →
      Add E s x = some ((i : Int), s) := by
    intro i hi hx
    unfold Add
    rw [FindIndex_present E s hinv x i hi hx, Option.some_bind, if_pos (by omega)]
  refine ⟨h1, ?_⟩
  intro hc
  unfold Contains at hc
  cases hf : FindIndex E s x with
  | none => rw [hf] at hc; cases hc
  | some r =>
    rw [hf, Option.map_some'] at hc
    have hne : r ≠ -1 := by
      have := Option.some.inj hc
      exact of_decide_eq_true this
    rcases FindIndex_char E s hinv x r hf with ⟨h, _⟩ | ⟨i, hi, _, hx⟩
    · exact absurd h hne
    · exact ⟨i, hi, hx, h1 i hi hx⟩

theorem C2_add_idempotent_witness :
    Add exampleEnv exampleSet2 7 = some (1, exampleSet2) :=
  (C2_add_idempotent exampleEnv exampleEnv_pos exampleSet2 exampleSet2_reachable 7).1
    1 (by decide) (by decide)

/-- C3 (amended). Resizing the bucket table preserves lookups. In every reachable state and
for every positive bucket count `n` that `GetNearestMultiHashMapPrime` may return,
`ResizeHashMap` returns, leaves `Keys` as it is, and afterwards `FindIndex` finds every
stored key at its dense index as before and for no key returns something else than
before; and with `n` below 2^31 it returns for every key, stored or not, what it returned
before. -/
theorem C3_resize_preserves_lookups (E : HashEnv T)
    (hp : ∀ n, 0 < E.GetNearestMultiHashMapPrime n) (s : MultiHashSet T)
    (hr : Reachable E s) (n : Nat) (hn : 0 < n) (newSize : Nat) :
    ∃ s', ResizeHashMap ⟨E.MultiHashMapHash, fun _ => n⟩ s newSize = some s' ∧
      s'.Keys = s.Keys ∧ s'.NumHashKeys = n ∧
      (∀ (i : Nat) (k : T), i < s.Keys.Size → s.Keys.get i = some k →
        FindIndex E s k = some (i : Int) ∧ FindIndex E s' k = some (i : Int)) ∧
      (∀ (k : T) (r r' : Int), FindIndex E s k = some r → FindIndex E s' k = some r' →
        r' = r) ∧
      (n < 2147483648 → ∀ (k : T) (r : Int), FindIndex E s k = some r →
        FindIndex E s' k = some r) := by
  obtain ⟨hinv, hdk, _⟩ := reachable_inv E hp s hr
  have hsz : s.Keys.Size ≤ 2147483648 :=
    Nat.le_trans hinv.keys.size (Array.array_doubling_le s.Keys hdk)
  obtain ⟨s', e1, e2, e3, e4, e5, _, e7⟩ :=
    ResizeHashMap_spec ⟨E.MultiHashMapHash, fun _ => n⟩ s newSize hinv.keys hinv.nextIds
      hinv.sizes hsz hn
  have e3' : s'.NumHashKeys = n := e3
  have hinv' : Inv ⟨E.MultiHashMapHash, fun _ => n⟩ s' :=
    ⟨by rw [e2]; exact hinv.keys, e4, by rw [e5, e2]; exact hinv.sizes,
      by rw [e2]; exact hinv.distinct, fun h0 => absurd h0 (by omega),
      fun _ => by rw [e2]; exact e7⟩
  have henv : ∀ k, FindIndex ⟨E.MultiHashMapHash, fun _ => n⟩ s' k = FindIndex E s' k :=
    fun _ => rfl
  have hsame : ∀ (k : T) (r r' : Int), FindIndex E s k = some r →
      FindIndex E s' k = some r' → r' = r := by
    intro k r r' h h'
    rw [← henv] at h'
    rcases FindIndex_char E s hinv k r h with ⟨h1, habs⟩ | ⟨i, hi, h1, hk⟩
    · rcases FindIndex_char _ s' hinv' k r' h' with ⟨h2, _⟩ | ⟨j, hj, _, hk'⟩
      · rw [h1, h2]
      · rw [e2] at hj hk'
        exact absurd hk' (habs j hj)
    · have := FindIndex_present _ s' hinv' k i (by rw [e2]; exact hi) (by rw [e2]; exact hk)
      rw [h'] at this
      rw [h1]; exact Option.some.inj this
  refine ⟨s', e1, e2, e3', ?_, hsame, ?_⟩
  · intro i k hi hk
    refine ⟨FindIndex_present E s hinv k i hi hk, ?_⟩
    rw [← henv]
    exact FindIndex_present _ s' hinv' k i (by rw [e2]; exact hi) (by rw [e2]; exact hk)
  · intro h31 k r h
    obtain ⟨r', h'⟩ := FindIndex_total _ s' hinv' (by rw [e3']; exact h31) k
    rw [henv] at h'
    rw [h', hsame k r r' h h']

theorem C3_resize_preserves_lookups_witness :
    ∃ s', ResizeHashMap ⟨exampleEnv.MultiHashMapHash, fun _ => 3⟩ exampleSet2 4 = some s' ∧
      s'.Keys = exampleSet2.Keys ∧ s'.NumHashKeys = 3 ∧
      (∀ (i : Nat) (k : Nat), i < exampleSet2.Keys.Size → exampleSet2.Keys.get i = some k →
        FindIndex exampleEnv exampleSet2 k = some (i : Int) ∧
        FindIndex exampleEnv s' k = some (i : Int)) ∧
      (∀ (k : Nat) (r r' : Int), FindIndex exampleEnv exampleSet2 k = some r →
        FindIndex exampleEnv s' k = some r' → r' = r) ∧
      ((3 : Nat) < 2147483648 → ∀ (k : Nat) (r : Int),
        FindIndex exampleEnv exampleSet2 k = some r → FindIndex exampleEnv s' k = some r) :=
  C3_resize_preserves_lookups exampleEnv exampleEnv_pos exampleSet2 exampleSet2_reachable 3
    (by decide) 4

theorem exampleSet3_reachable : Reachable exampleEnv exampleSet3 :=
  Reachable.add MultiHashSet.empty 4294967290 0 exampleSet3 Reachable.empty (by decide)

/-- `ResizeHashMap` of `exampleSet3` to `n` buckets, where the key falls into bucket `b`. -/
theorem resize_exampleSet3 (n b newSize : Nat) (hb : b < n)
    (hk : toUInt32 4294967290 % n = b) :
    ResizeHashMap ⟨exampleEnv.MultiHashMapHash, fun _ => n⟩ exampleSet3 newSize
      = some (hugeTableSet n b (toInt32 (-2 - toInt32 (b : Int)))) := by
  have hn0 : ¬ n = 0 := by omega
  have hlen : b < (List.replicate n (-1 : Int)).length := by
    rw [List.length_replicate]; exact hb
  have hkey : exampleEnv.MultiHashMapHash 4294967290 = 4294967290 := rfl
  have hread : (List.replicate n (-1 : Int))[b]? = some (-1) := by
    rw [List.getElem?_replicate, if_pos hb]
  unfold ResizeHashMap
  have hsize : exampleSet3.Keys.Size = 1 := rfl
  simp only [hsize]
  unfold forLoop forLoop
  have hget : Array.get (MultiHashSet.Keys ⟨some (List.replicate n (-1)), n,
      exampleSet3.NextIds, exampleSet3.Keys⟩) 0 = some 4294967290 := rfl
  rw [hget, Option.some_bind]
  unfold InsertToHashMap bucketOf readHashKeys writeHashKeys
  have hneg : ((-1 : Int) < 0) := by decide
  have hset : Array.set exampleSet3.NextIds (intToUInt32 (toInt32 ((0 : Nat) : Int)))
      (toInt32 (-2 - toInt32 (b : Int)))
      = some ⟨[some (toInt32 (-2 - toInt32 (b : Int)))], 1, 0, 1, 0⟩ := rfl
  simp only [if_neg hn0, hkey, hk, Option.some_bind, hread, if_pos hneg, hset, if_pos hlen,
    Option.map_some']
  rfl

/-- In `hugeTableSet` with a non-negative `NextIds` entry, the walk for another key of the
same bucket leaves the key array. -/
theorem FindIndex_hugeTableSet (n b : Nat) (next : Int) (k : Nat) (hb : b < n)
    (hk : toUInt32 k % n = b) (hne : k ≠ 4294967290) (hnext : 0 ≤ next) :
    FindIndex exampleEnv (hugeTableSet n b next) k = none := by
  have hn0 : ¬ n = 0 := by omega
  have hlen : b < (List.replicate n (-1 : Int)).length := by
    rw [List.length_replicate]; exact hb
  have hkey : exampleEnv.MultiHashMapHash k = k := rfl
  unfold FindIndex
  show (if n = 0 then some (-1) else
    (readHashKeys (hugeTableSet n b next) (toUInt32 (exampleEnv.MultiHashMapHash k) % n)).bind
      fun keyIndex => FindIndexLoop (hugeTableSet n b next) k 1 keyIndex) = none
  rw [if_neg hn0, hkey, hk]
  have hread : readHashKeys (hugeTableSet n b next) b = some 0 := by
    show ((List.replicate n (-1 : Int)).set b 0)[b]? = some 0
    rw [List.getElem?_set_self hlen]
  rw [hread, Option.some_bind]
  unfold FindIndexLoop
  have h1 : (hugeTableSet n b next).Keys.get (intToUInt32 0) = some 4294967290 := rfl
  have h2 : (hugeTableSet n b next).NextIds.get (intToUInt32 0) = some next := rfl
  simp only [h1, h2, Option.some_bind, if_neg (Ne.symm hne)]
  rw [if_neg (by decide)]
  unfold FindIndexLoop
  rw [if_neg (by omega)]

/-- C3, counterexample. The reachable set `exampleSet3` holds the key 4294967290. Resized
to 4294967291 buckets, the key falls into bucket 4294967290, whose sentinel
`-2 - (int)bucket` is the non-negative int 4; `FindIndex` of the absent key 8589934586,
which returned -1 before the resize, then walks on to key index 4, outside the key array,
and returns nothing. -/
theorem C3_counterexample :
    Reachable exampleEnv exampleSet3 ∧
    ResizeHashMap ⟨exampleEnv.MultiHashMapHash, fun _ => 4294967291⟩ exampleSet3 2
      = some (hugeTableSet 4294967291 4294967290 4) ∧
    FindIndex exampleEnv exampleSet3 8589934586 = some (-1) ∧
    FindIndex exampleEnv (hugeTableSet 4294967291 4294967290 4) 8589934586 = none := by
  refine ⟨exampleSet3_reachable, ?_, by decide, ?_⟩
  · have h := resize_exampleSet3 4294967291 4294967290 2 (by decide) (by decide)
    have e : toInt32 (-2 - toInt32 ((4294967290 : Nat) : Int)) = 4 := by decide
    rw [e] at h
    exact h
  · exact FindIndex_hugeTableSet 4294967291 4294967290 4 8589934586 (by decide) (by decide)
      (by decide) (by decide)

/-- C4. First insertion into an empty set: on a set with well-formed arrays, `Size` 0,
`NumHashKeys` 0 and no bucket table, and with `GetNearestMultiHashMapPrime(2)` positive,
`Add(x)` returns 0 without dividing by a zero bucket count, sets `Size` to 1 and allocates a
table of `GetNearestMultiHashMapPrime(2)` buckets, which are at least 2 when that function
never returns less than its argument; a second `Add(x)` returns 0 again and changes
nothing, so `Size` stays 1; and `FindIndex(x)` returns 0. -/
theorem C4_first_insertion (E : HashEnv T) (s : MultiHashSet T) (x : T)
    (hk : s.Keys.WF) (hn : s.NextIds.WF) (hks : s.Keys.Size = 0) (hns : s.NextIds.Size = 0)
    (hnum : s.NumHashKeys = 0) (hh : s.HashKeys = none)
    (hp : 0 < E.GetNearestMultiHashMapPrime 2) :
    ∃ s', Add E s x = some (0, s') ∧ s'.Keys.Size = 1 ∧
      s'.NumHashKeys = E.GetNearestMultiHashMapPrime 2 ∧
      (∃ table, s'.HashKeys = some table ∧
        table.length = E.GetNearestMultiHashMapPrime 2) ∧
      ((∀ m, m ≤ E.GetNearestMultiHashMapPrime m) → 2 ≤ s'.NumHashKeys) ∧
      Add E s' x = some (0, s') ∧ FindIndex E s' x = some 0 := by
  have hinv : Inv E s :=
    ⟨hk, hn, by rw [hns, hks], fun i j k hi => absurd hi (by omega),
      fun _ => ⟨hh, hks⟩, fun hpos => absurd hpos (by omega)⟩
  have hf : FindIndex E s x = some (-1) := by
    unfold FindIndex; rw [if_pos hnum]
  have hroom : ∀ {U : Type} (a : Array U), a.WF → a.Size = 0 →
      a.Size < a.Capacity ∨ 2 * a.Capacity < 4294967296 := by
    intro U a _ hs
    by_cases hc : a.Size < a.Capacity
    · exact Or.inl hc
    · exact Or.inr (by omega)
  obtain ⟨keys, hka⟩ := Array.array_Add_total s.Keys x hk (hroom s.Keys hk hks)
  obtain ⟨nextIds, hna⟩ := Array.array_Add_total s.NextIds (-1) hn (hroom s.NextIds hn hns)
  obtain ⟨_, ksz, _, knew, _⟩ := Array.array_Add_spec s.Keys keys x hk hka
  have h2 : toUInt32 (2 * (s.Keys.Size + 1)) = 2 := by rw [hks]; rfl
  obtain ⟨s', e1, e2, e3, _, e5⟩ :=
    set_Add_absent E s hinv x (by rw [h2]; exact hp) (by omega) hf keys nextIds hka hna
  have hsize : s'.Keys.Size = 1 := by rw [e3, ksz, hks]
  have hnumk : s'.NumHashKeys = E.GetNearestMultiHashMapPrime 2 := by
    rcases e5 with ⟨hge, _⟩ | ⟨_, h⟩
    · rw [ksz, hks, hnum] at hge
      exact absurd hge (by decide)
    · rw [h, ksz, hks]; rfl
  have hfind : FindIndex E s' x = some 0 := by
    have := FindIndex_present E s' e2 x 0 (by omega) (by rw [e3, ← hks]; exact knew)
    simpa using this
  refine ⟨s', ?_, hsize, hnumk, ?_, ?_, ?_, hfind⟩
  · rw [e1, hks]; rfl
  · obtain ⟨table, ht, hl⟩ := (e2.linked (by omega)).table
    exact ⟨table, ht, by rw [hl, hnumk]⟩
  · intro hge
    rw [hnumk]; exact hge 2
  · unfold Add
    rw [hfind, Option.some_bind, if_pos (by decide)]

theorem C4_first_insertion_witness :
    ∃ s', Add exampleEnv MultiHashSet.empty 5 = some (0, s') ∧ s'.Keys.Size = 1 ∧
      s'.NumHashKeys = exampleEnv.GetNearestMultiHashMapPrime 2 ∧
      (∃ table, s'.HashKeys = some table ∧
        table.length = exampleEnv.GetNearestMultiHashMapPrime 2) ∧
      ((∀ m, m ≤ exampleEnv.GetNearestMultiHashMapPrime m) → 2 ≤ s'.NumHashKeys) ∧
      Add exampleEnv s' 5 = some (0, s') ∧ FindIndex exampleEnv s' 5 = some 0 :=
  C4_first_insertion exampleEnv MultiHashSet.empty 5 (array_empty_wf Nat) (array_empty_wf Int)
    rfl rfl rfl rfl (by decide)

end MultiHashSet

/-! ## `MultiHashSetProxyImpl<T>`: the cursor protocol -/

namespace Array

variable {T : Type}

theorem filterMap_range (f : Nat → Option T) :
    ∀ n, (∀ i, i < n → ∃ v, f i = some v) →
      ((List.range n).filterMap f).length = n ∧
      ∀ i, i < n → ((List.range n).filterMap f)[i]? = f i := by
  intro n
  induction n with
  | zero => intro _; exact ⟨rfl, fun i hi => absurd hi (Nat.not_lt_zero _)⟩
  | succ n ih =>
    intro h
    obtain ⟨hl, hg⟩ := ih (fun i hi => h i (by omega))
    obtain ⟨v, hv⟩ := h n (by omega)
    have e : (List.range (n + 1)).filterMap f = (List.range n).filterMap f ++ [v] := by
      rw [List.range_succ, List.filterMap_append]
      simp [List.filterMap_cons, hv]
    rw [e]
    refine ⟨by simp [hl], ?_⟩
    intro i hi
    by_cases hin : i < n
    · rw [List.getElem?_append_left (by rw [hl]; exact hin)]; exact hg i hin
    · have : i = n := by omega
      subst this
      rw [List.getElem?_append_right (by rw [hl]), hl, Nat.sub_self, hv]; rfl

/-- The element sequence of a well-formed array has `Size` elements, the `i`-th of which is
the element read at index `i`. -/
theorem toList_spec (a : Array T) (hwf : a.WF) :
    a.toList.length = a.Size ∧ ∀ i, i < a.Size → a.toList[i]? = a.get i :=
  filterMap_range a.get a.Size hwf.elems

end Array

namespace lua.MultiHashSetProxyImpl

variable {T : Type}

theorem rangeArray_wf (n : Nat) (hn : n < 4294967296) : (rangeArray n).WF := by
  have hread : ∀ i, (rangeArray n).get i = if i < n then some i else none := by
    intro i
    show readSlot ((List.range n).map some) i = _
    unfold readSlot
    rw [List.getElem?_map]
    by_cases hi : i < n
    · rw [List.getElem?_range hi, if_pos hi]; rfl
    · rw [List.getElem?_eq_none (by simpa using hi), if_neg hi]; rfl
  refine ⟨?_, hn, Nat.le_refl _, ?_, ?_⟩
  · show ((List.range n).map some).length = n
    simp
  · intro i hi
    have hi' : i < n := hi
    exact ⟨i, by rw [hread, if_pos hi']⟩
  · intro i hi
    have hi' : n ≤ i := hi
    rw [hread, if_neg (by omega)]

end lua.MultiHashSetProxyImpl

/-! ## `Map<TKey, TValue>` -/

namespace Map

variable {TKey TValue : Type} [DecidableEq TKey] [Inhabited TValue]

theorem walkChain_cons (key : TKey) (item : MapNode TKey TValue)
    (rest : List (MapNode TKey TValue)) :
    walkChain key (item :: rest)
      = if key = item.Key then some 0 else (walkChain key rest).map (· + 1) := rfl

theorem walkChain_none (key : TKey) (chain : List (MapNode TKey TValue)) :
    walkChain key chain = none ↔ ∀ n ∈ chain, n.Key ≠ key := by
  induction chain with
  | nil => simp [walkChain]
  | cons item rest ih =>
    rw [walkChain_cons]
    by_cases h : key = item.Key
    · rw [if_pos h]
      simp only [List.mem_cons, forall_eq_or_imp]
      constructor
      · intro hc; cases hc
      · intro hc; exact absurd h.symm hc.1
    · rw [if_neg h]
      simp only [Option.map_eq_none', ih, List.mem_cons, forall_eq_or_imp]
      constructor
      · intro hr; exact ⟨fun e => h e.symm, hr⟩
      · intro hr; exact hr.2

theorem walkChain_some (key : TKey) (chain : List (MapNode TKey TValue)) :
    ∀ pos, walkChain key chain = some pos →
      ∃ node, chain[pos]? = some node ∧ node.Key = key := by
  induction chain with
  | nil => intro pos h; cases h
  | cons item rest ih =>
    intro pos h
    rw [walkChain_cons] at h
    by_cases hk : key = item.Key
    · rw [if_pos hk] at h
      cases h
      exact ⟨item, List.getElem?_cons_zero, hk.symm⟩
    · rw [if_neg hk] at h
      cases hr : walkChain key rest with
      | none => rw [hr] at h; cases h
      | some p =>
        rw [hr] at h
        cases h
        obtain ⟨node, h1, h2⟩ := ih p hr
        exact ⟨node, by simpa using h1, h2⟩

theorem walkChain_append_some (key : TKey) (chain rest : List (MapNode TKey TValue)) :
    ∀ pos, walkChain key chain = some pos → walkChain key (chain ++ rest) = some pos := by
  induction chain with
  | nil => intro pos h; cases h
  | cons item tl ih =>
    intro pos h
    rw [List.cons_append, walkChain_cons]
    rw [walkChain_cons] at h
    by_cases hk : key = item.Key
    · rw [if_pos hk] at h ⊢; exact h
    · rw [if_neg hk] at h ⊢
      cases hr : walkChain key tl with
      | none => rw [hr] at h; cases h
      | some p => rw [hr] at h; rw [ih p hr]; exact h

theorem walkChain_append_none (key : TKey) (chain rest : List (MapNode TKey TValue))
    (h : walkChain key chain = none) :
    walkChain key (chain ++ rest) = (walkChain key rest).map (· + chain.length) := by
  induction chain with
  | nil => simp
  | cons item tl ih =>
    rw [List.cons_append, walkChain_cons]
    rw [walkChain_cons] at h
    by_cases hk : key = item.Key
    · rw [if_pos hk] at h; cases h
    · rw [if_neg hk] at h ⊢
      have ht : walkChain key tl = none := by
        cases hr : walkChain key tl with
        | none => rfl
        | some p => rw [hr] at h; cases h
      rw [ih ht]
      cases walkChain key rest with
      | none => rfl
      | some p => simp only [Option.map_some', List.length_cons]; congr 1

theorem walkChain_new (key : TKey) (value : TValue) (chain : List (MapNode TKey TValue))
    (h : walkChain key chain = none) :
    walkChain key (chain ++ [⟨key, value⟩]) = some chain.length := by
  rw [walkChain_append_none key chain _ h]
  simp [walkChain]

theorem walkChain_other (key key' : TKey) (value : TValue)
    (chain : List (MapNode TKey TValue)) (hne : key' ≠ key) :
    walkChain key' (chain ++ [⟨key, value⟩]) = walkChain key' chain := by
  cases h : walkChain key' chain with
  | some pos => exact walkChain_append_some key' chain _ pos h
  | none =>
    rw [walkChain_append_none key' chain _ h]
    simp [walkChain, hne]

theorem walkChain_congr (key : TKey) (c1 c2 : List (MapNode TKey TValue))
    (h : c1.map MapNode.Key = c2.map MapNode.Key) : walkChain key c1 = walkChain key c2 := by
  induction c1 generalizing c2 with
  | nil =>
    cases c2 with
    | nil => rfl
    | cons b l => cases h
  | cons a l ih =>
    cases c2 with
    | nil => cases h
    | cons b l2 =>
      simp only [List.map_cons, List.cons.injEq] at h
      rw [walkChain_cons, walkChain_cons, h.1, ih l2 h.2]

theorem map_key_set (chain : List (MapNode TKey TValue)) (pos : Nat)
    (node : MapNode TKey TValue) (value : TValue) (h : chain[pos]? = some node) :
    (chain.set pos { node with Value := value }).map MapNode.Key = chain.map MapNode.Key := by
  apply List.ext_getElem?
  intro j
  rw [List.getElem?_map, List.getElem?_map]
  by_cases hj : pos = j
  · subst hj
    have hlt : pos < chain.length := by
      by_contra hc
      rw [List.getElem?_eq_none (by omega)] at h
      cases h
    rw [List.getElem?_set_self hlt, h]
    rfl
  · rw [List.getElem?_set_ne hj]

theorem bucketChain_eq (Hash : TKey → Nat) (m : Map TKey TValue) (key : TKey)
    (hwf : m.WF) (hpos : 0 < m.HashSize) :
    ∃ chain, bucketChain Hash m key = some chain ∧
      m.HashTable[Hash key % m.HashSize]? = some chain := by
  have hlt : Hash key % m.HashSize < m.HashTable.length := by
    rw [hwf]; exact Nat.mod_lt _ hpos
  refine ⟨m.HashTable[Hash key % m.HashSize], ?_, List.getElem?_eq_getElem hlt⟩
  unfold bucketChain
  rw [if_neg (by omega), List.getElem?_eq_getElem hlt]

/-- What `Insert(key)` returns on a map with a table of `HashSize > 0` buckets. -/
theorem Insert_cases (Hash : TKey → Nat) (m : Map TKey TValue) (key : TKey)
    (hwf : m.WF) (hpos : 0 < m.HashSize) :
    ∃ chain, m.HashTable[Hash key % m.HashSize]? = some chain ∧
      ((∃ pos, walkChain key chain = some pos ∧
          Insert Hash m key = some ((Hash key % m.HashSize, pos), m)) ∨
       (walkChain key chain = none ∧
          Insert Hash m key = some ((Hash key % m.HashSize, chain.length),
            ⟨m.HashSize,
              m.HashTable.set (Hash key % m.HashSize) (chain ++ [⟨key, default⟩]),
              toUInt32 (m.ItemCount + 1)⟩))) := by
  obtain ⟨chain, hb, hc⟩ := bucketChain_eq Hash m key hwf hpos
  refine ⟨chain, hc, ?_⟩
  unfold Insert
  rw [hb, Option.map_some']
  cases hw : walkChain key chain with
  | some pos => exact Or.inl ⟨pos, rfl, rfl⟩
  | none => exact Or.inr ⟨rfl, rfl⟩

/-- What `Insert(key, value)` returns on a map with a table of `HashSize > 0` buckets. -/
theorem InsertValue_cases (Hash : TKey → Nat) (m : Map TKey TValue) (key : TKey)
    (value : TValue) (hwf : m.WF) (hpos : 0 < m.HashSize) :
    ∃ chain, m.HashTable[Hash key % m.HashSize]? = some chain ∧
      ((∃ pos node, walkChain key chain = some pos ∧ chain[pos]? = some node ∧
          node.Key = key ∧
          InsertValue Hash m key value = some ((Hash key % m.HashSize, pos),
            ⟨m.HashSize,
              m.HashTable.set (Hash key % m.HashSize)
                (chain.set pos { node with Value := value }),
              m.ItemCount⟩)) ∨
       (walkChain key chain = none ∧
          InsertValue Hash m key value = some ((Hash key % m.HashSize, chain.length),
            ⟨m.HashSize,
              m.HashTable.set (Hash key % m.HashSize) (chain ++ [⟨key, value⟩]),
              toUInt32 (m.ItemCount + 1)⟩))) := by
  obtain ⟨chain, hc, hcase⟩ := Insert_cases Hash m key hwf hpos
  have hlt : Hash key % m.HashSize < m.HashTable.length := by
    rw [hwf]; exact Nat.mod_lt _ hpos
  refine ⟨chain, hc, ?_⟩
  rcases hcase with ⟨pos, hw, hi⟩ | ⟨hw, hi⟩
  · obtain ⟨node, hn, hk⟩ := walkChain_some key chain pos hw
    refine Or.inl ⟨pos, node, hw, hn, hk, ?_⟩
    unfold InsertValue
    rw [hi, Option.some_bind]
    unfold setValueAt
    simp only [hc, Option.some_bind, hn, Option.map_some']
  · refine Or.inr ⟨hw, ?_⟩
    unfold InsertValue
    rw [hi, Option.some_bind]
    unfold setValueAt
    simp only [List.getElem?_set_self hlt, Option.some_bind, List.length_append,
      List.length_singleton, List.getElem?_concat_length, Option.map_some', List.set_set]
    congr 3
    simp [List.set_append_right]

theorem set_self_eq {α : Type} (l : List α) (i : Nat) (x : α) (h : l[i]? = some x) :
    l.set i x = l := by
  apply List.ext_getElem?
  intro j
  by_cases hj : i = j
  · subst hj
    have hlt : i < l.length := by
      by_contra hc
      rw [List.getElem?_eq_none (by omega)] at h
      cases h
    rw [List.getElem?_set_self hlt, h]
  · rw [List.getElem?_set_ne hj]

theorem fill_step {α : Type} (l : List α) (x : α) (i : Nat) (hi : i < l.length) :
    (List.replicate i x ++ l.drop i).set i x
      = List.replicate (i + 1) x ++ l.drop (i + 1) := by
  apply List.ext_getElem?
  intro j
  rcases Nat.lt_trichotomy j i with h | h | h
  · rw [List.getElem?_set_ne (by omega)]
    rw [List.getElem?_append_left (by simp; omega), List.getElem?_append_left (by simp; omega)]
    rw [List.getElem?_replicate, List.getElem?_replicate, if_pos h, if_pos (by omega)]
  · subst h
    rw [List.getElem?_set_self (by simp; omega)]
    rw [List.getElem?_append_left (by simp)]
    rw [List.getElem?_replicate, if_pos (by omega)]
  · rw [List.getElem?_set_ne (by omega)]
    rw [List.getElem?_append_right (by simp; omega), List.getElem?_append_right (by simp; omega)]
    simp only [List.length_replicate, List.getElem?_drop]
    congr 1; omega

/-- Closed form of `Clear` on a map whose table has `HashSize` buckets. -/
theorem map_Clear_eq (m : Map TKey TValue) (hwf : m.WF) :
    m.Clear = some ⟨m.HashSize, List.replicate m.HashSize [], 0⟩ := by
  unfold Clear
  obtain ⟨tbl, htbl, hP⟩ := forLoop_inv
    (fun i (table : List (List (MapNode TKey TValue))) =>
      (table[i]?).bind fun item =>
        if item.isEmpty then some table else (FreeHashChain item).map fun _ => table.set i [])
    (fun i tbl => tbl = List.replicate i [] ++ m.HashTable.drop i)
    m.HashSize 0 m.HashTable (by simp)
    (by
      intro i t _ hi ht
      have hlt : i < m.HashTable.length := by rw [hwf]; omega
      have hlt' : i < t.length := by
        rw [ht]; simp; omega
      refine ⟨List.replicate (i + 1) [] ++ m.HashTable.drop (i + 1), ?_, rfl⟩
      show (t[i]?).bind _ = _
      rw [List.getElem?_eq_getElem hlt', Option.some_bind]
      have hstep : t.set i [] = List.replicate (i + 1) [] ++ m.HashTable.drop (i + 1) := by
        rw [ht]; exact fill_step m.HashTable [] i hlt
      by_cases he : t[i].isEmpty = true
      · rw [if_pos he, ← hstep]
        have : t[i] = [] := List.isEmpty_iff.1 he
        rw [set_self_eq t i [] (by rw [List.getElem?_eq_getElem hlt', this])]
      · rw [if_neg he]
        unfold FreeHashChain
        rw [if_neg he, Option.map_some', hstep])
  rw [htbl]
  simp only [Nat.zero_add] at hP
  rw [hP, ← hwf, List.drop_length, List.append_nil]
  rfl

theorem Find_eq (Hash : TKey → Nat) (m : Map TKey TValue) (key : TKey)
    (chain : List (MapNode TKey TValue)) (hpos : 0 < m.HashSize)
    (hc : m.HashTable[Hash key % m.HashSize]? = some chain) :
    Find Hash m key
      = some ((walkChain key chain).map fun pos => (Hash key % m.HashSize, pos)) := by
  unfold Find bucketChain
  rw [if_neg (by omega), hc, Option.map_some']

theorem bucketChain_of (Hash : TKey → Nat) (m : Map TKey TValue) (key : TKey)
    (chain : List (MapNode TKey TValue)) (hpos : 0 < m.HashSize)
    (hc : m.HashTable[Hash key % m.HashSize]? = some chain) :
    bucketChain Hash m key = some chain := by
  unfold bucketChain
  rw [if_neg (by omega), hc]

/-- C6. For every map with a table of `HashSize > 0` buckets and every key: two calls of
`Insert(key)` in a row return the same value slot, the second call changes nothing, and
the chain of the key's bucket after both calls is longer than before the first call by at
most one node: by exactly one if no node of the chain held the key, by none if one did. -/
theorem C6_insert_twice_same_slot (Hash : TKey → Nat) (m : Map TKey TValue) (key : TKey)
    (hwf : m.WF) (hpos : 0 < m.HashSize) :
    ∃ slot m1 chain0 chain2, Insert Hash m key = some (slot, m1) ∧
      Insert Hash m1 key = some (slot, m1) ∧
      bucketChain Hash m key = some chain0 ∧ bucketChain Hash m1 key = some chain2 ∧
      chain2.length ≤ chain0.length + 1 ∧
      ((∀ n ∈ chain0, n.Key ≠ key) → chain2.length = chain0.length + 1) ∧
      ((∃ n ∈ chain0, n.Key = key) → chain2.length = chain0.length) := by
  obtain ⟨chain, hc, hcase⟩ := Insert_cases Hash m key hwf hpos
  have hlt : Hash key % m.HashSize < m.HashTable.length := by
    rw [hwf]; exact Nat.mod_lt _ hpos
  rcases hcase with ⟨pos, hw, hi⟩ | ⟨hw, hi⟩
  · refine ⟨_, m, chain, chain, hi, hi, bucketChain_of Hash m key chain hpos hc,
      bucketChain_of Hash m key chain hpos hc, by omega, ?_, fun _ => rfl⟩
    intro habs
    rw [(walkChain_none key chain).2 habs] at hw
    cases hw
  · have hc1 : (m.HashTable.set (Hash key % m.HashSize) (chain ++ [⟨key, default⟩]))[
        Hash key % m.HashSize]? = some (chain ++ [⟨key, default⟩]) :=
      List.getElem?_set_self hlt
    have hwf1 : WF (⟨m.HashSize,
        m.HashTable.set (Hash key % m.HashSize) (chain ++ [⟨key, default⟩]),
        toUInt32 (m.ItemCount + 1)⟩ : Map TKey TValue) := by
      show (m.HashTable.set _ _).length = m.HashSize
      rw [List.length_set]; exact hwf
    obtain ⟨chain1, hc1', hcase1⟩ := Insert_cases Hash ⟨m.HashSize,
      m.HashTable.set (Hash key % m.HashSize) (chain ++ [⟨key, default⟩]),
      toUInt32 (m.ItemCount + 1)⟩ key hwf1 hpos
    have hc1'' : some (chain ++ [⟨key, default⟩]) = some chain1 := by
      rw [← hc1]; exact hc1'
    cases hc1''
    have hw1 := walkChain_new key (default : TValue) chain hw
    rcases hcase1 with ⟨pos, hw', hi1⟩ | ⟨hw', _⟩
    · rw [hw1] at hw'
      cases hw'
      refine ⟨_, _, chain, chain ++ [⟨key, default⟩], hi, hi1,
        bucketChain_of Hash m key chain hpos hc,
        bucketChain_of Hash ⟨m.HashSize, m.HashTable.set (Hash key % m.HashSize)
          (chain ++ [⟨key, default⟩]), toUInt32 (m.ItemCount + 1)⟩ key _ hpos hc1,
        by simp, fun _ => by simp, ?_⟩
      rintro ⟨n, hn, hk⟩
      exact absurd hk ((walkChain_none key chain).1 hw n hn)
    · rw [hw1] at hw'
      cases hw'

theorem exampleMap_wf : exampleMap.WF := rfl

theorem C6_insert_twice_same_slot_witness :
    ∃ slot m1 chain0 chain2, Insert id exampleMap 7 = some (slot, m1) ∧
      Insert id m1 7 = some (slot, m1) ∧
      bucketChain id exampleMap 7 = some chain0 ∧ bucketChain id m1 7 = some chain2 ∧
      chain2.length ≤ chain0.length + 1 ∧
      ((∀ n ∈ chain0, n.Key ≠ 7) → chain2.length = chain0.length + 1) ∧
      ((∃ n ∈ chain0, n.Key = 7) → chain2.length = chain0.length) :=
  C6_insert_twice_same_slot id exampleMap 7 exampleMap_wf (by decide)

/-- C7. For every map with a table of `HashSize > 0` buckets, every key `k` and value `v`:
`Insert(k, v)` returns a slot, afterwards `Find(k)` returns that slot and the slot holds
`v`. If no node of the bucket's chain held `k`, the chain is the old one with the node
`(k, v)` appended; if one did, the chain keeps its length and its keys, so no second node
was created. -/
theorem C7_insert_then_find (Hash : TKey → Nat) (m : Map TKey TValue) (k : TKey)
    (v : TValue) (hwf : m.WF) (hpos : 0 < m.HashSize) :
    ∃ slot m' chain0 chain', InsertValue Hash m k v = some (slot, m') ∧
      Find Hash m' k = some (some slot) ∧ m'.valueAt slot = some v ∧
      bucketChain Hash m k = some chain0 ∧ bucketChain Hash m' k = some chain' ∧
      ((∀ n ∈ chain0, n.Key ≠ k) → chain' = chain0 ++ [⟨k, v⟩]) ∧
      ((∃ n ∈ chain0, n.Key = k) →
        chain'.length = chain0.length ∧
        chain'.map MapNode.Key = chain0.map MapNode.Key) := by
  obtain ⟨chain, hc, hcase⟩ := InsertValue_cases Hash m k v hwf hpos
  have hlt : Hash k % m.HashSize < m.HashTable.length := by
    rw [hwf]; exact Nat.mod_lt _ hpos
  rcases hcase with ⟨pos, node, hw, hn, hk, hi⟩ | ⟨hw, hi⟩
  · have hc' : (m.HashTable.set (Hash k % m.HashSize)
        (chain.set pos { node with Value := v }))[Hash k % m.HashSize]?
        = some (chain.set pos { node with Value := v }) := List.getElem?_set_self hlt
    have hkeys := map_key_set chain pos node v hn
    have hpl : pos < chain.length := by
      by_contra hcon
      rw [List.getElem?_eq_none (by omega)] at hn
      cases hn
    refine ⟨_, _, chain, chain.set pos { node with Value := v }, hi, ?_, ?_,
      bucketChain_of Hash m k chain hpos hc,
      bucketChain_of Hash ⟨m.HashSize, m.HashTable.set (Hash k % m.HashSize)
          (chain.set pos { node with Value := v }), m.ItemCount⟩ k _ hpos hc', ?_,
      fun _ => ⟨by simp, hkeys⟩⟩
    · rw [Find_eq Hash ⟨m.HashSize, m.HashTable.set (Hash k % m.HashSize)
          (chain.set pos { node with Value := v }), m.ItemCount⟩ k _ hpos hc',
        walkChain_congr k _ chain hkeys, hw]
      rfl
    · unfold valueAt
      simp only [hc', Option.some_bind, List.getElem?_set_self hpl, Option.map_some']
    · intro habs
      rw [(walkChain_none k chain).2 habs] at hw
      cases hw
  · have hc' : (m.HashTable.set (Hash k % m.HashSize) (chain ++ [⟨k, v⟩]))[
        Hash k % m.HashSize]? = some (chain ++ [⟨k, v⟩]) := List.getElem?_set_self hlt
    refine ⟨_, _, chain, chain ++ [⟨k, v⟩], hi, ?_, ?_,
      bucketChain_of Hash m k chain hpos hc,
      bucketChain_of Hash ⟨m.HashSize, m.HashTable.set (Hash k % m.HashSize)
          (chain ++ [⟨k, v⟩]), toUInt32 (m.ItemCount + 1)⟩ k _ hpos hc',
      fun _ => rfl, ?_⟩
    · rw [Find_eq Hash ⟨m.HashSize, m.HashTable.set (Hash k % m.HashSize)
          (chain ++ [MapNode.mk k v]), toUInt32 (m.ItemCount + 1)⟩ k _ hpos hc',
        walkChain_new k v chain hw]
      rfl
    · unfold valueAt
      simp only [hc', Option.some_bind, List.getElem?_concat_length, Option.map_some']
    · rintro ⟨n, hn, hk⟩
      exact absurd hk ((walkChain_none k chain).1 hw n hn)

theorem C7_insert_then_find_witness :
    ∃ slot m' chain0 chain', InsertValue id exampleMap 7 11 = some (slot, m') ∧
      Find id m' 7 = some (some slot) ∧ m'.valueAt slot = some 11 ∧
      bucketChain id exampleMap 7 = some chain0 ∧ bucketChain id m' 7 = some chain' ∧
      ((∀ n ∈ chain0, n.Key ≠ 7) → chain' = chain0 ++ [⟨7, 11⟩]) ∧
      ((∃ n ∈ chain0, n.Key = 7) →
        chain'.length = chain0.length ∧
        chain'.map MapNode.Key = chain0.map MapNode.Key) :=
  C7_insert_then_find id exampleMap 7 11 exampleMap_wf (by decide)

theorem sum_length_set (l : List (List (MapNode TKey TValue))) :
    ∀ (b : Nat) (c c' : List (MapNode TKey TValue)), l[b]? = some c →
      ((l.set b c').map List.length).sum + c.length
        = (l.map List.length).sum + c'.length := by
  induction l with
  | nil => intro b c c' h; cases h
  | cons a l ih =>
    intro b c c' h
    cases b with
    | zero =>
      simp only [List.getElem?_cons_zero, Option.some.injEq] at h
      subst h
      simp only [List.set_cons_zero, List.map_cons, List.sum_cons]
      omega
    | succ b =>
      simp only [List.getElem?_cons_succ] at h
      have := ih b c c' h
      simp only [List.set_cons_succ, List.map_cons, List.sum_cons]
      omega

theorem tableInv_fresh (Hash : TKey → Nat) (n : Nat) (hn : 0 < n) :
    TableInv Hash (⟨n, List.replicate n [], 0⟩ : Map TKey TValue) [] := by
  refine ⟨by show (List.replicate n _).length = n; simp, hn, ?_, ?_, ?_⟩
  · intro b chain h node hnode
    rw [List.getElem?_replicate] at h
    split at h
    · cases h; cases hnode
    · cases h
  · intro b chain h
    rw [List.getElem?_replicate] at h
    split at h
    · cases h; exact List.nodup_nil
    · cases h
  · show 0 = toUInt32 ((List.replicate n ([] : List (MapNode TKey TValue))).map List.length).sum
    have : ((List.replicate n ([] : List (MapNode TKey TValue))).map List.length).sum = 0 := by
      simp
    rw [this]; rfl

/-- Replacing the chain of one bucket keeps the invariant when the new chain holds distinct
keys of that bucket and the counter follows the number of nodes. -/
theorem tableInv_update (Hash : TKey → Nat) (m : Map TKey TValue) (keys keys' : List TKey)
    (hinv : TableInv Hash m keys) (b : Nat) (c c' : List (MapNode TKey TValue)) (count : Nat)
    (hc : m.HashTable[b]? = some c) (hsub : ∀ k, k ∈ keys → k ∈ keys')
    (hnodes : ∀ node ∈ c', Hash node.Key % m.HashSize = b ∧ node.Key ∈ keys')
    (hnodup : (c'.map MapNode.Key).Nodup)
    (hcount : count = toUInt32 (m.nodeCount + c'.length - c.length)) :
    TableInv Hash ⟨m.HashSize, m.HashTable.set b c', count⟩ keys' := by
  have hlt : b < m.HashTable.length := by
    by_contra hcon
    rw [List.getElem?_eq_none (by omega)] at hc
    cases hc
  have hwf' : (m.HashTable.set b c').length = m.HashSize := by
    rw [List.length_set]; exact hinv.wf
  refine ⟨hwf', hinv.pos, ?_, ?_, ?_⟩
  · intro b' chain h node hnode
    have h' : (m.HashTable.set b c')[b']? = some chain := h
    by_cases hb : b = b'
    · subst hb
      rw [List.getElem?_set_self hlt] at h'
      cases h'
      exact hnodes node hnode
    · rw [List.getElem?_set_ne hb] at h'
      obtain ⟨h1, h2⟩ := hinv.inBucket b' chain h' node hnode
      exact ⟨h1, hsub _ h2⟩
  · intro b' chain h
    have h' : (m.HashTable.set b c')[b']? = some chain := h
    by_cases hb : b = b'
    · subst hb
      rw [List.getElem?_set_self hlt] at h'
      cases h'
      exact hnodup
    · rw [List.getElem?_set_ne hb] at h'
      exact hinv.nodup b' chain h'
  · show count = toUInt32 ((m.HashTable.set b c').map List.length).sum
    have := sum_length_set m.HashTable b c c' hc
    have e : ((m.HashTable.set b c').map List.length).sum
        = m.nodeCount + c'.length - c.length := by
      unfold nodeCount; omega
    rw [e]; exact hcount

theorem tableInv_insert (Hash : TKey → Nat) (m m' : Map TKey TValue) (keys : List TKey)
    (key : TKey) (slot : ValueSlot) (hinv : TableInv Hash m keys)
    (h : Insert Hash m key = some (slot, m')) : TableInv Hash m' (key :: keys) := by
  obtain ⟨chain, hc, hcase⟩ := Insert_cases Hash m key hinv.wf hinv.pos
  rcases hcase with ⟨pos, _, hi⟩ | ⟨hw, hi⟩
  · rw [hi] at h
    cases h
    exact ⟨hinv.wf, hinv.pos,
      fun b c hb node hn => ⟨(hinv.inBucket b c hb node hn).1,
        List.mem_cons_of_mem _ (hinv.inBucket b c hb node hn).2⟩,
      hinv.nodup, hinv.count⟩
  · rw [hi] at h
    cases h
    refine tableInv_update Hash m keys (key :: keys) hinv _ chain _ _ hc
      (fun k hk => List.mem_cons_of_mem _ hk) ?_ ?_ ?_
    · intro node hn
      rcases List.mem_append.1 hn with h1 | h1
      · exact ⟨(hinv.inBucket _ chain hc node h1).1,
          List.mem_cons_of_mem _ (hinv.inBucket _ chain hc node h1).2⟩
      · simp only [List.mem_singleton] at h1
        subst h1
        exact ⟨rfl, List.mem_cons_self _ _⟩
    · rw [List.map_append, List.map_singleton]
      refine List.Nodup.append (hinv.nodup _ chain hc) (List.nodup_singleton _) ?_
      intro k hk1 hk2
      simp only [List.mem_singleton] at hk2
      subst hk2
      obtain ⟨n, hn, hnk⟩ := List.mem_map.1 hk1
      exact (walkChain_none _ chain).1 hw n hn hnk
    · rw [hinv.count]
      simp only [List.length_append, List.length_singleton]
      unfold toUInt32
      omega

theorem tableInv_insertValue (Hash : TKey → Nat) (m m' : Map TKey TValue) (keys : List TKey)
    (key : TKey) (value : TValue) (slot : ValueSlot) (hinv : TableInv Hash m keys)
    (h : InsertValue Hash m key value = some (slot, m')) :
    TableInv Hash m' (key :: keys) := by
  obtain ⟨chain, hc, hcase⟩ := InsertValue_cases Hash m key value hinv.wf hinv.pos
  rcases hcase with ⟨pos, node, _, hn, hk, hi⟩ | ⟨hw, hi⟩
  · rw [hi] at h
    cases h
    have hkeys := map_key_set chain pos node value hn
    refine tableInv_update Hash m keys (key :: keys) hinv _ chain _ _ hc
      (fun k hk => List.mem_cons_of_mem _ hk) ?_ ?_ ?_
    · intro node' hn'
      have hmem : node'.Key ∈ chain.map MapNode.Key := by
        rw [← hkeys]; exact List.mem_map_of_mem _ hn'
      obtain ⟨n0, hn0, hk0⟩ := List.mem_map.1 hmem
      rw [← hk0]
      exact ⟨(hinv.inBucket _ chain hc n0 hn0).1,
        List.mem_cons_of_mem _ (hinv.inBucket _ chain hc n0 hn0).2⟩
    · rw [hkeys]; exact hinv.nodup _ chain hc
    · rw [hinv.count, List.length_set]
      congr 1; omega
  · rw [hi] at h
    cases h
    refine tableInv_update Hash m keys (key :: keys) hinv _ chain _ _ hc
      (fun k hk => List.mem_cons_of_mem _ hk) ?_ ?_ ?_
    · intro node hn
      rcases List.mem_append.1 hn with h1 | h1
      · exact ⟨(hinv.inBucket _ chain hc node h1).1,
          List.mem_cons_of_mem _ (hinv.inBucket _ chain hc node h1).2⟩
      · simp only [List.mem_singleton] at h1
        subst h1
        exact ⟨rfl, List.mem_cons_self _ _⟩
    · rw [List.map_append, List.map_singleton]
      refine List.Nodup.append (hinv.nodup _ chain hc) (List.nodup_singleton _) ?_
      intro k hk1 hk2
      simp only [List.mem_singleton] at hk2
      subst hk2
      obtain ⟨n, hn, hnk⟩ := List.mem_map.1 hk1
      exact (walkChain_none _ chain).1 hw n hn hnk
    · rw [hinv.count]
      simp only [List.length_append, List.length_singleton]
      unfold toUInt32
      omega

/-- Every reachable state of `Map` satisfies the invariant. -/
theorem reachable_tableInv (Hash : TKey → Nat) (m : Map TKey TValue) (keys : List TKey)
    (h : ReachableFrom Hash m keys) : TableInv Hash m keys := by
  induction h with
  | init m0 hashSize hpos => exact tableInv_fresh Hash hashSize hpos
  | insert m keys key slot m' _ hi ih => exact tableInv_insert Hash m m' keys key slot ih hi
  | insertValue m keys key value slot m' _ hi ih =>
    exact tableInv_insertValue Hash m m' keys key value slot ih hi
  | clear m keys m' _ hc ih =>
    rw [map_Clear_eq m ih.wf] at hc
    cases hc
    exact tableInv_fresh Hash m.HashSize ih.pos

theorem exampleMap_reachable : ReachableFrom id exampleMap [7, 4] :=
  ReachableFrom.insertValue ⟨3, [[], [⟨4, 7⟩], []], 1⟩ [4] 7 9 (1, 1) exampleMap
    (ReachableFrom.insertValue ((Map.empty : Map Nat Nat).Init 3) [] 4 7 (1, 0)
      ⟨3, [[], [⟨4, 7⟩], []], 1⟩ (ReachableFrom.init Map.empty 3 (by decide)) (by decide))
    (by decide)

/-- C8. In every state reachable from `Init(hashSize)` with `hashSize > 0` by `Insert` and
`Clear`, `Find` returns null for every key that was not inserted since the last `Clear`
(or since `Init`). -/
theorem C8_find_miss (Hash : TKey → Nat) (m : Map TKey TValue) (keys : List TKey)
    (hr : ReachableFrom Hash m keys) (key : TKey) (hk : key ∉ keys) :
    Find Hash m key = some none := by
  have hinv := reachable_tableInv Hash m keys hr
  obtain ⟨chain, _, hc⟩ := bucketChain_eq Hash m key hinv.wf hinv.pos
  rw [Find_eq Hash m key chain hinv.pos hc]
  have : walkChain key chain = none := by
    rw [walkChain_none]
    intro n hn hnk
    exact hk (hnk ▸ (hinv.inBucket _ chain hc n hn).2)
  rw [this]; rfl

theorem C8_find_miss_witness : Find id exampleMap 5 = some none :=
  C8_find_miss id exampleMap [7, 4] exampleMap_reachable 5 (by decide)

/-- C9 (amended). In every state reachable from `Init(hashSize > 0)` by `Insert` and
`Clear`: no two nodes hold equal keys, every node lies in the chain of bucket
`Hash(key) % HashSize`, and `Count()` is the total number of nodes over all chains reduced
modulo 2^32, hence equal to it while fewer than 2^32 nodes are stored. `Insert` of a key
that `Find` finds returns the found slot and changes nothing; `Insert` of a key that `Find`
does not find adds exactly one node and increases `Count()` by one modulo 2^32. -/
theorem C9_no_duplicates (Hash : TKey → Nat) (m : Map TKey TValue) (keys : List TKey)
    (hr : ReachableFrom Hash m keys) :
    (∀ (b1 i1 b2 i2 : Nat) (c1 c2 : List (MapNode TKey TValue)) (n1 n2 : MapNode TKey TValue),
      m.HashTable[b1]? = some c1 → c1[i1]? = some n1 →
      m.HashTable[b2]? = some c2 → c2[i2]? = some n2 →
      n1.Key = n2.Key → b1 = b2 ∧ i1 = i2) ∧
    (∀ (b : Nat) (c : List (MapNode TKey TValue)) (n : MapNode TKey TValue),
      m.HashTable[b]? = some c → n ∈ c → Hash n.Key % m.HashSize = b) ∧
    m.Count = m.nodeCount % 4294967296 ∧
    (m.nodeCount < 4294967296 → m.Count = m.nodeCount) ∧
    (∀ key, ∃ slot m', Insert Hash m key = some (slot, m') ∧
      ((Find Hash m key = some (some slot) ∧ m' = m) ∨
       (Find Hash m key = some none ∧ m'.nodeCount = m.nodeCount + 1 ∧
         m'.Count = (m.Count + 1) % 4294967296))) := by
  have hinv := reachable_tableInv Hash m keys hr
  have hcount : m.Count = m.nodeCount % 4294967296 := hinv.count
  refine ⟨?_, fun b c n hc hn => (hinv.inBucket b c hc n hn).1, hcount,
    fun hlt => by rw [hcount]; exact Nat.mod_eq_of_lt hlt, ?_⟩
  · intro b1 i1 b2 i2 c1 c2 n1 n2 h1 hn1 h2 hn2 hk
    have hb1 := (hinv.inBucket b1 c1 h1 n1 (List.getElem?_mem hn1)).1
    have hb2 := (hinv.inBucket b2 c2 h2 n2 (List.getElem?_mem hn2)).1
    have hb : b1 = b2 := by rw [← hb1, ← hb2, hk]
    subst hb
    rw [h1] at h2
    cases h2
    refine ⟨rfl, ?_⟩
    have hnd := hinv.nodup b1 c1 h1
    have e1 : (c1.map MapNode.Key)[i1]? = some n1.Key := by rw [List.getElem?_map, hn1]; rfl
    have e2 : (c1.map MapNode.Key)[i2]? = some n1.Key := by
      rw [List.getElem?_map, hn2, hk]; rfl
    have l1 : i1 < (c1.map MapNode.Key).length := by
      by_contra hcon
      rw [List.getElem?_eq_none (by omega)] at e1
      cases e1
    have l2 : i2 < (c1.map MapNode.Key).length := by
      by_contra hcon
      rw [List.getElem?_eq_none (by omega)] at e2
      cases e2
    rw [List.getElem?_eq_getElem l1] at e1
    rw [List.getElem?_eq_getElem l2] at e2
    exact (List.Nodup.getElem_inj_iff hnd).1 ((Option.some.inj e1).trans (Option.some.inj e2).symm)
  · intro key
    obtain ⟨chain, hc, hcase⟩ := Insert_cases Hash m key hinv.wf hinv.pos
    rcases hcase with ⟨pos, hw, hi⟩ | ⟨hw, hi⟩
    · refine ⟨_, m, hi, Or.inl ⟨?_, rfl⟩⟩
      rw [Find_eq Hash m key chain hinv.pos hc, hw]; rfl
    · refine ⟨_, _, hi, Or.inr ⟨?_, ?_, rfl⟩⟩
      · rw [Find_eq Hash m key chain hinv.pos hc, hw]; rfl
      · have := sum_length_set m.HashTable _ chain (chain ++ [⟨key, default⟩]) hc
        simp only [List.length_append, List.length_singleton] at this
        show ((m.HashTable.set _ _).map List.length).sum = m.nodeCount + 1
        unfold nodeCount
        omega

theorem C9_no_duplicates_witness :
    (∀ (b1 i1 b2 i2 : Nat) (c1 c2 : List (MapNode Nat Nat)) (n1 n2 : MapNode Nat Nat),
      exampleMap.HashTable[b1]? = some c1 → c1[i1]? = some n1 →
      exampleMap.HashTable[b2]? = some c2 → c2[i2]? = some n2 →
      n1.Key = n2.Key → b1 = b2 ∧ i1 = i2) ∧
    (∀ (b : Nat) (c : List (MapNode Nat Nat)) (n : MapNode Nat Nat),
      exampleMap.HashTable[b]? = some c → n ∈ c → id n.Key % exampleMap.HashSize = b) ∧
    exampleMap.Count = exampleMap.nodeCount % 4294967296 ∧
    (exampleMap.nodeCount < 4294967296 → exampleMap.Count = exampleMap.nodeCount) ∧
    (∀ key, ∃ slot m', Insert id exampleMap key = some (slot, m') ∧
      ((Find id exampleMap key = some (some slot) ∧ m' = exampleMap) ∨
       (Find id exampleMap key = some none ∧ m'.nodeCount = exampleMap.nodeCount + 1 ∧
         m'.Count = (exampleMap.Count + 1) % 4294967296))) :=
  C9_no_duplicates id exampleMap [7, 4] exampleMap_reachable

theorem chainMap_reachable : ∀ n, ∃ keys, ReachableFrom id (chainMap n) keys := by
  intro n
  induction n with
  | zero => exact ⟨[], ReachableFrom.init Map.empty 1 (by decide)⟩
  | succ n ih =>
    obtain ⟨keys, hr⟩ := ih
    have hinv := reachable_tableInv id (chainMap n) keys hr
    obtain ⟨chain, hc, hcase⟩ := Insert_cases id (chainMap n) n hinv.wf hinv.pos
    have h0 : id n % (chainMap n).HashSize = 0 := Nat.mod_one _
    rw [h0] at hc hcase
    have hc' : some ((List.range n).map fun k => (⟨k, default⟩ : MapNode Nat Nat))
        = some chain := hc
    cases hc'
    have hw : walkChain n ((List.range n).map fun k => (⟨k, default⟩ : MapNode Nat Nat))
        = none := by
      rw [walkChain_none]
      intro node hnode
      obtain ⟨k, hk, rfl⟩ := List.mem_map.1 hnode
      have := List.mem_range.1 hk
      show k ≠ n
      omega
    rcases hcase with ⟨pos, hw', _⟩ | ⟨_, hi⟩
    · rw [hw] at hw'; cases hw'
    · refine ⟨n :: keys, ReachableFrom.insert (chainMap n) keys n
        (0, ((List.range n).map fun k => (⟨k, default⟩ : MapNode Nat Nat)).length)
        (chainMap (n + 1)) hr ?_⟩
      rw [hi]
      have e : (⟨(chainMap n).HashSize,
            (chainMap n).HashTable.set 0
              (((List.range n).map fun k => (⟨k, default⟩ : MapNode Nat Nat))
                ++ [⟨n, default⟩]),
            toUInt32 ((chainMap n).ItemCount + 1)⟩ : Map Nat Nat) = chainMap (n + 1) := by
        show (⟨1, [((List.range n).map fun k => (⟨k, default⟩ : MapNode Nat Nat))
            ++ [⟨n, default⟩]], toUInt32 (toUInt32 n + 1)⟩ : Map Nat Nat)
          = ⟨1, [(List.range (n + 1)).map fun k => (⟨k, default⟩ : MapNode Nat Nat)],
              toUInt32 (n + 1)⟩
        have e1 : toUInt32 (toUInt32 n + 1) = toUInt32 (n + 1) := by
          unfold toUInt32; omega
        rw [List.range_succ, List.map_append, e1]
        rfl
      rw [e]

/-- C9, counterexample. After `Init(1)` and 2^32 calls of `Insert` with the keys
0, 1, ..., 2^32 - 1 the single chain holds 2^32 nodes while `Count()` returns 0. -/
theorem C9_counterexample :
    (∃ keys, ReachableFrom id (chainMap 4294967296) keys) ∧
    (chainMap 4294967296).nodeCount = 4294967296 ∧ (chainMap 4294967296).Count = 0 := by
  refine ⟨chainMap_reachable _, ?_, ?_⟩
  · have : ∀ n, (chainMap n).nodeCount = n := by
      intro n
      show ([(List.range n).map fun k => (⟨k, default⟩ : MapNode Nat Nat)].map
        List.length).sum = n
      simp
    exact this _
  · have : ∀ n, (chainMap n).Count = n % 4294967296 := fun _ => rfl
    rw [this]

/-- C10 (amended). For every map whose table has `HashSize` buckets, `Clear` removes every
node of every chain: afterwards every bucket is empty, no node is left, `Count()` is 0 and
`HashSize` is unchanged; and when `HashSize` is positive, `Find` returns null for every
key. -/
theorem C10_clear_removes_all (Hash : TKey → Nat) (m : Map TKey TValue) (hwf : m.WF) :
    ∃ m', m.Clear = some m' ∧
      (∀ b, b < m.HashSize → m'.HashTable[b]? = some []) ∧ m'.WF ∧
      m'.nodeCount = 0 ∧ m'.Count = 0 ∧ m'.HashSize = m.HashSize ∧
      (0 < m.HashSize → ∀ key, Find Hash m' key = some none) := by
  have hlen : (List.replicate m.HashSize ([] : List (MapNode TKey TValue))).length
      = m.HashSize := by simp
  refine ⟨_, map_Clear_eq m hwf, ?_, hlen, ?_, rfl, rfl, ?_⟩
  · intro b hb
    show (List.replicate m.HashSize _)[b]? = _
    rw [List.getElem?_replicate, if_pos hb]
  · show ((List.replicate m.HashSize ([] : List (MapNode TKey TValue))).map List.length).sum = 0
    simp
  · intro hpos key
    have hc : (List.replicate m.HashSize ([] : List (MapNode TKey TValue)))[
        Hash key % m.HashSize]? = some [] := by
      rw [List.getElem?_replicate, if_pos (Nat.mod_lt _ hpos)]
    rw [Find_eq Hash ⟨m.HashSize, List.replicate m.HashSize [], 0⟩ key [] hpos hc]
    rfl

theorem C10_clear_removes_all_witness :
    ∃ m', exampleMap.Clear = some m' ∧
      (∀ b, b < exampleMap.HashSize → m'.HashTable[b]? = some []) ∧ m'.WF ∧
      m'.nodeCount = 0 ∧ m'.Count = 0 ∧ m'.HashSize = exampleMap.HashSize ∧
      (0 < exampleMap.HashSize → ∀ key, Find id m' key = some none) :=
  C10_clear_removes_all id exampleMap exampleMap_wf

/-- C10, counterexample. On the default-constructed map, whose `HashSize` is 0, `Clear`
returns and leaves the map as it is, and `Find` then divides by the zero `HashSize`
instead of returning null. -/
theorem C10_counterexample :
    (Map.empty : Map Nat Nat).WF ∧
    (Map.empty : Map Nat Nat).Clear = some Map.empty ∧
    Find id (Map.empty : Map Nat Nat) 0 = none ∧
    Find id (Map.empty : Map Nat Nat) 0 ≠ some none := by
  refine ⟨rfl, by decide, by decide, by decide⟩

end Map

/-! ## `Array<T>` and `CompactSet<T>`: element sequences under `Add`, `Remove`, `Clear`
and `CopyFrom` -/

namespace Array

variable {T : Type}

/-- The element sequence of a well-formed array, read position by position. -/
theorem toList_getElem (a : Array T) (hwf : a.WF) (j : Nat) : a.toList[j]? = a.get j := by
  obtain ⟨hlen, hget⟩ := toList_spec a hwf
  by_cases hj : j < a.Size
  · exact hget j hj
  · rw [hwf.raw j (by omega)]
    exact List.getElem?_eq_none (by omega)

/-- C11. For every array with `Capacity ≥ Size` (a well-formed buffer) and
`2 * Capacity < 2^32`, and every value `v`: `Add(v)` returns and the element sequence is
then the old sequence followed by `v`; `Size` grows by one and every earlier element keeps
its index and value. The statement covers the call that reallocates and the one that does
not. -/
theorem C11_add_appends (a : Array T) (hwf : a.WF) (h2 : 2 * a.Capacity < 4294967296)
    (v : T) :
    ∃ a', a.Add v = some a' ∧ a'.toList = a.toList ++ [v] ∧ a'.Size = a.Size + 1 ∧
      (∀ i, i < a.Size → a'.get i = a.get i) ∧ a'.get a.Size = some v := by
  obtain ⟨a', h⟩ := array_Add_total a v hwf (Or.inr h2)
  obtain ⟨hwf', hsz, hold, hnew, _⟩ := array_Add_spec a a' v hwf h
  refine ⟨a', h, ?_, hsz, hold, hnew⟩
  apply List.ext_getElem?
  intro j
  rw [toList_getElem a' hwf']
  have hlen := (toList_spec a hwf).1
  rcases Nat.lt_trichotomy j a.Size with hj | hj | hj
  · rw [List.getElem?_append_left (by omega), toList_getElem a hwf, hold j hj]
  · rw [List.getElem?_append_right (by omega), hj, hlen, Nat.sub_self, hnew]
    rfl
  · rw [List.getElem?_append_right (by omega), hwf'.raw j (by omega)]
    rw [List.getElem?_eq_none (by simp; omega)]

theorem C11_add_appends_witness :
    ∃ a', (rangeArray 2).Add 7 = some a' ∧ a'.toList = (rangeArray 2).toList ++ [7] ∧
      a'.Size = (rangeArray 2).Size + 1 ∧
      (∀ i, i < (rangeArray 2).Size → a'.get i = (rangeArray 2).get i) ∧
      a'.get (rangeArray 2).Size = some 7 :=
  C11_add_appends (rangeArray 2) (lua.MultiHashSetProxyImpl.rangeArray_wf 2 (by decide))
    (by decide) 7

/-- C12. Array growth is doubling. For every well-formed array, `Add` returns and leaves
`Capacity` unchanged when `Size < Capacity`; when `Size = Capacity = c` with
`0 < c < 2^31` it sets `Capacity` to `2 * c`; and when `Capacity = 0` it sets `Capacity`
to 1. In each case `Size` grows by one. -/
theorem C12_growth_is_doubling (a : Array T) (hwf : a.WF) (v : T) :
    (a.Size < a.Capacity →
      ∃ a', a.Add v = some a' ∧ a'.Capacity = a.Capacity ∧ a'.Size = a.Size + 1) ∧
    (a.Size = a.Capacity → 0 < a.Capacity → a.Capacity < 2147483648 →
      ∃ a', a.Add v = some a' ∧ a'.Capacity = 2 * a.Capacity ∧ a'.Size = a.Size + 1) ∧
    (a.Capacity = 0 →
      ∃ a', a.Add v = some a' ∧ a'.Capacity = 1 ∧ a'.Size = a.Size + 1) := by
  refine ⟨?_, ?_, ?_⟩
  · intro hlt
    obtain ⟨a', h⟩ := array_Add_total a v hwf (Or.inl hlt)
    obtain ⟨_, hsz, _, _, _, _, hcap⟩ := array_Add_spec a a' v hwf h
    rw [if_neg (by omega)] at hcap
    exact ⟨a', h, hcap, hsz⟩
  · intro heq hpos h31
    obtain ⟨a', h⟩ := array_Add_total a v hwf (Or.inr (by omega))
    obtain ⟨_, hsz, _, _, _, _, hcap⟩ := array_Add_spec a a' v hwf h
    rw [if_pos (by omega)] at hcap
    unfold CapacityIncrement at hcap
    rw [if_pos hpos, toUInt32_of_lt _ (by omega)] at hcap
    exact ⟨a', h, hcap, hsz⟩
  · intro h0
    obtain ⟨a', h⟩ := array_Add_total a v hwf (Or.inr (by omega))
    obtain ⟨_, hsz, _, _, _, _, hcap⟩ := array_Add_spec a a' v hwf h
    have := hwf.size
    rw [if_pos (by omega)] at hcap
    unfold CapacityIncrement at hcap
    rw [if_neg (by omega)] at hcap
    exact ⟨a', h, hcap, hsz⟩

theorem C12_growth_is_doubling_witness :
    ∃ a', (rangeArray 2).Add 7 = some a' ∧ a'.Capacity = 2 * (rangeArray 2).Capacity ∧
      a'.Size = (rangeArray 2).Size + 1 :=
  (C12_growth_is_doubling (rangeArray 2)
    (lua.MultiHashSetProxyImpl.rangeArray_wf 2 (by decide)) 7).2.1 rfl (by decide) (by decide)

end Array

theorem readSlot_congr {T : Type} (b1 b2 : List (Option T)) (i j : Nat)
    (h : b1[i]? = b2[j]?) : readSlot b1 i = readSlot b2 j := by
  unfold readSlot
  rw [h]

/-- The loop `for (i = index; i < size - 1; i++) buf[i] = buf[i + 1]` of `Remove`. -/
theorem shift_loop {T : Type} (buf : List (Option T)) (index size : Nat)
    (hsz : size ≤ buf.length) (hi : index < size)
    (hel : ∀ j, j < size → ∃ v, readSlot buf j = some v) :
    ∃ b, forLoop (fun i b => (readSlot b (i + 1)).bind (writeSlot b i))
        (size - 1 - index) index buf = some b ∧ b.length = buf.length ∧
      ∀ j, b[j]? = if j < index then buf[j]? else if j < size - 1 then buf[j + 1]?
        else buf[j]? := by
  obtain ⟨b, hb, hlen, hP⟩ := forLoop_inv
    (fun i (b : List (Option T)) => (readSlot b (i + 1)).bind (writeSlot b i))
    (fun k b => b.length = buf.length ∧
      ∀ j, b[j]? = if j < index then buf[j]? else if j < k then buf[j + 1]? else buf[j]?)
    (size - 1 - index) index buf
    ⟨rfl, fun j => by
      by_cases h : j < index
      · rw [if_pos h]
      · rw [if_neg h, if_neg h]⟩
    (by
      intro k t hk1 hk2 hPt
      obtain ⟨hl, hPt⟩ := hPt
      obtain ⟨v, hv⟩ := hel (k + 1) (by omega)
      have hread : readSlot t (k + 1) = some v := by
        rw [← hv]
        apply readSlot_congr
        rw [hPt (k + 1), if_neg (by omega), if_neg (by omega)]
      have hv' : buf[k + 1]? = some (some v) := (readSlot_eq_some _ _ _).1 hv
      refine ⟨t.set k (some v), ?_, ?_, ?_⟩
      · show (readSlot t (k + 1)).bind (writeSlot t k) = _
        rw [hread, Option.some_bind]
        unfold writeSlot
        rw [if_pos (by omega)]
      · rw [List.length_set]; exact hl
      · intro j
        by_cases hjk : j = k
        · rw [hjk, List.getElem?_set_self (by omega), if_neg (by omega), if_pos (by omega), hv']
        · rw [List.getElem?_set_ne (by omega), hPt j]
          by_cases h1 : j < index
          · rw [if_pos h1, if_pos h1]
          · rw [if_neg h1, if_neg h1]
            by_cases h2 : j < k
            · rw [if_pos h2, if_pos (by omega)]
            · rw [if_neg h2, if_neg (by omega)])
  refine ⟨b, hb, hlen, ?_⟩
  have e : index + (size - 1 - index) = size - 1 := by omega
  rw [e] at hP
  exact hP

namespace Array

variable {T : Type}

/-- `Remove` of an index inside a well-formed array. -/
theorem array_Remove_spec (a : Array T) (hwf : a.WF) (i : Nat) (hi : i < a.Size) :
    ∃ a', a.Remove i = some a' ∧ a'.WF ∧ a'.Size + 1 = a.Size ∧ a'.Capacity = a.Capacity ∧
      a'.Unknown = a.Unknown ∧ a'.Unknown2 = a.Unknown2 ∧
      ∀ j, a'.get j = if j < i then a.get j else if j < a.Size - 1 then a.get (j + 1)
        else none := by
  have hlen : a.Size ≤ a.Buf.length := by rw [hwf.buf]; exact hwf.size
  obtain ⟨b, hb, hbl, hP⟩ := shift_loop a.Buf i a.Size hlen hi hwf.elems
  have hget : ∀ j, readSlot (b.set (a.Size - 1) none) j
      = if j < i then a.get j else if j < a.Size - 1 then a.get (j + 1) else none := by
    intro j
    by_cases hj : j = a.Size - 1
    · rw [hj, if_neg (by omega), if_neg (by omega)]
      unfold readSlot
      rw [List.getElem?_set_self (by omega)]
    · rw [readSlot_set_ne _ _ _ _ (by omega)]
      by_cases h1 : j < i
      · rw [if_pos h1]
        apply readSlot_congr
        rw [hP j, if_pos h1]
      · rw [if_neg h1]
        by_cases h2 : j < a.Size - 1
        · rw [if_pos h2]
          apply readSlot_congr
          rw [hP j, if_neg h1, if_pos h2]
        · rw [if_neg h2, ← hwf.raw j (by omega)]
          apply readSlot_congr
          rw [hP j, if_neg h1, if_neg h2]
  refine ⟨⟨b.set (a.Size - 1) none, a.Capacity, a.Unknown, a.Size - 1, a.Unknown2⟩, ?_,
    ⟨?_, hwf.cap, ?_, ?_, ?_⟩, ?_, rfl, rfl, rfl, hget⟩
  · unfold Remove
    rw [if_neg (by omega), hb, Option.some_bind]
    unfold destroySlot
    rw [if_pos (by omega)]
    rfl
  · show (b.set (a.Size - 1) none).length = a.Capacity
    rw [List.length_set, hbl, hwf.buf]
  · show a.Size - 1 ≤ a.Capacity
    have := hwf.size
    omega
  · intro j hj
    have hj' : j < a.Size - 1 := hj
    show ∃ v, readSlot (b.set (a.Size - 1) none) j = some v
    rw [hget j]
    by_cases h1 : j < i
    · rw [if_pos h1]; exact hwf.elems j (by omega)
    · rw [if_neg h1, if_pos hj']; exact hwf.elems (j + 1) (by omega)
  · intro j hj
    have hj' : a.Size - 1 ≤ j := hj
    show readSlot (b.set (a.Size - 1) none) j = none
    rw [hget j, if_neg (by omega), if_neg (by omega)]
  · show a.Size - 1 + 1 = a.Size
    omega

/-- The element sequence after `Remove` of an index inside a well-formed array. -/
theorem array_Remove_toList (a a' : Array T) (hwf : a.WF) (hwf' : a'.WF) (i : Nat)
    (hsz : a'.Size + 1 = a.Size)
    (hget : ∀ j, a'.get j = if j < i then a.get j else if j < a.Size - 1 then a.get (j + 1)
        else none) :
    a'.toList = a.toList.eraseIdx i := by
  apply List.ext_getElem?
  intro j
  rw [toList_getElem a' hwf', List.getElem?_eraseIdx, hget j]
  by_cases h1 : j < i
  · rw [if_pos h1, if_pos h1, toList_getElem a hwf]
  · rw [if_neg h1, if_neg h1, toList_getElem a hwf]
    by_cases h2 : j < a.Size - 1
    · rw [if_pos h2]
    · rw [if_neg h2, hwf.raw (j + 1) (by omega)]

end Array

namespace CompactSet

variable {T : Type}

theorem Remove_toArray (c : CompactSet T) (index : Nat) :
    c.Remove index = (c.toArray.Remove index).map fun a => ⟨a.Buf, a.Capacity, a.Size⟩ := by
  unfold Remove Array.Remove toArray
  by_cases h : index ≥ c.Size
  · rw [if_pos h, if_pos h]; rfl
  · rw [if_neg h, if_neg h]
    cases forLoop (fun i buf => (readSlot buf (i + 1)).bind (writeSlot buf i))
      (c.Size - 1 - index) index c.Buf with
    | none => rfl
    | some b =>
      simp only [Option.some_bind]
      cases destroySlot b (c.Size - 1) with
      | none => rfl
      | some b1 => rfl

end CompactSet

/-- C13. Removal is shift-left and order preserving. For every well-formed array and every
well-formed compact set, and every index `i < Size`, `Remove(i)` returns and yields the old
element sequence with exactly the element at position `i` deleted: the elements before `i`
are unchanged, each element after `i` is found one position down, `Size` decreases by one
and `Capacity` is unchanged. -/
theorem C13_remove_shifts_left {T : Type} (a : Array T) (hwf : a.WF) (c : CompactSet T)
    (hc : c.WF) :
    (∀ i, i < a.Size → ∃ a', a.Remove i = some a' ∧ a'.toList = a.toList.eraseIdx i ∧
      a'.Size + 1 = a.Size ∧ a'.Capacity = a.Capacity ∧
      (∀ j, j < i → a'.get j = a.get j) ∧
      (∀ j, i ≤ j → j + 1 < a.Size → a'.get j = a.get (j + 1))) ∧
    (∀ i, i < c.Size → ∃ c', c.Remove i = some c' ∧ c'.toList = c.toList.eraseIdx i ∧
      c'.Size + 1 = c.Size ∧ c'.Capacity = c.Capacity ∧
      (∀ j, j < i → c'.get j = c.get j) ∧
      (∀ j, i ≤ j → j + 1 < c.Size → c'.get j = c.get (j + 1))) := by
  have key : ∀ (a : Array T), a.WF → ∀ i, i < a.Size →
      ∃ a', a.Remove i = some a' ∧ a'.toList = a.toList.eraseIdx i ∧
        a'.Size + 1 = a.Size ∧ a'.Capacity = a.Capacity ∧
        (∀ j, j < i → a'.get j = a.get j) ∧
        (∀ j, i ≤ j → j + 1 < a.Size → a'.get j = a.get (j + 1)) := by
    intro a hwf i hi
    obtain ⟨a', h, hwf', hsz, hcap, _, _, hget⟩ := Array.array_Remove_spec a hwf i hi
    refine ⟨a', h, Array.array_Remove_toList a a' hwf hwf' i hsz hget, hsz, hcap, ?_, ?_⟩
    · intro j hj
      rw [hget j, if_pos hj]
    · intro j hj1 hj2
      rw [hget j, if_neg (by omega), if_pos (by omega)]
  refine ⟨key a hwf, ?_⟩
  intro i hi
  obtain ⟨a', h, hl, hsz, hcap, h1, h2⟩ := key c.toArray hc i hi
  refine ⟨⟨a'.Buf, a'.Capacity, a'.Size⟩, ?_, hl, hsz, hcap, h1, h2⟩
  rw [CompactSet.Remove_toArray, h]
  rfl

theorem C13_remove_shifts_left_witness :
    (∀ i, i < (rangeArray 3).Size → ∃ a', (rangeArray 3).Remove i = some a' ∧
      a'.toList = (rangeArray 3).toList.eraseIdx i ∧
      a'.Size + 1 = (rangeArray 3).Size ∧ a'.Capacity = (rangeArray 3).Capacity ∧
      (∀ j, j < i → a'.get j = (rangeArray 3).get j) ∧
      (∀ j, i ≤ j → j + 1 < (rangeArray 3).Size → a'.get j = (rangeArray 3).get (j + 1))) ∧
    (∀ i, i < (exampleCompactSet).Size → ∃ c', exampleCompactSet.Remove i = some c' ∧
      c'.toList = exampleCompactSet.toList.eraseIdx i ∧
      c'.Size + 1 = exampleCompactSet.Size ∧ c'.Capacity = exampleCompactSet.Capacity ∧
      (∀ j, j < i → c'.get j = exampleCompactSet.get j) ∧
      (∀ j, i ≤ j → j + 1 < exampleCompactSet.Size →
        c'.get j = exampleCompactSet.get (j + 1))) :=
  C13_remove_shifts_left (rangeArray 3)
    (lua.MultiHashSetProxyImpl.rangeArray_wf 3 (by decide)) exampleCompactSet
    (lua.MultiHashSetProxyImpl.rangeArray_wf 3 (by decide))

/-- C14. For every array and every compact set, whatever their buffers hold, and every
index at or after `Size`, `Remove(index)` returns and leaves the container as it was:
buffer, `Size` and `Capacity` are unchanged. As this holds for every buffer, the null
buffer of an empty container included, no element is accessed. -/
theorem C14_remove_out_of_range {T : Type} (a : Array T) (c : CompactSet T) (index : Nat) :
    (index ≥ a.Size → a.Remove index = some a) ∧
    (index ≥ c.Size → c.Remove index = some c) := by
  constructor
  · intro h
    unfold Array.Remove
    rw [if_pos h]
  · intro h
    unfold CompactSet.Remove
    rw [if_pos h]

theorem C14_remove_out_of_range_witness :
    (Array.empty : Array Nat).Remove 0 = some Array.empty ∧
    (CompactSet.empty : CompactSet Nat).Remove 0 = some CompactSet.empty ∧
    (rangeArray 3).Remove 3 = some (rangeArray 3) :=
  ⟨(C14_remove_out_of_range Array.empty CompactSet.empty 0).1 (Nat.zero_le _),
   (C14_remove_out_of_range Array.empty CompactSet.empty 0).2 (Nat.zero_le _),
   (C14_remove_out_of_range (rangeArray 3) CompactSet.empty 3).1 (Nat.le_refl _)⟩

namespace Array

variable {T : Type}

/-- `CopyFrom` between well-formed arrays: the result holds the elements of the source in
exactly `a.Size` slots, or is the cleared array when the source is empty. -/
theorem array_CopyFrom_spec (self a : Array T) (hs : self.WF) (ha : a.WF) :
    ∃ r, self.CopyFrom a = some r ∧ r.WF ∧ r.Size = a.Size ∧
      r.Unknown = a.Unknown ∧ r.Unknown2 = a.Unknown2 ∧
      r.Capacity = (if a.Size > 0 then a.Size else self.Capacity) ∧
      ∀ j, r.get j = a.get j := by
  have hs0 : WF ⟨self.Buf, self.Capacity, a.Unknown, self.Size, a.Unknown2⟩ :=
    ⟨hs.buf, hs.cap, hs.size, hs.elems, hs.raw⟩
  obtain ⟨s1, hc, hwf1, hsz1, hcap1⟩ := array_Clear_spec _ hs0
  have hu1 : s1.Unknown = a.Unknown ∧ s1.Unknown2 = a.Unknown2 := by
    have hle : self.Size ≤ self.Buf.length := by rw [hs.buf]; exact hs.size
    have := Clear_eq ⟨self.Buf, self.Capacity, a.Unknown, self.Size, a.Unknown2⟩ hle
    rw [hc] at this
    rw [Option.some.inj this]
    exact ⟨rfl, rfl⟩
  unfold CopyFrom
  rw [hc, Option.some_bind]
  by_cases hpos : a.Size > 0
  · rw [if_pos hpos, if_pos hpos]
    have hre := Reallocate_eq s1 a.Size (fun i hi => by rw [hsz1] at hi; omega)
    rw [hre, Option.some_bind]
    have hmin : min s1.Size a.Size = 0 := by rw [hsz1]; exact Nat.zero_min _
    simp only [hmin, List.take_zero, List.nil_append, Nat.sub_zero]
    have hlen : a.Size ≤ a.Buf.length := by rw [ha.buf]; exact ha.size
    obtain ⟨nb, hnb, hP⟩ := forLoop_inv
      (fun i (buf : List (Option T)) => (a.get i).bind (writeSlot buf i))
      (fun i nb => nb = a.Buf.take i ++ List.replicate (a.Size - i) none)
      a.Size 0 (List.replicate a.Size none) (by simp)
      (by
        intro i t _ hi ht
        have hi' : i < a.Size := by omega
        obtain ⟨v, hv⟩ := ha.elems i hi'
        refine ⟨t.set i (some v), ?_, ?_⟩
        · show (a.get i).bind (writeSlot t i) = _
          rw [hv, Option.some_bind]
          unfold writeSlot
          rw [if_pos]
          rw [ht, List.length_append, List.length_take, List.length_replicate]
          omega
        · rw [ht]
          exact copy_step a.Buf a.Size i v hi' ((readSlot_eq_some _ _ _).1 hv))
    rw [hnb, Option.map_some']
    simp only [Nat.zero_add, Nat.sub_self, List.replicate_zero, List.append_nil] at hP
    have hget : ∀ j, readSlot nb j = a.get j := by
      intro j
      rw [hP]
      by_cases hj : j < a.Size
      · apply readSlot_congr
        rw [List.getElem?_take, if_pos hj]
      · rw [ha.raw j (by omega)]
        unfold readSlot
        rw [List.getElem?_eq_none (by rw [List.length_take]; omega)]
    refine ⟨_, rfl, ⟨?_, ?_, ?_, ?_, ?_⟩, rfl, hu1.1, hu1.2, rfl, hget⟩
    · show nb.length = a.Size
      rw [hP, List.length_take]; omega
    · show a.Size < 4294967296
      have := ha.size; have := ha.cap; omega
    · exact Nat.le_refl _
    · intro j hj
      have hj' : j < a.Size := hj
      show ∃ v, readSlot nb j = some v
      rw [hget j]; exact ha.elems j hj'
    · intro j hj
      have hj' : a.Size ≤ j := hj
      show readSlot nb j = none
      rw [hget j]; exact ha.raw j hj'
  · rw [if_neg hpos, if_neg hpos]
    refine ⟨s1, rfl, hwf1, by omega, hu1.1, hu1.2, hcap1, ?_⟩
    intro j
    rw [hwf1.raw j (by omega), ha.raw j (by omega)]

/-- C15. `Capacity ≥ Size` is an invariant of `Array`. It holds for the default-constructed
array, and for every well-formed array with `Capacity ≥ Size` and `2 * Capacity < 2^32`
each of `Add`, `Remove` (of any index), `Clear` and `CopyFrom` (copy construction or copy
assignment from another well-formed array with `Capacity ≥ Size`) returns an array that
is well-formed with `Capacity ≥ Size`. -/
theorem C15_capacity_ge_size (a : Array T) (hwf : a.WF) (h2 : 2 * a.Capacity < 4294967296) :
    (Array.empty : Array T).Capacity ≥ (Array.empty : Array T).Size ∧
    (∀ v, ∃ a', a.Add v = some a' ∧ a'.WF ∧ a'.Capacity ≥ a'.Size) ∧
    (∀ index, ∃ a', a.Remove index = some a' ∧ a'.WF ∧ a'.Capacity ≥ a'.Size) ∧
    (∃ a', a.Clear = some a' ∧ a'.WF ∧ a'.Capacity ≥ a'.Size) ∧
    (∀ b : Array T, b.WF →
      (∃ a', a.CopyFrom b = some a' ∧ a'.WF ∧ a'.Capacity ≥ a'.Size) ∧
      (∃ a', (Array.empty : Array T).CopyFrom b = some a' ∧ a'.WF ∧
        a'.Capacity ≥ a'.Size)) := by
  refine ⟨Nat.le_refl _, ?_, ?_, ?_, ?_⟩
  · intro v
    obtain ⟨a', h⟩ := array_Add_total a v hwf (Or.inr h2)
    obtain ⟨hwf', _⟩ := array_Add_spec a a' v hwf h
    exact ⟨a', h, hwf', hwf'.size⟩
  · intro index
    by_cases hi : index < a.Size
    · obtain ⟨a', h, hwf', _⟩ := array_Remove_spec a hwf index hi
      exact ⟨a', h, hwf', hwf'.size⟩
    · refine ⟨a, ?_, hwf, hwf.size⟩
      unfold Remove
      rw [if_pos (by omega)]
  · obtain ⟨a', h, hwf', _⟩ := array_Clear_spec a hwf
    exact ⟨a', h, hwf', hwf'.size⟩
  · intro b hb
    obtain ⟨r, h, hwf', _⟩ := array_CopyFrom_spec a b hwf hb
    obtain ⟨r0, h0, hwf0, _⟩ := array_CopyFrom_spec Array.empty b (MultiHashSet.array_empty_wf T) hb
    exact ⟨⟨r, h, hwf', hwf'.size⟩, ⟨r0, h0, hwf0, hwf0.size⟩⟩

theorem C15_capacity_ge_size_witness :
    (Array.empty : Array Nat).Capacity ≥ (Array.empty : Array Nat).Size ∧
    (∀ v, ∃ a', (rangeArray 2).Add v = some a' ∧ a'.WF ∧ a'.Capacity ≥ a'.Size) ∧
    (∀ index, ∃ a', (rangeArray 2).Remove index = some a' ∧ a'.WF ∧
      a'.Capacity ≥ a'.Size) ∧
    (∃ a', (rangeArray 2).Clear = some a' ∧ a'.WF ∧ a'.Capacity ≥ a'.Size) ∧
    (∀ b : Array Nat, b.WF →
      (∃ a', (rangeArray 2).CopyFrom b = some a' ∧ a'.WF ∧ a'.Capacity ≥ a'.Size) ∧
      (∃ a', (Array.empty : Array Nat).CopyFrom b = some a' ∧ a'.WF ∧
        a'.Capacity ≥ a'.Size)) :=
  C15_capacity_ge_size (rangeArray 2) (lua.MultiHashSetProxyImpl.rangeArray_wf 2 (by decide))
    (by decide)

end Array

/-! ## `MultiHashSet<T>`: `Clear`, insertion order and the growth policy -/

namespace Array

variable {T : Type}

/-- The element sequence after `Add` on a well-formed array. -/
theorem array_Add_toList (a a' : Array T) (v : T) (hwf : a.WF) (h : a.Add v = some a') :
    a'.toList = a.toList ++ [v] := by
  obtain ⟨hwf', hsz, hold, hnew, _⟩ := array_Add_spec a a' v hwf h
  apply List.ext_getElem?
  intro j
  rw [toList_getElem a' hwf']
  have hlen := (toList_spec a hwf).1
  rcases Nat.lt_trichotomy j a.Size with hj | hj | hj
  · rw [List.getElem?_append_left (by omega), toList_getElem a hwf, hold j hj]
  · rw [List.getElem?_append_right (by omega), hj, hlen, Nat.sub_self, hnew]
    rfl
  · rw [List.getElem?_append_right (by omega), hwf'.raw j (by omega)]
    rw [List.getElem?_eq_none (by simp; omega)]

theorem toList_of_size_zero (a : Array T) (h : a.Size = 0) : a.toList = [] := by
  unfold toList
  rw [h]
  rfl

end Array

namespace MultiHashSet

variable {T : Type} [DecidableEq T]

/-- C17. For every well-formed `MultiHashSet`, `Clear` returns and leaves `Size = 0`, with
`Keys` and `NextIds` both empty, every one of the `NumHashKeys` bucket entries equal to -1
and `NumHashKeys` unchanged; afterwards `FindIndex` returns -1 for every key. -/
theorem C17_clear_empties (E : HashEnv T) (s : MultiHashSet T) (hwf : s.WF) :
    ∃ s', s.Clear = some s' ∧ s'.Keys.Size = 0 ∧ s'.NextIds.Size = 0 ∧
      s'.Keys.toList = [] ∧ s'.NextIds.toList = [] ∧ s'.NumHashKeys = s.NumHashKeys ∧
      (∀ b, b < s.NumHashKeys → s'.readHashKeys b = some (-1)) ∧
      ∀ key, FindIndex E s' key = some (-1) := by
  obtain ⟨keys, hk, _, ksz, _⟩ := Array.array_Clear_spec s.Keys hwf.keys
  obtain ⟨nextIds, hn, _, nsz, _⟩ := Array.array_Clear_spec s.NextIds hwf.nextIds
  rcases hwf.table with ⟨hnone, h0⟩ | ⟨hkl, hhk, hlen⟩
  · refine ⟨⟨none, s.NumHashKeys, nextIds, keys⟩, ?_, ksz, nsz,
      Array.toList_of_size_zero _ ksz, Array.toList_of_size_zero _ nsz, rfl, ?_, ?_⟩
    · unfold Clear
      rw [hnone]
      simp only [if_pos h0, Option.some_bind, hn, hk, Option.map_some']
    · intro b hb
      omega
    · intro key
      unfold FindIndex
      rw [if_pos h0]
  · have hfill : List.replicate s.NumHashKeys (-1) ++ hkl.drop s.NumHashKeys
        = List.replicate s.NumHashKeys (-1) := by
      rw [← hlen, List.drop_length, List.append_nil]
    have hread : ∀ b, b < s.NumHashKeys →
        readHashKeys ⟨some (List.replicate s.NumHashKeys (-1)), s.NumHashKeys, nextIds, keys⟩ b
          = some (-1) := by
      intro b hb
      show (some (List.replicate s.NumHashKeys (-1 : Int))).bind (fun hk => hk[b]?) = _
      rw [Option.some_bind, List.getElem?_replicate, if_pos hb]
    refine ⟨⟨some (List.replicate s.NumHashKeys (-1)), s.NumHashKeys, nextIds, keys⟩, ?_,
      ksz, nsz, Array.toList_of_size_zero _ ksz, Array.toList_of_size_zero _ nsz, rfl,
      hread, ?_⟩
    · unfold Clear
      rw [hhk]
      simp only [if_pos (Nat.le_of_eq hlen.symm), Option.some_bind, hn, hk, Option.map_some',
        hfill]
    · intro key
      unfold FindIndex
      by_cases h0 : s.NumHashKeys = 0
      · rw [if_pos h0]
      · rw [if_neg h0, hread _ (Nat.mod_lt _ (Nat.pos_of_ne_zero h0)), Option.some_bind]
        unfold FindIndexLoop
        rw [if_pos (by omega)]

theorem exampleSet2_wf : exampleSet2.WF :=
  ⟨Or.inr ⟨_, rfl, rfl⟩, (reachable_inv exampleEnv exampleEnv_pos _ exampleSet2_reachable).1.keys,
    (reachable_inv exampleEnv exampleEnv_pos _ exampleSet2_reachable).1.nextIds⟩

theorem C17_clear_empties_witness :
    ∃ s', exampleSet2.Clear = some s' ∧ s'.Keys.Size = 0 ∧ s'.NextIds.Size = 0 ∧
      s'.Keys.toList = [] ∧ s'.NextIds.toList = [] ∧
      s'.NumHashKeys = exampleSet2.NumHashKeys ∧
      (∀ b, b < exampleSet2.NumHashKeys → s'.readHashKeys b = some (-1)) ∧
      ∀ key, FindIndex exampleEnv s' key = some (-1) :=
  C17_clear_empties exampleEnv exampleSet2 exampleSet2_wf

/-- C19 (amended). `Keys` is kept in first-insertion order with stable dense indices. In
every reachable state that holds fewer than 2^31 keys in fewer than 2^31 buckets and for
every key `x` that is not stored: `Add(x)` returns the previous `Size`, the sequence of keys
afterwards is the old sequence followed by `x`, and every earlier key is found at its old
position, whether or not the call resized the bucket table. In every reachable state,
whatever its size, the same holds once `Add(x)` has returned. -/
theorem C19_insertion_order (E : HashEnv T)
    (hp : ∀ n, 0 < E.GetNearestMultiHashMapPrime n) (s : MultiHashSet T)
    (hr : Reachable E s) (x : T) (habs : ∀ i, i < s.Keys.Size → s.Keys.get i ≠ some x) :
    (s.Keys.Size < 2147483648 → s.NumHashKeys < 2147483648 →
      ∃ s', Add E s x = some ((s.Keys.Size : Int), s') ∧
        s'.Keys.toList = s.Keys.toList ++ [x] ∧ s'.Keys.Size = s.Keys.Size + 1 ∧
        (∀ i, i < s.Keys.Size → s'.Keys.get i = s.Keys.get i) ∧
        s'.Keys.get s.Keys.Size = some x) ∧
    (∀ index s', Add E s x = some (index, s') →
      index = (s.Keys.Size : Int) ∧ s'.Keys.toList = s.Keys.toList ++ [x] ∧
      s'.Keys.Size = s.Keys.Size + 1 ∧
      (∀ i, i < s.Keys.Size → s'.Keys.get i = s.Keys.get i) ∧
      s'.Keys.get s.Keys.Size = some x) := by
  obtain ⟨hinv, hdk, hdn⟩ := reachable_inv E hp s hr
  have hpost : ∀ index s', Add E s x = some (index, s') →
      index = (s.Keys.Size : Int) ∧ s'.Keys.toList = s.Keys.toList ++ [x] ∧
      s'.Keys.Size = s.Keys.Size + 1 ∧
      (∀ i, i < s.Keys.Size → s'.Keys.get i = s.Keys.get i) ∧
      s'.Keys.get s.Keys.Size = some x := by
    intro index s' h
    obtain ⟨_, hcase⟩ := set_Add_spec E hp s hinv hdk x index s' h
    rcases hcase with ⟨hf, hne, _⟩ | ⟨_, hidx, _, hka, _, _⟩
    · rcases FindIndex_char E s hinv x index hf with ⟨h1, _⟩ | ⟨i, hi, _, hx⟩
      · exact absurd h1 hne
      · exact absurd hx (habs i hi)
    · obtain ⟨_, ksz, kold, knew, _⟩ := Array.array_Add_spec s.Keys s'.Keys x hinv.keys hka
      exact ⟨hidx, Array.array_Add_toList s.Keys s'.Keys x hinv.keys hka, ksz, kold, knew⟩
  refine ⟨?_, hpost⟩
  intro hsz h31
  obtain ⟨index, s', h⟩ := set_Add_total E hp s hinv hdk hdn hsz h31 x
  obtain ⟨hidx, hrest⟩ := hpost index s' h
  rw [hidx] at h
  exact ⟨s', h, hrest⟩

theorem C19_insertion_order_witness :
    (∃ s', Add exampleEnv exampleSet1 7 = some ((exampleSet1.Keys.Size : Int), s') ∧
      s'.Keys.toList = exampleSet1.Keys.toList ++ [7] ∧
      s'.Keys.Size = exampleSet1.Keys.Size + 1 ∧
      (∀ i, i < exampleSet1.Keys.Size → s'.Keys.get i = exampleSet1.Keys.get i) ∧
      s'.Keys.get exampleSet1.Keys.Size = some 7) ∧
    ((1 : Int) = (exampleSet1.Keys.Size : Int) ∧
      exampleSet2.Keys.toList = exampleSet1.Keys.toList ++ [7] ∧
      exampleSet2.Keys.Size = exampleSet1.Keys.Size + 1 ∧
      (∀ i, i < exampleSet1.Keys.Size → exampleSet2.Keys.get i = exampleSet1.Keys.get i) ∧
      exampleSet2.Keys.get exampleSet1.Keys.Size = some 7) :=
  ⟨(C19_insertion_order exampleEnv exampleEnv_pos exampleSet1 exampleSet1_reachable 7
      (by decide)).1 (by decide) (by decide),
   (C19_insertion_order exampleEnv exampleEnv_pos exampleSet1 exampleSet1_reachable 7
      (by decide)).2 1 exampleSet2 (by decide)⟩

end MultiHashSet

/-! ## `MultiHashMap<TKey, TValue>` -/

namespace MultiHashMap

variable {TKey TValue : Type} [DecidableEq TKey]

/-- C20. The first `Set` on a default-constructed map, for every hash environment, key and
value, is undefined: the key is added at index 0, nothing allocates `Values`, and the
assignment `Values[0] = value` goes through the null pointer. -/
theorem C20_first_set_writes_outside_values (E : HashEnv TKey) (k : TKey) (v : TValue) :
    Set E (MultiHashMap.empty : MultiHashMap TKey TValue) k v = none := by
  unfold Set
  have hf : MultiHashSet.FindIndex E (MultiHashMap.empty : MultiHashMap TKey TValue).toMultiHashSet
      k = some (-1) := rfl
  rw [hf, Option.some_bind, if_pos rfl]
  cases MultiHashSet.Add E (MultiHashMap.empty : MultiHashMap TKey TValue).toMultiHashSet k with
  | none => rfl
  | some r => rfl

end MultiHashMap

/-! ## `MultiHashSet<T>`: the growth policy and the bucket encoding -/

namespace MultiHashSet

variable {T : Type} [DecidableEq T]

/-- The walk from any linked key index ends when the bucket of every stored key is below
2^31 - 1, so that its sentinel `-2 - bucket` is negative. -/
theorem FindIndexLoop_total_buckets (E : HashEnv T) (s : MultiHashSet T) (m : Nat)
    (hl : Linked E s m) (hk : s.Keys.WF) (hm : m ≤ s.Keys.Size)
    (hbk : ∀ i k b, i < m → s.Keys.get i = some k → bucketOf E s k = some b → b < 2147483647)
    (key : T) :
    ∀ j, j < m → ∀ fuel, j < fuel → ∃ r, FindIndexLoop s key fuel (j : Int) = some r := by
  intro j
  induction j using Nat.strong_induction_on with
  | _ j ih =>
    intro hj fuel hf
    obtain ⟨f, rfl⟩ : ∃ f, fuel = f + 1 := ⟨fuel - 1, by omega⟩
    obtain ⟨k, hkj⟩ := hk.elems j (by omega)
    have hj32 : j < 4294967296 := by
      have := hk.cap; have := hk.size; omega
    unfold FindIndexLoop
    rw [if_neg (by omega)]
    simp only [intToUInt32_natCast j hj32, hkj, Option.some_bind]
    by_cases hkk : k = key
    · rw [if_pos hkk]; exact ⟨_, rfl⟩
    · rw [if_neg hkk]
      obtain ⟨v, hv, hor⟩ := hl.links j k hj hkj
      rw [hv, Option.some_bind]
      rcases hor with ⟨b, hb, hvb⟩ | ⟨j', _, hv', hlt, _, _⟩
      · have hblt := hbk j k b hj hkj hb
        have : v < 0 := by
          rw [hvb, sentinel_eq b hblt]; omega
        unfold FindIndexLoop
        rw [if_pos this]; exact ⟨_, rfl⟩
      · rw [hv']
        exact ih j' hlt (by omega) f (by omega)

/-- `FindIndex` returns in every state that satisfies the invariant and stores its keys in
buckets below 2^31 - 1. -/
theorem FindIndex_total_buckets (E : HashEnv T) (s : MultiHashSet T) (hinv : Inv E s)
    (hbk : ∀ i k b, i < s.Keys.Size → s.Keys.get i = some k → bucketOf E s k = some b →
      b < 2147483647)
    (key : T) : ∃ r, FindIndex E s key = some r := by
  unfold FindIndex
  by_cases h0 : s.NumHashKeys = 0
  · rw [if_pos h0]; exact ⟨_, rfl⟩
  · rw [if_neg h0]
    have hpos : 0 < s.NumHashKeys := Nat.pos_of_ne_zero h0
    have hl := hinv.linked hpos
    obtain ⟨hkl, hhk, hlen⟩ := hl.table
    have hblt : toUInt32 (E.MultiHashMapHash key) % s.NumHashKeys < hkl.length := by
      rw [hlen]; exact Nat.mod_lt _ hpos
    have hr : s.readHashKeys (toUInt32 (E.MultiHashMapHash key) % s.NumHashKeys)
        = some hkl[toUInt32 (E.MultiHashMapHash key) % s.NumHashKeys] := by
      unfold readHashKeys
      rw [hhk, Option.some_bind, List.getElem?_eq_getElem hblt]
    rw [hr, Option.some_bind]
    rcases hl.heads _ _ hr with h1 | ⟨j, _, h1, h2, _, _⟩
    · rw [h1]
      unfold FindIndexLoop
      rw [if_pos (by decide)]; exact ⟨_, rfl⟩
    · rw [h1]
      have hcap : s.Keys.Size ≤ s.Keys.Buf.length := by
        rw [hinv.keys.buf]; exact hinv.keys.size
      exact FindIndexLoop_total_buckets E s s.Keys.Size hl hinv.keys (Nat.le_refl _) hbk key j
        h2 _ (by omega)

/-- `Add` returns in every state that satisfies the invariant, whose arrays grew by
doubling, that holds fewer than 2^31 keys and stores them in buckets below 2^31 - 1. -/
theorem set_Add_total_buckets (E : HashEnv T)
    (hp : ∀ n, 0 < E.GetNearestMultiHashMapPrime n)
    (s : MultiHashSet T) (hinv : Inv E s) (hdk : s.Keys.Doubling) (hdn : s.NextIds.Doubling)
    (hsz : s.Keys.Size < 2147483648)
    (hbk : ∀ i k b, i < s.Keys.Size → s.Keys.get i = some k → bucketOf E s k = some b →
      b < 2147483647)
    (key : T) :
    ∃ index s', Add E s key = some (index, s') := by
  obtain ⟨r, hr⟩ := FindIndex_total_buckets E s hinv hbk key
  by_cases hidx : r = -1
  · subst hidx
    have hroom : ∀ {U : Type} (a : Array U), a.WF → a.Doubling → a.Size < 2147483648 →
        a.Size < a.Capacity ∨ 2 * a.Capacity < 4294967296 := by
      intro U a hw hd hs
      by_cases hc : a.Size < a.Capacity
      · exact Or.inl hc
      · have := hw.size
        exact Or.inr (by omega)
    obtain ⟨keys, hka⟩ := Array.array_Add_total s.Keys key hinv.keys
      (hroom s.Keys hinv.keys hdk hsz)
    obtain ⟨nextIds, hna⟩ := Array.array_Add_total s.NextIds (-1) hinv.nextIds
      (hroom s.NextIds hinv.nextIds hdn (by rw [hinv.sizes]; exact hsz))
    obtain ⟨s2, e1, _⟩ := set_Add_absent E s hinv key (hp _) hsz hr keys nextIds hka hna
    exact ⟨_, s2, e1⟩
  · refine ⟨r, s, ?_⟩
    unfold Add
    rw [hr, Option.some_bind, if_pos hidx]

/-- The second half of `Add` for a key that `FindIndex` does not find. -/
theorem set_Add_unfold (E : HashEnv T) (s : MultiHashSet T) (key : T)
    (hf : FindIndex E s key = some (-1)) (keys : Array T) (nextIds : Array Int)
    (hka : s.Keys.Add key = some keys) (hna : s.NextIds.Add (-1) = some nextIds) :
    Add E s key =
      (if s.NumHashKeys ≥ toUInt32 (keys.Size * 2) then
          InsertToHashMap E ⟨s.HashKeys, s.NumHashKeys, nextIds, keys⟩ key
            (toInt32 s.Keys.Size)
        else ResizeHashMap E ⟨s.HashKeys, s.NumHashKeys, nextIds, keys⟩
          (toUInt32 (2 * keys.Size))).map fun s2 => (toInt32 s.Keys.Size, s2) := by
  unfold Add
  rw [hf, Option.some_bind, if_neg (by simp), hka, Option.some_bind, hna, Option.some_bind]

/-- What `InsertToHashMap` changes: the entry of the key's bucket, which becomes the key
index, and the `NextIds` entry of that key index. -/
theorem InsertToHashMap_frame (E : HashEnv T) (s s' : MultiHashSet T) (key : T)
    (keyIdx : Int) (h : InsertToHashMap E s key keyIdx = some s') :
    s'.Keys = s.Keys ∧ s'.NumHashKeys = s.NumHashKeys ∧
    (∃ b, bucketOf E s key = some b ∧ s'.readHashKeys b = some keyIdx ∧
      ∀ b', b' ≠ b → s'.readHashKeys b' = s.readHashKeys b') ∧
    ∀ j, j ≠ intToUInt32 keyIdx → s'.NextIds.get j = s.NextIds.get j := by
  unfold InsertToHashMap at h
  cases hb : bucketOf E s key with
  | none => rw [hb] at h; cases h
  | some b =>
    rw [hb, Option.some_bind] at h
    cases hr : s.readHashKeys b with
    | none => rw [hr] at h; cases h
    | some prev =>
      rw [hr, Option.some_bind] at h
      simp only at h
      cases hn : s.NextIds.set (intToUInt32 keyIdx)
          (if prev < 0 then toInt32 (-2 - toInt32 (b : Int)) else prev) with
      | none => rw [hn] at h; cases h
      | some nextIds =>
        rw [hn, Option.some_bind] at h
        unfold writeHashKeys at h
        cases hhk : s.HashKeys with
        | none => simp only [hhk, Option.none_bind, Option.map_none'] at h; cases h
        | some hk =>
          simp only [hhk, Option.some_bind] at h
          by_cases hlt : b < hk.length
          · rw [if_pos hlt, Option.map_some'] at h
            have hs' := Option.some.inj h
            subst hs'
            refine ⟨rfl, rfl, ⟨b, rfl, ?_, ?_⟩, ?_⟩
            · show (some (hk.set b keyIdx)).bind (fun l => l[b]?) = _
              rw [Option.some_bind, List.getElem?_set_self hlt]
            · intro b' hne
              show (some (hk.set b keyIdx)).bind (fun l => l[b']?) = s.readHashKeys b'
              unfold readHashKeys
              rw [hhk, Option.some_bind, Option.some_bind, List.getElem?_set_ne (Ne.symm hne)]
            · intro j hj
              show nextIds.get j = s.NextIds.get j
              unfold Array.set at hn
              unfold writeSlot at hn
              by_cases hi : intToUInt32 keyIdx < s.NextIds.Buf.length
              · rw [if_pos hi, Option.map_some'] at hn
                rw [← Option.some.inj hn]
                exact readSlot_set_ne _ _ _ _ (Ne.symm hj)
              · rw [if_neg hi] at hn; cases hn
          · rw [if_neg hlt] at h; cases h

end MultiHashSet

namespace MultiHashSet

variable {T : Type} [DecidableEq T]

/-- C16 (amended). Growth policy of `MultiHashSet`. In every reachable state, when `Add`
appends a key `x` that is not stored: if the new `Size` is below 2^31 and `NumHashKeys` is
less than twice the new `Size`, the table is replaced by one of
`GetNearestMultiHashMapPrime(2 * new Size)` buckets in which `FindIndex` finds every key at
its dense index; if `NumHashKeys` is at least twice the new `Size`, the bucket count is
unchanged, the only bucket entry that changes is that of the bucket of `x`, which becomes
the index of `x`, and the `NextIds` entries of the earlier keys are unchanged; and if the
new `Size` is 2^31, the `uint32_t` product `Keys.Size * 2` is 0 and the table is not
replaced: the bucket count is unchanged and only the new key is linked, as in the previous
case. `Add` returns when the set holds fewer than 2^31 keys in fewer than 2^31 buckets.
Hence, when `GetNearestMultiHashMapPrime(n) ≥ n` for every `n`, every reachable state with
fewer than 2^31 keys has `NumHashKeys ≥ 2 * Size`. -/
theorem C16_growth_policy (E : HashEnv T)
    (hp : ∀ n, 0 < E.GetNearestMultiHashMapPrime n) (s : MultiHashSet T)
    (hr : Reachable E s) :
    (∀ x index s', (∀ i, i < s.Keys.Size → s.Keys.get i ≠ some x) →
      Add E s x = some (index, s') →
      s'.Keys.Size = s.Keys.Size + 1 ∧
      (s'.Keys.Size < 2147483648 → s.NumHashKeys < 2 * s'.Keys.Size →
        s'.NumHashKeys = E.GetNearestMultiHashMapPrime (2 * s'.Keys.Size) ∧
        (∃ hk, s'.HashKeys = some hk ∧ hk.length = s'.NumHashKeys) ∧
        ∀ (i : Nat) (k : T), i < s'.Keys.Size → s'.Keys.get i = some k →
          FindIndex E s' k = some (i : Int)) ∧
      (s.NumHashKeys ≥ 2 * s'.Keys.Size →
        s'.NumHashKeys = s.NumHashKeys ∧
        (∃ b, bucketOf E s x = some b ∧ s'.readHashKeys b = some (s.Keys.Size : Int) ∧
          ∀ b', b' ≠ b → s'.readHashKeys b' = s.readHashKeys b') ∧
        ∀ j, j < s.Keys.Size → s'.NextIds.get j = s.NextIds.get j) ∧
      (s'.Keys.Size = 2147483648 →
        toUInt32 (s'.Keys.Size * 2) = 0 ∧
        s'.NumHashKeys = s.NumHashKeys ∧
        (∃ b, bucketOf E s x = some b ∧ s'.readHashKeys b = some (s.Keys.Size : Int) ∧
          ∀ b', b' ≠ b → s'.readHashKeys b' = s.readHashKeys b') ∧
        ∀ j, j < s.Keys.Size → s'.NextIds.get j = s.NextIds.get j)) ∧
    (∀ x, s.Keys.Size < 2147483648 → s.NumHashKeys < 2147483648 →
      ∃ index s', Add E s x = some (index, s')) ∧
    ((∀ n, n ≤ E.GetNearestMultiHashMapPrime n) → s.Keys.Size < 2147483648 →
      s.NumHashKeys ≥ 2 * s.Keys.Size) := by
  obtain ⟨hinv, hdk, hdn⟩ := reachable_inv E hp s hr
  refine ⟨?_, fun x hsz h31 => set_Add_total E hp s hinv hdk hdn hsz h31 x, ?_⟩
  · intro x index s' habs h
    obtain ⟨hinv', hcase⟩ := set_Add_spec E hp s hinv hdk x index s' h
    rcases hcase with ⟨hf, hne, _⟩ | ⟨hf, hidx, h31, hka, ⟨nextIds, hna, _⟩, hbranch⟩
    · rcases FindIndex_char E s hinv x index hf with ⟨h1, _⟩ | ⟨i, hi, _, hx⟩
      · exact absurd h1 hne
      · exact absurd hx (habs i hi)
    · obtain ⟨_, ksz, _⟩ := Array.array_Add_spec s.Keys s'.Keys x hinv.keys hka
      obtain ⟨_, _, nold, _⟩ := Array.array_Add_spec s.NextIds nextIds (-1) hinv.nextIds hna
      have hmod : toUInt32 (s'.Keys.Size * 2) ≤ 2 * s'.Keys.Size := by
        unfold toUInt32
        have := Nat.mod_le (s'.Keys.Size * 2) 4294967296
        omega
      have hkeep : s.NumHashKeys ≥ toUInt32 (s'.Keys.Size * 2) →
          s'.NumHashKeys = s.NumHashKeys ∧
          (∃ b, bucketOf E s x = some b ∧ s'.readHashKeys b = some (s.Keys.Size : Int) ∧
            ∀ b', b' ≠ b → s'.readHashKeys b' = s.readHashKeys b') ∧
          ∀ j, j < s.Keys.Size → s'.NextIds.get j = s.NextIds.get j := by
        intro hc0
        rcases hbranch with ⟨hc, hn⟩ | ⟨hc, _⟩
        · have hadd := set_Add_unfold E s x hf s'.Keys nextIds hka hna
          rw [h, if_pos hc] at hadd
          cases hins : InsertToHashMap E ⟨s.HashKeys, s.NumHashKeys, nextIds, s'.Keys⟩ x
              (toInt32 s.Keys.Size) with
          | none => rw [hins] at hadd; cases hadd
          | some s2 =>
            rw [hins, Option.map_some'] at hadd
            have hs2 : s2 = s' := by
              have := Option.some.inj hadd
              exact (congrArg Prod.snd this).symm
            subst hs2
            obtain ⟨_, _, ⟨b, hb, hrb, hother⟩, hnext⟩ :=
              InsertToHashMap_frame E _ s2 x _ hins
            rw [toInt32_natCast s.Keys.Size h31] at hrb hnext
            rw [intToUInt32_natCast s.Keys.Size (by omega)] at hnext
            refine ⟨hn, ⟨b, hb, hrb, hother⟩, ?_⟩
            intro j hj
            rw [hnext j (by omega)]
            exact nold j (by rw [hinv.sizes]; exact hj)
        · exact absurd hc0 hc
      refine ⟨ksz, ?_, ?_, ?_⟩
      · intro hlt hnum
        have e1 : toUInt32 (s'.Keys.Size * 2) = 2 * s'.Keys.Size := by
          rw [toUInt32_of_lt _ (by omega)]; omega
        have e2 : toUInt32 (2 * s'.Keys.Size) = 2 * s'.Keys.Size :=
          toUInt32_of_lt _ (by omega)
        rcases hbranch with ⟨hc, _⟩ | ⟨_, hn⟩
        · rw [e1] at hc; omega
        · rw [e2] at hn
          have hpos : 0 < s'.NumHashKeys := by rw [hn]; exact hp _
          exact ⟨hn, (hinv'.linked hpos).table,
            fun i k hi hk => FindIndex_present E s' hinv' k i hi hk⟩
      · intro hge
        exact hkeep (Nat.le_trans hmod hge)
      · intro hfull
        have e0 : toUInt32 (s'.Keys.Size * 2) = 0 := by
          rw [hfull]; rfl
        exact ⟨e0, hkeep (by rw [e0]; exact Nat.zero_le _)⟩
  · intro hge
    clear hinv hdk hdn
    induction hr with
    | empty => intro _; exact Nat.zero_le _
    | add s key index s' hr0 hadd ih =>
      intro hlt
      obtain ⟨hinv, hdk, _⟩ := reachable_inv E hp s hr0
      obtain ⟨_, hcase⟩ := set_Add_spec E hp s hinv hdk key index s' hadd
      rcases hcase with ⟨_, _, hs⟩ | ⟨_, _, _, _, _, hbranch⟩
      · rw [hs] at hlt ⊢; exact ih hlt
      · have e1 : toUInt32 (s'.Keys.Size * 2) = 2 * s'.Keys.Size := by
          rw [toUInt32_of_lt _ (by omega)]; omega
        have e2 : toUInt32 (2 * s'.Keys.Size) = 2 * s'.Keys.Size :=
          toUInt32_of_lt _ (by omega)
        rcases hbranch with ⟨hc, hn⟩ | ⟨_, hn⟩
        · rw [e1] at hc; rw [hn]; exact hc
        · rw [hn, e2]; exact hge _
    | clear s s' hr0 hc _ =>
      intro _
      obtain ⟨hinv, _, _⟩ := reachable_inv E hp s hr0
      obtain ⟨s2, e1, _, e3, _⟩ := set_Clear_spec E s hinv
      rw [e1] at hc
      cases hc
      rw [e3]; exact Nat.zero_le _

theorem C16_growth_policy_witness :
    (exampleSet2.Keys.Size = exampleSet1.Keys.Size + 1 ∧
      (exampleSet2.Keys.Size < 2147483648 →
        exampleSet1.NumHashKeys < 2 * exampleSet2.Keys.Size →
        exampleSet2.NumHashKeys
          = exampleEnv.GetNearestMultiHashMapPrime (2 * exampleSet2.Keys.Size) ∧
        (∃ hk, exampleSet2.HashKeys = some hk ∧ hk.length = exampleSet2.NumHashKeys) ∧
        ∀ (i : Nat) (k : Nat), i < exampleSet2.Keys.Size → exampleSet2.Keys.get i = some k →
          FindIndex exampleEnv exampleSet2 k = some (i : Int)) ∧
      (exampleSet1.NumHashKeys ≥ 2 * exampleSet2.Keys.Size →
        exampleSet2.NumHashKeys = exampleSet1.NumHashKeys ∧
        (∃ b, bucketOf exampleEnv exampleSet1 7 = some b ∧
          exampleSet2.readHashKeys b = some (exampleSet1.Keys.Size : Int) ∧
          ∀ b', b' ≠ b → exampleSet2.readHashKeys b' = exampleSet1.readHashKeys b') ∧
        ∀ j, j < exampleSet1.Keys.Size →
          exampleSet2.NextIds.get j = exampleSet1.NextIds.get j) ∧
      (exampleSet2.Keys.Size = 2147483648 →
        toUInt32 (exampleSet2.Keys.Size * 2) = 0 ∧
        exampleSet2.NumHashKeys = exampleSet1.NumHashKeys ∧
        (∃ b, bucketOf exampleEnv exampleSet1 7 = some b ∧
          exampleSet2.readHashKeys b = some (exampleSet1.Keys.Size : Int) ∧
          ∀ b', b' ≠ b → exampleSet2.readHashKeys b' = exampleSet1.readHashKeys b') ∧
        ∀ j, j < exampleSet1.Keys.Size →
          exampleSet2.NextIds.get j = exampleSet1.NextIds.get j)) ∧
    (∃ index s', Add exampleEnv exampleSet1 7 = some (index, s')) ∧
    exampleSet2.NumHashKeys ≥ 2 * exampleSet2.Keys.Size :=
  ⟨(C16_growth_policy exampleEnv exampleEnv_pos exampleSet1 exampleSet1_reachable).1
      7 1 exampleSet2 (by decide) (by decide),
   (C16_growth_policy exampleEnv exampleEnv_pos exampleSet1 exampleSet1_reachable).2.1
      7 (by decide) (by decide),
   (C16_growth_policy exampleEnv exampleEnv_pos exampleSet2 exampleSet2_reachable).2.2
      (by
        intro n
        show n ≤ (if n ≤ 2 then 2 else if n ≤ 5 then 5 else if n ≤ 11 then 11 else 2 * n + 1)
        split_ifs <;> omega)
      (by decide)⟩

/-- C18 (amended). Bucket encoding invariant of `MultiHashSet`. In every reachable state
`Keys` and `NextIds` have the same `Size`; every `HashKeys` entry is -1 or a key index in
`[0, Size)` whose key hashes to that bucket; and every `NextIds[i]` is the index of another
key of the same bucket or the value `-2 - (int)b` computed in 32-bit arithmetic, where `b`
is the bucket of `Keys[i]`. With fewer than 2^31 buckets that value is the negative number
`-2 - b`. -/
theorem C18_bucket_encoding (E : HashEnv T)
    (hp : ∀ n, 0 < E.GetNearestMultiHashMapPrime n) (s : MultiHashSet T)
    (hr : Reachable E s) :
    s.NextIds.Size = s.Keys.Size ∧
    (∀ b h, s.readHashKeys b = some h →
      h = -1 ∨ ∃ (j : Nat) (k : T), h = (j : Int) ∧ j < s.Keys.Size ∧
        s.Keys.get j = some k ∧ bucketOf E s k = some b) ∧
    (∀ i k, i < s.Keys.Size → s.Keys.get i = some k →
      ∃ v, s.NextIds.get i = some v ∧
        ((∃ b, bucketOf E s k = some b ∧ v = toInt32 (-2 - toInt32 (b : Int)) ∧
            (s.NumHashKeys < 2147483648 → v = -2 - (b : Int) ∧ v < 0)) ∨
          ∃ (j : Nat) (k' : T), v = (j : Int) ∧ j < s.Keys.Size ∧ j ≠ i ∧
            s.Keys.get j = some k' ∧ bucketOf E s k' = bucketOf E s k)) := by
  obtain ⟨hinv, _, _⟩ := reachable_inv E hp s hr
  refine ⟨hinv.sizes, ?_, ?_⟩
  · intro b h hb
    by_cases h0 : s.NumHashKeys = 0
    · unfold readHashKeys at hb
      rw [(hinv.noTable h0).1] at hb
      cases hb
    · exact (hinv.linked (Nat.pos_of_ne_zero h0)).heads b h hb
  · intro i k hi hk
    have hpos : 0 < s.NumHashKeys := by
      by_contra hc
      have := (hinv.noTable (by omega)).2
      omega
    obtain ⟨v, hv, hor⟩ := (hinv.linked hpos).links i k hi hk
    refine ⟨v, hv, ?_⟩
    rcases hor with ⟨b, hb, hvb⟩ | ⟨j, k', hj, hlt, hk', hbk⟩
    · left
      refine ⟨b, hb, hvb, ?_⟩
      intro h31
      obtain ⟨_, _, hblt⟩ := bucketOf_lt E s k b hb
      have e := sentinel_eq b (by omega)
      rw [hvb, e]
      exact ⟨rfl, by omega⟩
    · right
      exact ⟨j, k', hj, by omega, by omega, hk', hbk⟩

theorem C18_bucket_encoding_witness :
    exampleSet2.NextIds.Size = exampleSet2.Keys.Size ∧
    (∀ b h, exampleSet2.readHashKeys b = some h →
      h = -1 ∨ ∃ (j : Nat) (k : Nat), h = (j : Int) ∧ j < exampleSet2.Keys.Size ∧
        exampleSet2.Keys.get j = some k ∧ bucketOf exampleEnv exampleSet2 k = some b) ∧
    (∀ i k, i < exampleSet2.Keys.Size → exampleSet2.Keys.get i = some k →
      ∃ v, exampleSet2.NextIds.get i = some v ∧
        ((∃ b, bucketOf exampleEnv exampleSet2 k = some b ∧
            v = toInt32 (-2 - toInt32 (b : Int)) ∧
            (exampleSet2.NumHashKeys < 2147483648 → v = -2 - (b : Int) ∧ v < 0)) ∨
          ∃ (j : Nat) (k' : Nat), v = (j : Int) ∧ j < exampleSet2.Keys.Size ∧ j ≠ i ∧
            exampleSet2.Keys.get j = some k' ∧
            bucketOf exampleEnv exampleSet2 k' = bucketOf exampleEnv exampleSet2 k)) :=
  C18_bucket_encoding exampleEnv exampleEnv_pos exampleSet2 exampleSet2_reachable

end MultiHashSet

namespace MultiHashSet

theorem successorEnv_pos (hash : Nat → Nat) :
    ∀ n, 0 < (successorEnv hash).GetNearestMultiHashMapPrime n :=
  fun n => Nat.succ_pos n

/-- Under `successorEnv hash`, `Add` of a key `x ≥ Size` to a reachable set that holds the
keys 0, 1, ..., Size-1 at their own indices, in buckets below 2^31 - 1: the call returns
`Size` and appends `x`. -/
theorem successorEnv_add (hash : Nat → Nat) (s : MultiHashSet Nat)
    (hr : Reachable (successorEnv hash) s) (x : Nat) (hsz : s.Keys.Size < 2147483648)
    (hkeys : ∀ i, i < s.Keys.Size → s.Keys.get i = some i) (hx : s.Keys.Size ≤ x)
    (hh : ∀ i, i < s.Keys.Size → toUInt32 (hash i) < 2147483647) :
    ∃ s', Add (successorEnv hash) s x = some ((s.Keys.Size : Int), s') ∧
      Reachable (successorEnv hash) s' ∧ Inv (successorEnv hash) s' ∧
      s'.Keys.Size = s.Keys.Size + 1 ∧
      (∀ i, i < s.Keys.Size → s'.Keys.get i = some i) ∧
      s'.Keys.get s.Keys.Size = some x ∧
      ((s.NumHashKeys ≥ toUInt32 (s'.Keys.Size * 2) ∧ s'.NumHashKeys = s.NumHashKeys) ∨
        (¬ s.NumHashKeys ≥ toUInt32 (s'.Keys.Size * 2) ∧
          s'.NumHashKeys = toUInt32 (2 * s'.Keys.Size) + 1)) := by
  have hp := successorEnv_pos hash
  obtain ⟨hinv, hdk, hdn⟩ := reachable_inv (successorEnv hash) hp s hr
  have hbk : ∀ i k b, i < s.Keys.Size → s.Keys.get i = some k →
      bucketOf (successorEnv hash) s k = some b → b < 2147483647 := by
    intro i k b hi hk hb
    rw [hkeys i hi] at hk
    cases hk
    obtain ⟨_, hb', _⟩ := bucketOf_lt (successorEnv hash) s i b hb
    have h1 : toUInt32 ((successorEnv hash).MultiHashMapHash i) % s.NumHashKeys
        ≤ toUInt32 (hash i) := Nat.mod_le _ _
    have h2 := hh i hi
    omega
  obtain ⟨index, s', h⟩ :=
    set_Add_total_buckets (successorEnv hash) hp s hinv hdk hdn hsz hbk x
  obtain ⟨hinv', hcase⟩ := set_Add_spec (successorEnv hash) hp s hinv hdk x index s' h
  rcases hcase with ⟨hf, hne, _⟩ | ⟨_, hidx, _, hka, _, hbranch⟩
  · rcases FindIndex_char (successorEnv hash) s hinv x index hf with ⟨h1, _⟩ | ⟨i, hi, _, hxi⟩
    · exact absurd h1 hne
    · rw [hkeys i hi] at hxi
      have := Option.some.inj hxi
      omega
  · obtain ⟨_, ksz, kold, knew, _⟩ := Array.array_Add_spec s.Keys s'.Keys x hinv.keys hka
    rw [hidx] at h
    refine ⟨s', h, Reachable.add s x _ s' hr h, hinv', ksz, ?_, knew, hbranch⟩
    intro i hi
    rw [kold i hi, hkeys i hi]

/-- Under `successorEnv hash`, adding the keys 0, 1, ..., n-1 in turn to the empty set
reaches a set of `n` keys in `2 * n + 1` buckets, as long as the keys fall into buckets
below 2^31 - 1. -/
theorem successorEnv_family (hash : Nat → Nat) (N : Nat) (hN : N ≤ 2147483647)
    (hh : ∀ i, i < N → toUInt32 (hash i) < 2147483647) :
    ∀ n, n ≤ N → ∃ s, Reachable (successorEnv hash) s ∧ s.Keys.Size = n ∧
      (∀ i, i < n → s.Keys.get i = some i) ∧
      s.NumHashKeys = (if n = 0 then 0 else 2 * n + 1) := by
  intro n
  induction n with
  | zero =>
    intro _
    exact ⟨MultiHashSet.empty, Reachable.empty, rfl,
      fun i hi => absurd hi (Nat.not_lt_zero _), rfl⟩
  | succ n ih =>
    intro hn
    obtain ⟨s, hr, hsz, hkeys, hnum⟩ := ih (by omega)
    obtain ⟨s', _, hr', _, ksz, kold, knew, hbranch⟩ :=
      successorEnv_add hash s hr n (by omega) (by rw [hsz]; exact hkeys) (by omega)
        (fun i hi => hh i (by omega))
    rw [hsz] at ksz kold knew
    refine ⟨s', hr', ksz, ?_, ?_⟩
    · intro i hi
      by_cases hlt : i < n
      · exact kold i hlt
      · have : i = n := by omega
        rw [this]; exact knew
    · have e1 : toUInt32 (s'.Keys.Size * 2) = 2 * n + 2 := by
        rw [ksz, toUInt32_of_lt _ (by omega)]; omega
      have e2 : toUInt32 (2 * s'.Keys.Size) = 2 * n + 2 := by
        rw [ksz, toUInt32_of_lt _ (by omega)]; omega
      rw [if_neg (by omega)]
      rcases hbranch with ⟨hc, _⟩ | ⟨_, hn'⟩
      · rw [e1, hnum] at hc
        split_ifs at hc <;> omega
      · rw [hn', e2]; omega

/-- C16, counterexample. With the hash function that is constantly 0 and the table-size
function `n + 1`, which is at least `n`, adding the keys 0, 1, ..., 2^31 - 2 reaches a set
of 2^31 - 1 keys in 2^32 - 1 buckets. `Add(2147483647)` then appends the key: the new
`Size` is 2^31, the product `Keys.Size * 2` wraps to 0 in `uint32_t`, so the table is not
replaced, and the reached set has `NumHashKeys = 4294967295`, less than
`2 * Size = 4294967296`. -/
theorem C16_counterexample :
    ∃ s s', Reachable (successorEnv fun _ => 0) s ∧
      (∀ n, n ≤ (successorEnv fun _ => 0).GetNearestMultiHashMapPrime n) ∧
      (∀ i, i < s.Keys.Size → s.Keys.get i ≠ some 2147483647) ∧
      Add (successorEnv fun _ => 0) s 2147483647 = some (2147483647, s') ∧
      Reachable (successorEnv fun _ => 0) s' ∧
      s'.Keys.Size = 2147483648 ∧ s.NumHashKeys = 4294967295 ∧
      s'.NumHashKeys = 4294967295 ∧ s'.NumHashKeys < 2 * s'.Keys.Size := by
  obtain ⟨s, hr, hsz, hkeys, hnum⟩ :=
    successorEnv_family (fun _ => 0) 2147483647 (Nat.le_refl _) (fun _ _ => (by decide : toUInt32 0 < 2147483647))
      2147483647 (Nat.le_refl _)
  rw [if_neg (by decide)] at hnum
  obtain ⟨s', hadd, hr', _, ksz, _, _, hbranch⟩ :=
    successorEnv_add (fun _ => 0) s hr 2147483647 (by rw [hsz]; decide)
      (by rw [hsz]; exact hkeys) (by rw [hsz]) (fun _ _ => (by decide : toUInt32 0 < 2147483647))
  rw [hsz] at ksz hadd
  have hnum' : s'.NumHashKeys = 4294967295 := by
    rcases hbranch with ⟨_, hn⟩ | ⟨hc, _⟩
    · rw [hn, hnum]
    · rw [ksz] at hc
      exact absurd (Nat.zero_le _) hc
  refine ⟨s, s', hr, fun n => Nat.le_succ n, ?_, hadd, hr', ksz, hnum, hnum', ?_⟩
  · intro i hi h
    rw [hsz] at hi
    rw [hkeys i hi] at h
    have := Option.some.inj h
    omega
  · rw [hnum', ksz]
    decide

/-- C18, counterexample. With the identity as hash function and the table-size function
`n + 1`, adding the keys 0, 1, ..., 2^30 - 1 and then the key 2^31 reaches a set of
2^30 + 1 keys in 2147483651 buckets. The key 2^31 is stored at index 2^30 and is alone in
bucket 2147483648; its `NextIds` entry, computed as `-2 - (int)bucket`, is 2147483646:
not negative, not -2 - 2147483648, and not the index of a key. -/
theorem C18_counterexample :
    ∃ s, Reachable (successorEnv fun k => k) s ∧ s.Keys.Size = 1073741825 ∧
      s.NumHashKeys = 2147483651 ∧ s.Keys.get 1073741824 = some 2147483648 ∧
      bucketOf (successorEnv fun k => k) s 2147483648 = some 2147483648 ∧
      s.NextIds.get 1073741824 = some 2147483646 := by
  have hh : ∀ i, i < 1073741824 → toUInt32 ((fun k : Nat => k) i) < 2147483647 := by
    intro i hi
    have : toUInt32 i ≤ i := Nat.mod_le _ _
    show toUInt32 i < 2147483647
    omega
  obtain ⟨s, hr, hsz, hkeys, hnum⟩ :=
    successorEnv_family (fun k => k) 1073741824 (by decide) hh 1073741824 (Nat.le_refl _)
  rw [if_neg (by decide)] at hnum
  obtain ⟨s', _, hr', hinv', ksz, kold, knew, hbranch⟩ :=
    successorEnv_add (fun k => k) s hr 2147483648 (by rw [hsz]; decide)
      (by rw [hsz]; exact hkeys) (by rw [hsz]; decide) (by rw [hsz]; exact hh)
  rw [hsz] at ksz kold knew
  have hnum' : s'.NumHashKeys = 2147483651 := by
    rcases hbranch with ⟨hc, _⟩ | ⟨_, hn⟩
    · rw [ksz, hnum] at hc
      exact absurd hc (by decide)
    · rw [hn, ksz]; decide
  have hbx : bucketOf (successorEnv fun k => k) s' 2147483648 = some 2147483648 := by
    rw [bucketOf_pos _ s' _ (by rw [hnum']; decide), hnum']
    decide
  refine ⟨s', hr', ksz, hnum', knew, hbx, ?_⟩
  obtain ⟨v, hv, hor⟩ := (hinv'.linked (by rw [hnum']; decide)).links 1073741824 2147483648
    (by rw [ksz]; decide) knew
  rcases hor with ⟨b, hb, hvb⟩ | ⟨j, k', _, hlt, hk', hbk⟩
  · rw [hbx] at hb
    cases hb
    rw [hv, hvb]
    decide
  · rw [kold j hlt] at hk'
    cases hk'
    rw [hbx, bucketOf_pos _ s' _ (by rw [hnum']; decide), hnum'] at hbk
    have hj : toUInt32 ((successorEnv fun k => k).MultiHashMapHash j) = j :=
      toUInt32_of_lt j (by omega)
    rw [hj, Nat.mod_eq_of_lt (by omega)] at hbk
    have := Option.some.inj hbk
    omega

end MultiHashSet

/-! ## `MultiHashSetProxyImpl<T>`: bounds of `GetElementAt` and `Next` -/

namespace lua.MultiHashSetProxyImpl

variable {T : Type}

/-- C23. `GetElementAt` bounds-checks against `Size`. For every set, whatever its key
buffer holds, and every `arrayIndex` that is 0 or greater than `Size`, it returns false and
pushes nothing; as this holds for every buffer, `Keys` is not indexed. For every
`arrayIndex` with `1 ≤ arrayIndex ≤ Size` and a well-formed key array it returns true and
pushes the element `Keys[arrayIndex - 1]`. Hence a returned flag is true exactly when
`1 ≤ arrayIndex ≤ Size`. -/
theorem C23_getElementAt_bounds (obj : MultiHashSet T) (arrayIndex : Nat) :
    (arrayIndex = 0 ∨ arrayIndex > obj.Keys.Size →
      GetElementAt obj arrayIndex = some (false, [])) ∧
    (1 ≤ arrayIndex ∧ arrayIndex ≤ obj.Keys.Size → obj.Keys.WF →
      ∃ k, obj.Keys.get (arrayIndex - 1) = some k ∧
        GetElementAt obj arrayIndex = some (true, [Pushed.element k])) ∧
    (∀ flag pushed, GetElementAt obj arrayIndex = some (flag, pushed) →
      (flag = true ↔ 1 ≤ arrayIndex ∧ arrayIndex ≤ obj.Keys.Size)) := by
  refine ⟨?_, ?_, ?_⟩
  · intro h
    unfold GetElementAt
    rw [if_neg (by omega)]
  · intro h hwf
    obtain ⟨k, hk⟩ := hwf.elems (arrayIndex - 1) (by omega)
    refine ⟨k, hk, ?_⟩
    unfold GetElementAt
    rw [if_pos ⟨by omega, h.2⟩, hk, Option.map_some']
  · intro flag pushed h
    unfold GetElementAt at h
    by_cases hc : arrayIndex > 0 ∧ arrayIndex ≤ obj.Keys.Size
    · rw [if_pos hc] at h
      cases hg : obj.Keys.get (arrayIndex - 1) with
      | none => rw [hg] at h; cases h
      | some k =>
        rw [hg, Option.map_some'] at h
        have := Option.some.inj h
        have hf : flag = true := (congrArg Prod.fst this).symm
        exact ⟨fun _ => ⟨by omega, hc.2⟩, fun _ => hf⟩
    · rw [if_neg hc] at h
      have := Option.some.inj h
      have hf : flag = false := (congrArg Prod.fst this).symm
      rw [hf]
      exact ⟨fun h' => absurd h' (by decide), fun h' => absurd ⟨by omega, h'.2⟩ hc⟩

theorem C23_getElementAt_bounds_witness :
    GetElementAt exampleSet2 0 = some (false, []) ∧
    GetElementAt exampleSet2 3 = some (false, []) ∧
    ∃ k, exampleSet2.Keys.get (2 - 1) = some k ∧
      GetElementAt exampleSet2 2 = some (true, [Pushed.element k]) :=
  ⟨(C23_getElementAt_bounds exampleSet2 0).1 (Or.inl rfl),
   (C23_getElementAt_bounds exampleSet2 3).1 (Or.inr (by decide)),
   (C23_getElementAt_bounds exampleSet2 2).2.1 ⟨by decide, by decide⟩
    (MultiHashSet.reachable_inv exampleEnv MultiHashSet.exampleEnv_pos exampleSet2
      MultiHashSet.exampleSet2_reachable).1.keys⟩

end lua.MultiHashSetProxyImpl

/-! ## `Set<T>`: `InsertAt` outside the elements -/

namespace Set

/-- C24. `InsertAt` with an index after `Size` is not a no-op. On the set of capacity 4
that holds the one element 7, `InsertAt(3, 9)` returns with `Size` 2 and slot 3 written, so
that the second element is the raw slot 1; and `InsertAt(5, 9)` writes outside the
buffer. -/
theorem C24_insertAt_after_size_writes :
    exampleSparseSet.Size = 1 ∧
    exampleSparseSet.InsertAt 3 9 = some ⟨⟨[some 7, none, none, some 9], 4, 2⟩, 0⟩ ∧
    exampleSparseSet.InsertAt 5 9 = none := by
  refine ⟨rfl, ?_, ?_⟩
  · decide
  · decide

end Set

/-! ## `MultiHashMap<TKey, TValue>`: `Set` and the copy constructor -/

namespace MultiHashMap

variable {TKey TValue : Type} [DecidableEq TKey]

/-- C21. `Set` of a new key does not keep `Values` aligned with `Keys`. The map
`exampleMultiHashMap` holds one key and one value (`NumValues = Keys.Size = 1`); `Set(7, 9)`
adds the key 7 at index 1 and then assigns `Values[1]`, outside the one-slot buffer. On the
same map with a second, raw slot in the buffer the call returns with `Keys.Size = 2` and
`NumValues = 1`. -/
theorem C21_set_new_key_misaligns :
    exampleMultiHashMap.NumValues = (exampleMultiHashMap.Keys.Size : Int) ∧
    Set exampleEnv exampleMultiHashMap 7 9 = none ∧
    (Set exampleEnv (⟨exampleSet1, some [some 3, none], 1⟩ : MultiHashMap Nat Nat) 7 9).map
      (fun m => (m.Keys.Size, m.NumValues)) = some (2, 1) := by
  exact ⟨rfl, rfl, rfl⟩

/-- C22. The copy constructor copies no value. For the map `exampleMultiHashMap`, whose
one value is 3, the copy has `NumValues = 1` and a `Values` array of one slot that still
holds what the allocation left there, whatever that is: the loop body never runs. -/
theorem C22_copy_leaves_values_fresh (fresh : Option Nat) :
    exampleMultiHashMap.Values = some [some 3] ∧
    (copyConstruct fresh exampleMultiHashMap).map (fun m => (m.NumValues, m.Values))
      = some (1, some [fresh]) ∧
    (copyConstruct fresh exampleMultiHashMap).map (fun m => m.valueAt 0) = some fresh := by
  refine ⟨rfl, rfl, ?_⟩
  cases fresh <;> rfl

/-- C28. `Set` on a key that is already present only overwrites the value of that key. For
every map whose key set is reachable and whose `Values` array has a slot for every key, and
every key `k` stored at dense index `i`: `Set(k, v)` returns; the key set (`Keys`, `Size`,
`NextIds` and the bucket table) and `NumValues` are unchanged; `Values` differs in slot `i`
only, which holds `v`; and for every other key `Find` returns the same slot as before,
holding the same value. -/
theorem C28_set_present_overwrites (E : HashEnv TKey)
    (hp : ∀ n, 0 < E.GetNearestMultiHashMapPrime n) (m : MultiHashMap TKey TValue)
    (hr : MultiHashSet.Reachable E m.toMultiHashSet) (values : List (Option TValue))
    (hv : m.Values = some values) (hlen : m.Keys.Size ≤ values.length)
    (k : TKey) (i : Nat) (hi : i < m.Keys.Size) (hk : m.Keys.get i = some k) (v : TValue) :
    ∃ m', Set E m k v = some m' ∧ m'.toMultiHashSet = m.toMultiHashSet ∧
      m'.NumValues = m.NumValues ∧ m'.Values = some (values.set i (some v)) ∧
      Find E m' k = some (some (i : Int)) ∧ m'.valueAt (i : Int) = some v ∧
      ∀ k', k' ≠ k → Find E m' k' = Find E m k' ∧
        ∀ slot, Find E m k' = some (some slot) → m'.valueAt slot = m.valueAt slot := by
  obtain ⟨hinv, _, _⟩ := MultiHashSet.reachable_inv E hp _ hr
  have hf := MultiHashSet.FindIndex_present E m.toMultiHashSet hinv k i hi hk
  have hne : ¬ ((i : Int) = -1) := by omega
  have hset : Set E m k v = some ⟨m.toMultiHashSet, some (values.set i (some v)), m.NumValues⟩ := by
    unfold Set
    rw [hf, Option.some_bind, if_neg hne, Option.some_bind]
    simp only [hv, Option.some_bind]
    rw [if_neg (by omega)]
    unfold writeSlot
    rw [Int.toNat_ofNat, if_pos (by omega), Option.map_some']
  refine ⟨_, hset, rfl, rfl, rfl, ?_, ?_, ?_⟩
  · show (MultiHashSet.FindIndex E m.toMultiHashSet k).map _ = _
    rw [hf, Option.map_some', if_neg hne]
  · show (some (values.set i (some v))).bind _ = _
    rw [Option.some_bind, if_neg (by omega), Int.toNat_ofNat]
    exact readSlot_set_eq values i v (by omega)
  · intro k' hk'
    refine ⟨rfl, ?_⟩
    intro slot hs
    unfold Find at hs
    cases hf' : MultiHashSet.FindIndex E m.toMultiHashSet k' with
    | none => rw [hf'] at hs; cases hs
    | some r =>
      rw [hf', Option.map_some'] at hs
      have hs' := Option.some.inj hs
      by_cases hr1 : r = -1
      · rw [if_pos hr1] at hs'; cases hs'
      · rw [if_neg hr1] at hs'
        have hrs : r = slot := Option.some.inj hs'
        rcases MultiHashSet.FindIndex_char E m.toMultiHashSet hinv k' r hf' with
          ⟨h1, _⟩ | ⟨j, hj, hrj, hkj⟩
        · exact absurd h1 hr1
        · have hji : j ≠ i := by
            intro e
            rw [e, hk] at hkj
            exact hk' (Option.some.inj hkj).symm
          rw [← hrs, hrj]
          unfold valueAt
          rw [hv]
          show (some (values.set i (some v))).bind _ = (some values).bind _
          rw [Option.some_bind, Option.some_bind, if_neg (by omega), Int.toNat_ofNat]
          exact readSlot_set_ne values j i (some v) (Ne.symm hji)

theorem C28_set_present_overwrites_witness :
    ∃ m', Set exampleEnv exampleMultiHashMap 5 9 = some m' ∧
      m'.toMultiHashSet = exampleMultiHashMap.toMultiHashSet ∧
      m'.NumValues = exampleMultiHashMap.NumValues ∧
      m'.Values = some ([some 3].set 0 (some 9)) ∧
      Find exampleEnv m' 5 = some (some ((0 : Nat) : Int)) ∧
      m'.valueAt ((0 : Nat) : Int) = some 9 ∧
      ∀ k', k' ≠ 5 → Find exampleEnv m' k' = Find exampleEnv exampleMultiHashMap k' ∧
        ∀ slot, Find exampleEnv exampleMultiHashMap k' = some (some slot) →
          m'.valueAt slot = exampleMultiHashMap.valueAt slot :=
  C28_set_present_overwrites exampleEnv MultiHashSet.exampleEnv_pos exampleMultiHashMap
    MultiHashSet.exampleSet1_reachable [some 3] rfl (by decide) 5 0 (by decide) (by decide) 9

end MultiHashMap

/-! ## Lifetime scopes: a closed scope invalidates its handles -/

namespace lua

/-- The generation of a scope never decreases, whatever the tracker does afterwards. -/
theorem runEvents_generation_le (scope : Nat) (events : List TrackerEvent) :
    ∀ (t : LifetimeTracker) (g : Nat), t.generations[scope]? = some g →
      ∃ g', g ≤ g' ∧ (runEvents t events).generations[scope]? = some g' := by
  induction events with
  | nil => intro t g h; exact ⟨g, Nat.le_refl _, h⟩
  | cons e es ih =>
    intro t g h
    have hlt : scope < t.generations.length := by
      by_contra hc
      rw [List.getElem?_eq_none (by omega)] at h
      cases h
    cases e with
    | openScope =>
      show ∃ g', g ≤ g' ∧ (runEvents (OpenScope t).2 es).generations[scope]? = some g'
      apply ih
      show (t.generations ++ [0])[scope]? = some g
      rw [List.getElem?_append_left hlt]; exact h
    | closeScope s =>
      show ∃ g', g ≤ g' ∧ (runEvents (CloseScope t s) es).generations[scope]? = some g'
      unfold CloseScope
      cases hs : t.generations[s]? with
      | none => exact ih t g h
      | some gs =>
        by_cases hss : s = scope
        · subst hss
          rw [h] at hs
          cases hs
          obtain ⟨g', hg, hg'⟩ := ih ⟨t.generations.set s (g + 1)⟩ (g + 1)
            (by show (t.generations.set s (g + 1))[s]? = some (g + 1)
                rw [List.getElem?_set_self hlt])
          exact ⟨g', by omega, hg'⟩
        · exact ih ⟨t.generations.set s (gs + 1)⟩ g
            (by show (t.generations.set s (gs + 1))[scope]? = some g
                rw [List.getElem?_set_ne hss]; exact h)

/-- The generation of a scope is unchanged while the scope is not closed. -/
theorem runEvents_generation_eq (scope : Nat) (events : List TrackerEvent) :
    ∀ (t : LifetimeTracker) (g : Nat), t.generations[scope]? = some g →
      (∀ e, e ∈ events → e ≠ TrackerEvent.closeScope scope) →
      (runEvents t events).generations[scope]? = some g := by
  induction events with
  | nil => intro t g h _; exact h
  | cons e es ih =>
    intro t g h hne
    have hlt : scope < t.generations.length := by
      by_contra hc
      rw [List.getElem?_eq_none (by omega)] at h
      cases h
    have hes : ∀ e', e' ∈ es → e' ≠ TrackerEvent.closeScope scope :=
      fun e' he' => hne e' (List.mem_cons_of_mem _ he')
    cases e with
    | openScope =>
      show (runEvents (OpenScope t).2 es).generations[scope]? = some g
      apply ih _ _ _ hes
      show (t.generations ++ [0])[scope]? = some g
      rw [List.getElem?_append_left hlt]; exact h
    | closeScope s =>
      have hss : s ≠ scope := by
        intro e
        exact hne (TrackerEvent.closeScope s) (List.mem_cons_self _ _) (by rw [e])
      show (runEvents (CloseScope t s) es).generations[scope]? = some g
      unfold CloseScope
      cases hs : t.generations[s]? with
      | none => exact ih t g h hes
      | some gs =>
        exact ih ⟨t.generations.set s (gs + 1)⟩ g
          (by show (t.generations.set s (gs + 1))[scope]? = some g
              rw [List.getElem?_set_ne hss]; exact h) hes

/-- C25. A proxy handle made by `MakeImpl` with the lifetime handle of a scope `L` that is
open is valid exactly while its recorded generation equals the current generation of the
scope. It is valid when made and stays valid, every access being delegated to the native
object, as long as the tracker does not close `L`. After `CloseScope(L)`, whatever the
tracker does next, every access through the handle (get, set, length, next, to-string,
equals) fails with `InvalidLifetime`, whatever stands behind the native pointer: the
pointer is not dereferenced. -/
theorem C25_closed_scope_invalidates (t : LifetimeTracker) (scope : Nat)
    (lifetime : LifetimeHandle) (hmade : currentLifetime t scope = some lifetime)
    (object registryIndex : Nat) :
    (∀ t' : LifetimeTracker,
      IsValid t' lifetime = true ↔ t'.generations[lifetime.scope]? = some lifetime.generation) ∧
    IsValid t lifetime = true ∧
    (∀ (events : List TrackerEvent) (op : ProxyAccess) (α : Type)
      (deref : Nat → ProxyAccess → α),
      (∀ e, e ∈ events → e ≠ TrackerEvent.closeScope scope) →
      dispatch (runEvents t events) (MakeImpl object lifetime registryIndex) op deref
        = Except.ok (deref object op)) ∧
    (∀ (events : List TrackerEvent) (op : ProxyAccess) (α : Type)
      (deref : Nat → ProxyAccess → α),
      dispatch (runEvents (CloseScope t scope) events)
        (MakeImpl object lifetime registryIndex) op deref
        = Except.error ProxyError.InvalidLifetime) := by
  unfold currentLifetime at hmade
  cases hg : t.generations[scope]? with
  | none => rw [hg] at hmade; cases hmade
  | some g =>
    rw [hg, Option.map_some'] at hmade
    have hl : lifetime = ⟨scope, g⟩ := (Option.some.inj hmade).symm
    subst hl
    have hlt : scope < t.generations.length := by
      by_contra hc
      rw [List.getElem?_eq_none (by omega)] at hg
      cases hg
    refine ⟨?_, ?_, ?_, ?_⟩
    · intro t'
      unfold IsValid
      exact decide_eq_true_iff
    · unfold IsValid
      exact decide_eq_true hg
    · intro events op α deref hne
      have h := runEvents_generation_eq scope events t g hg hne
      unfold dispatch
      rw [if_pos]
      · rfl
      · unfold IsValid
        exact decide_eq_true h
    · intro events op α deref
      have hclose : (CloseScope t scope).generations[scope]? = some (g + 1) := by
        unfold CloseScope
        rw [hg]
        show (t.generations.set scope (g + 1))[scope]? = some (g + 1)
        rw [List.getElem?_set_self hlt]
      obtain ⟨g', hle, hg'⟩ :=
        runEvents_generation_le scope events (CloseScope t scope) (g + 1) hclose
      unfold dispatch
      rw [if_neg]
      unfold IsValid
      show ¬ decide ((runEvents (CloseScope t scope) events).generations[scope]? = some g) = true
      rw [hg']
      intro hc
      have := of_decide_eq_true hc
      have := Option.some.inj this
      omega

theorem C25_closed_scope_invalidates_witness :
    (∀ t' : LifetimeTracker,
      IsValid t' ⟨1, 0⟩ = true ↔ t'.generations[1]? = some 0) ∧
    IsValid ⟨[4, 0]⟩ ⟨1, 0⟩ = true ∧
    (∀ (events : List TrackerEvent) (op : ProxyAccess) (α : Type)
      (deref : Nat → ProxyAccess → α),
      (∀ e, e ∈ events → e ≠ TrackerEvent.closeScope 1) →
      dispatch (runEvents ⟨[4, 0]⟩ events) (MakeImpl 77 ⟨1, 0⟩ 3) op deref
        = Except.ok (deref 77 op)) ∧
    (∀ (events : List TrackerEvent) (op : ProxyAccess) (α : Type)
      (deref : Nat → ProxyAccess → α),
      dispatch (runEvents (CloseScope ⟨[4, 0]⟩ 1) events) (MakeImpl 77 ⟨1, 0⟩ 3) op deref
        = Except.error ProxyError.InvalidLifetime) :=
  C25_closed_scope_invalidates ⟨[4, 0]⟩ 1 ⟨1, 0⟩ rfl 77 3

end lua

/-! ## `Set<T>`: `Add` -/

namespace Array

variable {T : Type}

/-- The element sequence of a well-formed array that extends another one by one element. -/
theorem toList_push (a a' : Array T) (v : T) (hwf : a.WF) (hwf' : a'.WF)
    (hsz : a'.Size = a.Size + 1) (hold : ∀ i, i < a.Size → a'.get i = a.get i)
    (hnew : a'.get a.Size = some v) : a'.toList = a.toList ++ [v] := by
  apply List.ext_getElem?
  intro j
  rw [toList_getElem a' hwf']
  have hlen := (toList_spec a hwf).1
  rcases Nat.lt_trichotomy j a.Size with hj | hj | hj
  · rw [List.getElem?_append_left (by omega), toList_getElem a hwf, hold j hj]
  · rw [List.getElem?_append_right (by omega), hj, hlen, Nat.sub_self, hnew]
    rfl
  · rw [List.getElem?_append_right (by omega), hwf'.raw j (by omega)]
    rw [List.getElem?_eq_none (by simp; omega)]

/-- A well-formed array moved into a buffer of `n > Size` slots and extended by `v`. -/
theorem grow_push (a : Array T) (hwf : a.WF) (n : Nat) (hn : a.Size < n)
    (hn32 : n < 4294967296) (v : T) :
    WF ⟨(a.Buf.take a.Size ++ List.replicate (n - a.Size) none).set a.Size (some v), n,
      a.Unknown, toUInt32 (a.Size + 1), a.Unknown2⟩ ∧
    toUInt32 (a.Size + 1) = a.Size + 1 ∧
    (∀ i, i < a.Size →
      readSlot ((a.Buf.take a.Size ++ List.replicate (n - a.Size) none).set a.Size (some v)) i
        = a.get i) ∧
    readSlot ((a.Buf.take a.Size ++ List.replicate (n - a.Size) none).set a.Size (some v))
      a.Size = some v := by
  have hlen : a.Size ≤ a.Buf.length := by rw [hwf.buf]; exact hwf.size
  have hl : (a.Buf.take a.Size).length = a.Size := by rw [List.length_take]; omega
  obtain ⟨h1, h2, h3, h4⟩ := push_spec
    ⟨a.Buf.take a.Size ++ List.replicate (n - a.Size) none, n, a.Unknown, a.Size, a.Unknown2⟩ v
    (by show (a.Buf.take a.Size ++ List.replicate (n - a.Size) none).length = n
        rw [List.length_append, hl, List.length_replicate]; omega)
    hn32 hn
    (by intro i hi
        have hi' : i < a.Size := hi
        show ∃ w, readSlot (a.Buf.take a.Size ++ List.replicate (n - a.Size) none) i = some w
        rw [readSlot_take_append _ _ _ _ hi' hlen]
        exact hwf.elems i hi')
    (by intro i hi
        have hi' : a.Size ≤ i := hi
        show readSlot (a.Buf.take a.Size ++ List.replicate (n - a.Size) none) i = none
        exact readSlot_append_replicate _ _ _ (by omega))
  refine ⟨h1, h2, ?_, h4⟩
  intro i hi
  rw [h3 i hi]
  exact readSlot_take_append _ _ _ _ hi hlen

end Array

namespace CompactSet

variable {T : Type}

/-- `Reallocate` of a compact set whose first `Size` slots lie in the buffer and whose
elements to copy are constructed. -/
theorem compact_Reallocate_eq (c : CompactSet T) (newCapacity : Nat)
    (hlen : c.Size ≤ c.Buf.length)
    (h : ∀ i, i < min c.Size newCapacity → ∃ v, readSlot c.Buf i = some v) :
    c.Reallocate newCapacity = some ⟨c.Buf.take (min c.Size newCapacity)
      ++ List.replicate (newCapacity - min c.Size newCapacity) none, newCapacity, c.Size⟩ := by
  have hraw : (if newCapacity > 0 then List.replicate newCapacity (none : Option T) else [])
      = List.replicate newCapacity none := by
    by_cases h0 : newCapacity > 0
    · rw [if_pos h0]
    · have : newCapacity = 0 := by omega
      rw [if_neg h0, this]; rfl
  have h1 : (forLoop (fun i newBuf => (readSlot c.Buf i).bind (writeSlot newBuf i))
      (min c.Size newCapacity) 0 (List.replicate newCapacity none)).map
        (fun newBuf => (⟨newBuf, newCapacity, 0, c.Size, 0⟩ : Array T))
      = some ⟨c.Buf.take (min c.Size newCapacity)
          ++ List.replicate (newCapacity - min c.Size newCapacity) none, newCapacity, 0,
          c.Size, 0⟩ := Array.Reallocate_eq c.toArray newCapacity h
  have h2 : (forLoop (fun i (buf : List (Option T)) => destroySlot buf i) c.Size 0 c.Buf).map
        (fun buf => (⟨buf, c.Capacity, 0, 0, 0⟩ : Array T))
      = some ⟨List.replicate c.Size none ++ c.Buf.drop c.Size, c.Capacity, 0, 0, 0⟩ :=
    Array.Clear_eq c.toArray hlen
  unfold Reallocate RawReallocate
  simp only [hraw]
  cases hc : forLoop (fun i newBuf => (readSlot c.Buf i).bind (writeSlot newBuf i))
      (min c.Size newCapacity) 0 (List.replicate newCapacity none) with
  | none => rw [hc] at h1; cases h1
  | some nb =>
    rw [hc, Option.map_some'] at h1
    have hnb : nb = c.Buf.take (min c.Size newCapacity)
        ++ List.replicate (newCapacity - min c.Size newCapacity) none :=
      congrArg Array.Buf (Option.some.inj h1)
    rw [Option.some_bind]
    cases hd : forLoop (fun i (buf : List (Option T)) => destroySlot buf i) c.Size 0 c.Buf with
    | none => rw [hd] at h2; cases h2
    | some ob =>
      rw [Option.map_some', hnb]

end CompactSet

namespace Set

variable {T : Type}

/-- What `Add` does to a well-formed set that has a free slot or whose `CapacityIncrement`
exceeds `Size`. -/
theorem set_Add_room (s : Set T) (hwf : s.toCompactSet.WF) (v : T)
    (hroom : s.Size < s.Capacity ∨ s.Size < s.CapacityIncrement) :
    ∃ s', s.Add v = some s' ∧ s'.toCompactSet.WF ∧ s'.Size = s.Size + 1 ∧
      s'.toCompactSet.toList = s.toCompactSet.toList ++ [v] ∧
      s'.CapacityIncrementSize = s.CapacityIncrementSize ∧
      s'.Capacity = (if s.Capacity ≤ s.Size then s.CapacityIncrement else s.Capacity) := by
  have hwfa : s.toCompactSet.toArray.WF := hwf
  have hlen : s.Size ≤ s.Buf.length := by
    have h1 : s.Buf.length = s.Capacity := hwfa.buf
    have h2 : s.Size ≤ s.Capacity := hwfa.size
    omega
  have hcap : s.Capacity < 4294967296 := hwfa.cap
  have hsize : s.Size ≤ s.Capacity := hwfa.size
  have hbuf : s.Buf.length = s.Capacity := hwfa.buf
  have hinc32 : s.CapacityIncrement < 4294967296 := by
    unfold CapacityIncrement toUInt32
    split_ifs
    · exact Nat.mod_lt _ (by norm_num)
    · exact Nat.mod_lt _ (by norm_num)
    · norm_num
  -- the capacity and the buffer in which the element is constructed
  have key : ∀ (n : Nat) (buf : List (Option T)), s.Size < n → n < 4294967296 →
      buf = s.Buf.take s.Size ++ List.replicate (n - s.Size) none →
      (⟨⟨buf.set s.Size (some v), n, toUInt32 (s.Size + 1)⟩, s.CapacityIncrementSize⟩
          : Set T).toCompactSet.WF ∧
      toUInt32 (s.Size + 1) = s.Size + 1 ∧
      (⟨buf.set s.Size (some v), n, toUInt32 (s.Size + 1)⟩ : CompactSet T).toList
        = s.toCompactSet.toList ++ [v] := by
    intro n buf hn hn32 hb
    obtain ⟨g1, g2, g3, g4⟩ := Array.grow_push s.toCompactSet.toArray hwfa n hn hn32 v
    rw [hb]
    refine ⟨g1, g2, ?_⟩
    exact Array.toList_push s.toCompactSet.toArray _ v hwfa g1 g2 g3 g4
  by_cases hc : s.Capacity ≤ s.Size
  · have hn : s.Size < s.CapacityIncrement := by
      rcases hroom with h | h
      · omega
      · exact h
    have hre := CompactSet.compact_Reallocate_eq s.toCompactSet s.CapacityIncrement hlen
      (fun i hi => hwfa.elems i (show i < s.Size by
        have : i < min s.Size s.CapacityIncrement := hi
        omega))
    have hmin : min s.Size s.CapacityIncrement = s.Size := by omega
    rw [hmin] at hre
    obtain ⟨k1, k2, k3⟩ := key s.CapacityIncrement _ hn hinc32 rfl
    refine ⟨_, ?_, k1, k2, k3, rfl, ?_⟩
    · unfold Add
      rw [if_pos hc, hre, Option.map_some', Option.some_bind]
      unfold writeSlot
      rw [if_pos (by
        show s.Size < (s.Buf.take s.Size
          ++ List.replicate (s.CapacityIncrement - s.Size) none).length
        rw [List.length_append, List.length_take, List.length_replicate]; omega),
        Option.map_some']
    · rw [if_pos hc]
  · have hn : s.Size < s.Capacity := by omega
    have hb : s.Buf = s.Buf.take s.Size ++ List.replicate (s.Capacity - s.Size) none := by
      apply List.ext_getElem?
      intro j
      by_cases hj : j < s.Size
      · rw [List.getElem?_append_left (by rw [List.length_take]; omega), List.getElem?_take,
          if_pos hj]
      · rw [List.getElem?_append_right (by rw [List.length_take]; omega),
          List.getElem?_replicate, List.length_take]
        have hr : readSlot s.Buf j = none := hwfa.raw j (show s.Size ≤ j by omega)
        by_cases hjc : j < s.Capacity
        · rw [if_pos (by omega)]
          unfold readSlot at hr
          have hjl : j < s.Buf.length := by omega
          rw [List.getElem?_eq_getElem hjl] at hr ⊢
          cases hx : s.Buf[j] with
          | none => rfl
          | some w => rw [hx] at hr; cases hr
        · rw [if_neg (by omega), List.getElem?_eq_none (by omega)]
    obtain ⟨k1, k2, k3⟩ := key s.Capacity s.Buf hn hcap hb
    refine ⟨_, ?_, k1, k2, k3, rfl, ?_⟩
    · unfold Add
      rw [if_neg hc, Option.some_bind]
      unfold writeSlot
      rw [if_pos (by omega), Option.map_some']
    · rw [if_neg hc]

/-- C30 (amended). `Add` leaves room for the appended element when the new capacity fits
32 bits. For every well-formed `Set` (`Capacity ≥ Size`) and every `CapacityIncrementSize`
with `Capacity + CapacityIncrementSize < 2^32` when it is not 0, and `2 * Capacity < 2^32`
when it is 0: `Add(v)` returns, `Capacity ≥ Size` still holds, and the element sequence is
the old one followed by `v`; when the set was full the new capacity is
`Capacity + CapacityIncrementSize` if `CapacityIncrementSize` is not 0, otherwise
`2 * Capacity`, or 1 if `Capacity` was 0; when it was not full the capacity is unchanged. -/
theorem C30_set_add_leaves_room (s : Set T) (hwf : s.toCompactSet.WF) (v : T)
    (hfit : (s.CapacityIncrementSize ≠ 0 →
        s.Capacity + s.CapacityIncrementSize < 4294967296) ∧
      (s.CapacityIncrementSize = 0 → 2 * s.Capacity < 4294967296)) :
    ∃ s', s.Add v = some s' ∧ s'.toCompactSet.WF ∧ s'.Capacity ≥ s'.Size ∧
      s'.Size = s.Size + 1 ∧ s'.toCompactSet.toList = s.toCompactSet.toList ++ [v] ∧
      (s.Capacity ≤ s.Size → s'.Capacity =
        (if s.CapacityIncrementSize ≠ 0 then s.Capacity + s.CapacityIncrementSize
          else if s.Capacity > 0 then 2 * s.Capacity else 1)) ∧
      (s.Size < s.Capacity → s'.Capacity = s.Capacity) := by
  have hsize : s.Size ≤ s.Capacity := hwf.size
  have hinc : s.CapacityIncrement =
      (if s.CapacityIncrementSize ≠ 0 then s.Capacity + s.CapacityIncrementSize
        else if s.Capacity > 0 then 2 * s.Capacity else 1) := by
    unfold CapacityIncrement
    by_cases h0 : s.CapacityIncrementSize ≠ 0
    · have := hfit.1 h0
      rw [if_pos h0, if_pos h0, toUInt32_of_lt s.CapacityIncrementSize (by omega),
        toUInt32_of_lt _ this]
    · have := hfit.2 (by omega)
      rw [if_neg h0, if_neg h0]
      by_cases hc : s.Capacity > 0
      · rw [if_pos hc, if_pos hc, toUInt32_of_lt _ this]
      · rw [if_neg hc, if_neg hc]
  have hroom : s.Size < s.Capacity ∨ s.Size < s.CapacityIncrement := by
    by_cases hlt : s.Size < s.Capacity
    · exact Or.inl hlt
    · right
      rw [hinc]
      split_ifs <;> omega
  obtain ⟨s', h, hwf', hsz, hl, _, hcap⟩ := set_Add_room s hwf v hroom
  refine ⟨s', h, hwf', hwf'.size, hsz, hl, ?_, ?_⟩
  · intro hc
    rw [hcap, if_pos hc, hinc]
  · intro hc
    rw [hcap, if_neg (by omega)]

theorem fullSet_wf (inc : Nat) : (fullSet inc).toCompactSet.WF := by
  refine ⟨rfl, (by decide : (1 : Nat) < 4294967296), Nat.le_refl _, ?_, ?_⟩
  · intro i hi
    have hi' : i < 1 := hi
    have : i = 0 := by omega
    subst this
    exact ⟨7, rfl⟩
  · intro i hi
    have hi' : 1 ≤ i := hi
    show readSlot [some 7] i = none
    unfold readSlot
    rw [List.getElem?_eq_none (by simpa using hi')]

theorem C30_set_add_leaves_room_witness :
    ∃ s', (fullSet 3).Add 9 = some s' ∧ s'.toCompactSet.WF ∧ s'.Capacity ≥ s'.Size ∧
      s'.Size = (fullSet 3).Size + 1 ∧
      s'.toCompactSet.toList = (fullSet 3).toCompactSet.toList ++ [9] ∧
      ((fullSet 3).Capacity ≤ (fullSet 3).Size → s'.Capacity =
        (if (fullSet 3).CapacityIncrementSize ≠ 0 then
            (fullSet 3).Capacity + (fullSet 3).CapacityIncrementSize
          else if (fullSet 3).Capacity > 0 then 2 * (fullSet 3).Capacity else 1)) ∧
      ((fullSet 3).Size < (fullSet 3).Capacity → s'.Capacity = (fullSet 3).Capacity) :=
  C30_set_add_leaves_room (fullSet 3) (fullSet_wf 3) 9 ⟨fun _ => by decide, fun _ => by decide⟩

/-- C30, counterexample. The full one-element set with `CapacityIncrementSize = 2^32` is
well-formed with `Capacity ≥ Size`. `(uint32_t)CapacityIncrementSize` is 0, so `Add`
reallocates to the old capacity 1 and then constructs the new element in slot 1, outside
the buffer. With `CapacityIncrementSize = 2^32 - 1` the new capacity wraps to 0. -/
theorem C30_counterexample :
    (fullSet 4294967296).toCompactSet.WF ∧ (fullSet 4294967296).Capacity ≥ (fullSet 4294967296).Size ∧
    (fullSet 4294967296).CapacityIncrement = 1 ∧ (fullSet 4294967296).Add 9 = none ∧
    (fullSet 4294967295).CapacityIncrement = 0 ∧ (fullSet 4294967295).Add 9 = none :=
  ⟨fullSet_wf _, Nat.le_refl _, by decide, by decide, by decide, by decide⟩

end Set

/-! ## `MultiHashSet<T>`: correctness and termination of `FindIndex` -/

namespace MultiHashSet

variable {T : Type} [DecidableEq T]

/-- C26 (amended). `FindIndex` is correct against the dense array. In every reachable state
the keys in `Keys` are pairwise distinct; for every key `k` and every `i < Size`,
`FindIndex(k) = i` if and only if `Keys[i] = k`; a result of `FindIndex` is -1 or an index
below `Size`; `FindIndex(k) = -1` only if `k` occurs nowhere in `Keys`; and with fewer than
2^31 buckets `FindIndex(k) = -1` for every key that occurs nowhere in `Keys`. -/
theorem C26_findIndex_correct (E : HashEnv T)
    (hp : ∀ n, 0 < E.GetNearestMultiHashMapPrime n) (s : MultiHashSet T)
    (hr : Reachable E s) :
    (∀ i j k, i < s.Keys.Size → j < s.Keys.Size → s.Keys.get i = some k →
      s.Keys.get j = some k → i = j) ∧
    (∀ (k : T) (i : Nat), i < s.Keys.Size →
      (FindIndex E s k = some (i : Int) ↔ s.Keys.get i = some k)) ∧
    (∀ (k : T) (r : Int), FindIndex E s k = some r →
      r = -1 ∨ ∃ i : Nat, i < s.Keys.Size ∧ r = (i : Int)) ∧
    (∀ k : T, FindIndex E s k = some (-1) → ∀ i, i < s.Keys.Size → s.Keys.get i ≠ some k) ∧
    (s.NumHashKeys < 2147483648 → ∀ k : T,
      (∀ i, i < s.Keys.Size → s.Keys.get i ≠ some k) → FindIndex E s k = some (-1)) := by
  obtain ⟨hinv, _, _⟩ := reachable_inv E hp s hr
  refine ⟨hinv.distinct, ?_, ?_, ?_, ?_⟩
  · intro k i hi
    constructor
    · intro h
      rcases FindIndex_char E s hinv k _ h with ⟨h1, _⟩ | ⟨j, _, hj, hk⟩
      · omega
      · have : i = j := by exact_mod_cast hj
        rw [this]; exact hk
    · exact FindIndex_present E s hinv k i hi
  · intro k r h
    rcases FindIndex_char E s hinv k r h with ⟨h1, _⟩ | ⟨j, hj, hr1, _⟩
    · exact Or.inl h1
    · exact Or.inr ⟨j, hj, hr1⟩
  · intro k h
    rcases FindIndex_char E s hinv k _ h with ⟨_, habs⟩ | ⟨j, _, hj, _⟩
    · exact habs
    · omega
  · intro h31 k habs
    obtain ⟨r, h⟩ := FindIndex_total E s hinv h31 k
    rcases FindIndex_char E s hinv k r h with ⟨h1, _⟩ | ⟨j, hj, _, hk⟩
    · rw [h, h1]
    · exact absurd hk (habs j hj)

theorem C26_findIndex_correct_witness :
    (∀ i j k, i < exampleSet2.Keys.Size → j < exampleSet2.Keys.Size →
      exampleSet2.Keys.get i = some k → exampleSet2.Keys.get j = some k → i = j) ∧
    (∀ (k : Nat) (i : Nat), i < exampleSet2.Keys.Size →
      (FindIndex exampleEnv exampleSet2 k = some (i : Int) ↔
        exampleSet2.Keys.get i = some k)) ∧
    (∀ (k : Nat) (r : Int), FindIndex exampleEnv exampleSet2 k = some r →
      r = -1 ∨ ∃ i : Nat, i < exampleSet2.Keys.Size ∧ r = (i : Int)) ∧
    (∀ k : Nat, FindIndex exampleEnv exampleSet2 k = some (-1) →
      ∀ i, i < exampleSet2.Keys.Size → exampleSet2.Keys.get i ≠ some k) ∧
    (exampleSet2.NumHashKeys < 2147483648 → ∀ k : Nat,
      (∀ i, i < exampleSet2.Keys.Size → exampleSet2.Keys.get i ≠ some k) →
      FindIndex exampleEnv exampleSet2 k = some (-1)) :=
  C26_findIndex_correct exampleEnv exampleEnv_pos exampleSet2 exampleSet2_reachable

/-- C27 (amended). `FindIndex` terminates on every reachable `MultiHashSet` with fewer than
2^31 buckets. In every such state each non-negative `NextIds[i]` with `i < Size` is
strictly smaller than `i`, so every bucket chain is acyclic; `FindIndex` returns for every
key; and the chain walk from the head of any bucket returns within `Size` steps. As the
slots of `Keys` and `NextIds` at and after `Size` are raw and the walk is undefined on a
raw slot, a walk that returns has read indices in `[0, Size)` only. -/
theorem C27_findIndex_terminates (E : HashEnv T)
    (hp : ∀ n, 0 < E.GetNearestMultiHashMapPrime n) (s : MultiHashSet T)
    (hr : Reachable E s) (h31 : s.NumHashKeys < 2147483648) :
    (∀ (i : Nat) (v : Int), i < s.Keys.Size → s.NextIds.get i = some v → 0 ≤ v →
      v < (i : Int)) ∧
    (∀ k : T, ∃ r, FindIndex E s k = some r) ∧
    (∀ (k : T) (b : Nat) (h : Int), s.readHashKeys b = some h →
      ∃ r, FindIndexLoop s k s.Keys.Size h = some r) ∧
    (∀ i, s.Keys.Size ≤ i → s.Keys.get i = none ∧ s.NextIds.get i = none) := by
  obtain ⟨hinv, _, _⟩ := reachable_inv E hp s hr
  refine ⟨?_, FindIndex_total E s hinv h31, ?_, ?_⟩
  · intro i v hi hv h0
    have hpos : 0 < s.NumHashKeys := by
      by_contra hc
      have := (hinv.noTable (by omega)).2
      omega
    obtain ⟨k, hk⟩ := hinv.keys.elems i hi
    obtain ⟨v', hv', hor⟩ := (hinv.linked hpos).links i k hi hk
    rw [hv] at hv'
    have hvv : v = v' := Option.some.inj hv'
    rcases hor with ⟨b, hb, hvb⟩ | ⟨j, _, hj, hlt, _, _⟩
    · obtain ⟨_, _, hblt⟩ := bucketOf_lt E s k b hb
      rw [sentinel_eq b (by omega)] at hvb
      omega
    · omega
  · intro k b h hb
    by_cases h0 : s.NumHashKeys = 0
    · unfold readHashKeys at hb
      rw [(hinv.noTable h0).1] at hb
      cases hb
    · have hl := hinv.linked (Nat.pos_of_ne_zero h0)
      rcases hl.heads b h hb with h1 | ⟨j, _, h1, h2, _, _⟩
      · rw [h1]
        unfold FindIndexLoop
        rw [if_pos (by decide)]; exact ⟨_, rfl⟩
      · rw [h1]
        exact FindIndexLoop_total E s s.Keys.Size hl hinv.keys (Nat.le_refl _) h31 k j h2 _ h2
  · intro i hi
    exact ⟨hinv.keys.raw i hi, hinv.nextIds.raw i (by rw [hinv.sizes]; exact hi)⟩

theorem C27_findIndex_terminates_witness :
    (∀ (i : Nat) (v : Int), i < exampleSet2.Keys.Size → exampleSet2.NextIds.get i = some v →
      0 ≤ v → v < (i : Int)) ∧
    (∀ k : Nat, ∃ r, FindIndex exampleEnv exampleSet2 k = some r) ∧
    (∀ (k : Nat) (b : Nat) (h : Int), exampleSet2.readHashKeys b = some h →
      ∃ r, FindIndexLoop exampleSet2 k exampleSet2.Keys.Size h = some r) ∧
    (∀ i, exampleSet2.Keys.Size ≤ i →
      exampleSet2.Keys.get i = none ∧ exampleSet2.NextIds.get i = none) :=
  C27_findIndex_terminates exampleEnv exampleEnv_pos exampleSet2 exampleSet2_reachable
    (by decide)

/-- With the identity as hash function and the table-size function `n + 1`, adding the keys
0, 1, ..., 2^30 - 1 and then the key 2^31 reaches a set in which the key 2^31, at index
2^30, is alone in bucket 2147483648 with the `NextIds` entry 2147483646, and in which the
walk of `FindIndex` for the key 2^31 + 2^32, absent and of the same bucket, goes on to the
raw slot 2147483646 of `Keys`. -/
theorem successorEnv_highBucket :
    ∃ s, Reachable (successorEnv fun k => k) s ∧ s.Keys.Size = 1073741825 ∧
      (∀ i, i < 1073741824 → s.Keys.get i = some i) ∧
      s.Keys.get 1073741824 = some 2147483648 ∧
      s.NextIds.get 1073741824 = some 2147483646 ∧
      FindIndex (successorEnv fun k => k) s 6442450944 = none ∧
      s.NumHashKeys = 2147483651 := by
  have hh : ∀ i, i < 1073741824 → toUInt32 ((fun k : Nat => k) i) < 2147483647 := by
    intro i hi
    have : toUInt32 i ≤ i := Nat.mod_le _ _
    show toUInt32 i < 2147483647
    omega
  obtain ⟨s0, hr0, hsz0, hkeys0, hnum0⟩ :=
    successorEnv_family (fun k => k) 1073741824 (by decide) hh 1073741824 (Nat.le_refl _)
  rw [if_neg (by decide)] at hnum0
  obtain ⟨s, _, hr, hinv, ksz, kold, knew, hbranch⟩ :=
    successorEnv_add (fun k => k) s0 hr0 2147483648 (by rw [hsz0]; decide)
      (by rw [hsz0]; exact hkeys0) (by rw [hsz0]; decide) (by rw [hsz0]; exact hh)
  rw [hsz0] at ksz kold knew
  have hnum : s.NumHashKeys = 2147483651 := by
    rcases hbranch with ⟨hc, _⟩ | ⟨_, hn⟩
    · rw [ksz, hnum0] at hc
      exact absurd hc (by decide)
    · rw [hn, ksz]; decide
  have hpos : 0 < s.NumHashKeys := by rw [hnum]; decide
  have hl := hinv.linked hpos
  have hbx : bucketOf (successorEnv fun k => k) s 2147483648 = some 2147483648 := by
    rw [bucketOf_pos _ s _ hpos, hnum]
    decide
  have hlow : ∀ j, j < 1073741824 →
      bucketOf (successorEnv fun k => k) s j ≠ some 2147483648 := by
    intro j hj hb
    rw [bucketOf_pos _ s _ hpos, hnum] at hb
    have e : toUInt32 ((successorEnv fun k => k).MultiHashMapHash j) = j :=
      toUInt32_of_lt j (by omega)
    rw [e, Nat.mod_eq_of_lt (by omega)] at hb
    have := Option.some.inj hb
    omega
  have hnext : s.NextIds.get 1073741824 = some 2147483646 := by
    obtain ⟨v, hv, hor⟩ := hl.links 1073741824 2147483648 (by rw [ksz]; decide) knew
    rcases hor with ⟨b, hb, hvb⟩ | ⟨j, k', _, hlt, hk', hbk⟩
    · rw [hbx] at hb
      cases hb
      rw [hv, hvb]
      decide
    · rw [kold j hlt] at hk'
      cases hk'
      rw [hbx] at hbk
      exact absurd hbk (hlow j hlt)
  have hhead : s.readHashKeys 2147483648 = some 1073741824 := by
    obtain ⟨b, h, hb, hrb, _⟩ := hl.onChain 1073741824 2147483648 (by rw [ksz]; decide) knew
    rw [hbx] at hb
    cases hb
    rcases hl.heads _ _ hrb with h1 | ⟨j, k', h1, h2, hk', hbk⟩
    · omega
    · rw [ksz] at h2
      by_cases hj : j < 1073741824
      · rw [kold j hj] at hk'
        cases hk'
        exact absurd hbk (hlow j hj)
      · have hj' : j = 1073741824 := by omega
        rw [hrb, h1, hj']
        rfl
  refine ⟨s, hr, ksz, kold, knew, hnext, ?_, hnum⟩
  have hfuel : ∃ f, s.Keys.Buf.length = f + 2 := by
    have h1 := hinv.keys.buf
    have h2 := hinv.keys.size
    exact ⟨s.Keys.Buf.length - 2, by omega⟩
  obtain ⟨f, hf⟩ := hfuel
  unfold FindIndex
  rw [if_neg (by omega), hf]
  have hb2 : toUInt32 ((successorEnv fun k => k).MultiHashMapHash 6442450944) % s.NumHashKeys
      = 2147483648 := by
    rw [hnum]
    decide
  rw [hb2, hhead, Option.some_bind]
  unfold FindIndexLoop
  rw [if_neg (by decide)]
  have e1 : intToUInt32 1073741824 = 1073741824 := by decide
  simp only [e1, knew, hnext, Option.some_bind]
  rw [if_neg (by decide)]
  unfold FindIndexLoop
  rw [if_neg (by decide)]
  have e2 : intToUInt32 2147483646 = 2147483646 := by decide
  simp only [e2]
  rw [hinv.keys.raw 2147483646 (by rw [ksz]; decide)]
  rfl

/-- C26, counterexample. In the reachable set of `successorEnv_highBucket`, of 2^30 + 1
keys in 2147483651 buckets, the key 6442450944 occurs nowhere in `Keys`, yet `FindIndex`
does not return -1 for it: its walk leaves the keys. -/
theorem C26_counterexample :
    ∃ s, Reachable (successorEnv fun k => k) s ∧
      (∀ i, i < s.Keys.Size → s.Keys.get i ≠ some 6442450944) ∧
      FindIndex (successorEnv fun k => k) s 6442450944 = none := by
  obtain ⟨s, hr, ksz, kold, knew, _, hf, _⟩ := successorEnv_highBucket
  refine ⟨s, hr, ?_, hf⟩
  intro i hi h
  rw [ksz] at hi
  by_cases hlt : i < 1073741824
  · rw [kold i hlt] at h
    have := Option.some.inj h
    omega
  · have hi' : i = 1073741824 := by omega
    rw [hi', knew] at h
    exact absurd (Option.some.inj h) (by decide)

/-- C27, counterexample. In the reachable set of `successorEnv_highBucket` the entry
`NextIds[1073741824]` is 2147483646: non-negative and not smaller than its index; and the
walk of `FindIndex` for the key 6442450944 reads `Keys[2147483646]`, outside `[0, Size)`,
and does not return. -/
theorem C27_counterexample :
    ∃ s, Reachable (successorEnv fun k => k) s ∧ s.Keys.Size = 1073741825 ∧
      s.NextIds.get 1073741824 = some 2147483646 ∧
      ¬ ((2147483646 : Int) < ((1073741824 : Nat) : Int)) ∧
      FindIndex (successorEnv fun k => k) s 6442450944 = none := by
  obtain ⟨s, hr, ksz, _, _, hnext, hf, _⟩ := successorEnv_highBucket
  exact ⟨s, hr, ksz, hnext, by decide, hf⟩

end MultiHashSet

/-! ## `Map` and `RefMap`: equivalence, frame of `Insert`, and `Iterate` -/

namespace RefMap

variable {TKey TValue : Type} [DecidableEq TKey] [Inhabited TValue]

theorem Insert_toMap (Hash : TKey → Nat) (r : RefMap TKey TValue) (key : TKey) :
    Insert Hash r key = (Map.Insert Hash r.toMap key).map fun x => (x.1, ofMap x.2) := by
  unfold Insert Map.Insert
  have hb : bucketChain Hash r key = Map.bucketChain Hash r.toMap key := rfl
  rw [hb]
  cases Map.bucketChain Hash r.toMap key with
  | none => rfl
  | some chain =>
    simp only [Option.map_some']
    cases Map.walkChain key chain with
    | none => rfl
    | some pos => rfl

theorem InsertValue_toMap (Hash : TKey → Nat) (r : RefMap TKey TValue) (key : TKey)
    (value : TValue) :
    InsertValue Hash r key value
      = (Map.InsertValue Hash r.toMap key value).map fun x => (x.1, ofMap x.2) := by
  unfold InsertValue Map.InsertValue
  rw [Insert_toMap]
  cases Map.Insert Hash r.toMap key with
  | none => rfl
  | some x =>
    simp only [Option.map_some', Option.some_bind]
    have hs : (ofMap x.2).setValueAt x.1 value = (x.2.setValueAt x.1 value).map ofMap := by
      unfold setValueAt Map.setValueAt
      show (x.2.HashTable[x.1.1]?).bind _ = Option.map ofMap ((x.2.HashTable[x.1.1]?).bind _)
      cases x.2.HashTable[x.1.1]? with
      | none => rfl
      | some chain =>
        simp only [Option.some_bind]
        cases chain[x.1.2]? with
        | none => rfl
        | some node => rfl
    rw [hs]
    cases x.2.setValueAt x.1 value with
    | none => rfl
    | some m2 => rfl

theorem Clear_toMap (r : RefMap TKey TValue) : r.Clear = r.toMap.Clear.map ofMap := by
  unfold Clear Map.Clear
  show (forLoop _ r.HashSize 0 r.HashTable).map _
    = Option.map ofMap ((forLoop _ r.HashSize 0 r.HashTable).map _)
  have hbody : (fun i (table : List (List (MapNode TKey TValue))) =>
      (table[i]?).bind fun item =>
        if item.isEmpty then some table
        else (FreeHashChain item).map fun _ => table.set i [])
      = (fun i (table : List (List (MapNode TKey TValue))) =>
      (table[i]?).bind fun item =>
        if item.isEmpty then some table
        else (Map.FreeHashChain item).map fun _ => table.set i []) := rfl
  rw [hbody]
  cases forLoop (fun i (table : List (List (MapNode TKey TValue))) =>
      (table[i]?).bind fun item =>
        if item.isEmpty then some table
        else (Map.FreeHashChain item).map fun _ => table.set i []) r.HashSize 0 r.HashTable with
  | none => rfl
  | some table => rfl

theorem call_toMap (Hash : TKey → Nat) (r : RefMap TKey TValue) (c : MapCall TKey TValue) :
    call Hash r c = (Map.call Hash r.toMap c).map fun x => (x.1, ofMap x.2) := by
  cases c with
  | insert key =>
    show (Insert Hash r key).map _ = Option.map _ ((Map.Insert Hash r.toMap key).map _)
    rw [Insert_toMap]
    cases Map.Insert Hash r.toMap key with
    | none => rfl
    | some x => rfl
  | insertValue key value =>
    show (InsertValue Hash r key value).map _
      = Option.map _ ((Map.InsertValue Hash r.toMap key value).map _)
    rw [InsertValue_toMap]
    cases Map.InsertValue Hash r.toMap key value with
    | none => rfl
    | some x => rfl
  | find key =>
    show (Find Hash r key).map _ = Option.map _ ((Map.Find Hash r.toMap key).map _)
    have hf : Find Hash r key = Map.Find Hash r.toMap key := rfl
    rw [hf]
    cases Map.Find Hash r.toMap key with
    | none => rfl
    | some x => rfl
  | clear =>
    show r.Clear.map _ = Option.map _ (r.toMap.Clear.map _)
    rw [Clear_toMap]
    cases r.toMap.Clear with
    | none => rfl
    | some x => rfl

theorem run_toMap (Hash : TKey → Nat) (calls : List (MapCall TKey TValue)) :
    ∀ r : RefMap TKey TValue,
      run Hash r calls = (Map.run Hash r.toMap calls).map fun x => (x.1, ofMap x.2) := by
  induction calls with
  | nil => intro r; rfl
  | cons c cs ih =>
    intro r
    show (call Hash r c).bind _ = Option.map _ ((Map.call Hash r.toMap c).bind _)
    rw [call_toMap]
    cases Map.call Hash r.toMap c with
    | none => rfl
    | some x =>
      simp only [Option.map_some', Option.some_bind]
      rw [ih (ofMap x.2)]
      show Option.map _ (Option.map _ (Map.run Hash x.2 cs)) = _
      cases Map.run Hash x.2 cs with
      | none => rfl
      | some y => rfl

end RefMap

namespace Map

variable {TKey TValue : Type} [DecidableEq TKey] [Inhabited TValue]

/-- Every call returns on a map with a table of `HashSize > 0` buckets and leaves such a
map. -/
theorem call_total (Hash : TKey → Nat) (m : Map TKey TValue) (hwf : m.WF)
    (hpos : 0 < m.HashSize) (c : MapCall TKey TValue) :
    ∃ res m', call Hash m c = some (res, m') ∧ m'.WF ∧ m'.HashSize = m.HashSize := by
  have hset : ∀ (b : Nat) (ch : List (MapNode TKey TValue)) (n : Nat),
      WF (⟨m.HashSize, m.HashTable.set b ch, n⟩ : Map TKey TValue) := by
    intro b ch n
    show (m.HashTable.set b ch).length = m.HashSize
    rw [List.length_set]; exact hwf
  cases c with
  | insert key =>
    obtain ⟨chain, _, hcase⟩ := Insert_cases Hash m key hwf hpos
    rcases hcase with ⟨pos, _, hi⟩ | ⟨_, hi⟩
    · exact ⟨_, m, by show (Insert Hash m key).map _ = _; rw [hi]; rfl, hwf, rfl⟩
    · exact ⟨_, _, by show (Insert Hash m key).map _ = _; rw [hi]; rfl, hset _ _ _, rfl⟩
  | insertValue key value =>
    obtain ⟨chain, _, hcase⟩ := InsertValue_cases Hash m key value hwf hpos
    rcases hcase with ⟨pos, node, _, _, _, hi⟩ | ⟨_, hi⟩
    · exact ⟨_, _, by show (InsertValue Hash m key value).map _ = _; rw [hi]; rfl,
        hset _ _ _, rfl⟩
    · exact ⟨_, _, by show (InsertValue Hash m key value).map _ = _; rw [hi]; rfl,
        hset _ _ _, rfl⟩
  | find key =>
    obtain ⟨chain, _, hc⟩ := bucketChain_eq Hash m key hwf hpos
    exact ⟨_, m, by show (Find Hash m key).map _ = _; rw [Find_eq Hash m key chain hpos hc]; rfl,
      hwf, rfl⟩
  | clear =>
    refine ⟨_, ⟨m.HashSize, List.replicate m.HashSize [], 0⟩,
      by show m.Clear.map _ = _; rw [map_Clear_eq m hwf]; rfl, ?_, rfl⟩
    show (List.replicate m.HashSize ([] : List (MapNode TKey TValue))).length = m.HashSize
    simp

theorem run_total (Hash : TKey → Nat) (calls : List (MapCall TKey TValue)) :
    ∀ m : Map TKey TValue, m.WF → 0 < m.HashSize →
      ∃ results m', run Hash m calls = some (results, m') ∧ m'.HashSize = m.HashSize := by
  induction calls with
  | nil => intro m _ _; exact ⟨[], m, rfl, rfl⟩
  | cons c cs ih =>
    intro m hwf hpos
    obtain ⟨res, m1, h1, hwf1, hs1⟩ := call_total Hash m hwf hpos c
    obtain ⟨results, m2, h2, hs2⟩ := ih m1 hwf1 (by rw [hs1]; exact hpos)
    refine ⟨res :: results, m2, ?_, by rw [hs2, hs1]⟩
    show (call Hash m c).bind _ = _
    rw [h1, Option.some_bind]
    show (run Hash m1 cs).map _ = _
    rw [h2]
    rfl

end Map

/-- C31. `Map` and `RefMap` are behaviourally equivalent. For the same positive hash size,
the same hash function and every sequence of calls of `Insert(key)`, `Insert(key, value)`,
`Find` and `Clear`, started on the freshly constructed containers: both runs return, with
the same results call by call (the same slot or null pointer and the same value behind
it), and they end with the same `Count`, the same `HashSize` and the same chains in the
same order in every bucket. -/
theorem C31_map_refmap_equivalent {TKey TValue : Type} [DecidableEq TKey] [Inhabited TValue]
    (Hash : TKey → Nat) (hashSize : Nat) (hpos : 0 < hashSize)
    (calls : List (MapCall TKey TValue)) :
    ∃ (results : List (MapReturn TValue)) (m : Map TKey TValue) (r : RefMap TKey TValue),
      Map.run Hash ((Map.empty : Map TKey TValue).Init hashSize) calls = some (results, m) ∧
      RefMap.run Hash (RefMap.construct hashSize) calls = some (results, r) ∧
      r.Count = m.Count ∧ r.HashSize = m.HashSize ∧ r.HashTable = m.HashTable := by
  have hwf : ((Map.empty : Map TKey TValue).Init hashSize).WF := by
    show (List.replicate hashSize ([] : List (MapNode TKey TValue))).length = hashSize
    simp
  obtain ⟨results, m, hm, _⟩ := Map.run_total Hash calls _ hwf hpos
  refine ⟨results, m, RefMap.ofMap m, hm, ?_, rfl, rfl, rfl⟩
  rw [RefMap.run_toMap]
  have : (RefMap.construct hashSize : RefMap TKey TValue).toMap
      = (Map.empty : Map TKey TValue).Init hashSize := rfl
  rw [this, hm]
  rfl

theorem C31_map_refmap_equivalent_witness :
    ∃ (results : List (MapReturn Nat)) (m : Map Nat Nat) (r : RefMap Nat Nat),
      Map.run id ((Map.empty : Map Nat Nat).Init 3)
        [MapCall.insertValue 4 7, MapCall.insert 7, MapCall.find 4, MapCall.clear,
          MapCall.find 4] = some (results, m) ∧
      RefMap.run id (RefMap.construct 3)
        [MapCall.insertValue 4 7, MapCall.insert 7, MapCall.find 4, MapCall.clear,
          MapCall.find 4] = some (results, r) ∧
      r.Count = m.Count ∧ r.HashSize = m.HashSize ∧ r.HashTable = m.HashTable :=
  C31_map_refmap_equivalent id 3 (by decide) _

namespace Map

variable {TKey TValue : Type} [DecidableEq TKey] [Inhabited TValue]

/-- Replacing the chain of one bucket by a chain on which the walk for `key` ends at the
same place and finds the same node leaves `Find(key)` and the value behind it as they
were. -/
theorem find_frame (Hash : TKey → Nat) (m : Map TKey TValue) (hwf : m.WF)
    (hpos : 0 < m.HashSize) (b : Nat) (chain c' : List (MapNode TKey TValue)) (count : Nat)
    (hc : m.HashTable[b]? = some chain) (key : TKey)
    (hw : walkChain key c' = walkChain key chain)
    (hv : ∀ p, walkChain key chain = some p → c'[p]? = chain[p]?) :
    Find Hash ⟨m.HashSize, m.HashTable.set b c', count⟩ key = Find Hash m key ∧
    ∀ s, Find Hash m key = some (some s) →
      valueAt ⟨m.HashSize, m.HashTable.set b c', count⟩ s = m.valueAt s := by
  have hlt : b < m.HashTable.length := by
    by_contra hcon
    rw [List.getElem?_eq_none (by omega)] at hc
    cases hc
  obtain ⟨ck, _, hck⟩ := bucketChain_eq Hash m key hwf hpos
  rw [Find_eq Hash m key ck hpos hck]
  by_cases hb : Hash key % m.HashSize = b
  · rw [hb] at hck
    rw [hc] at hck
    cases hck
    have hc2 : (m.HashTable.set b c')[Hash key % m.HashSize]? = some c' := by
      rw [hb, List.getElem?_set_self hlt]
    constructor
    · rw [Find_eq Hash ⟨m.HashSize, m.HashTable.set b c', count⟩ key c' hpos hc2, hw]
    · intro s hs
      have hs' := Option.some.inj hs
      cases hwk : walkChain key chain with
      | none => rw [hwk] at hs'; cases hs'
      | some p =>
        rw [hwk, Option.map_some'] at hs'
        have hsp : s = (Hash key % m.HashSize, p) := (Option.some.inj hs').symm
        rw [hsp, hb]
        unfold valueAt
        show ((m.HashTable.set b c')[b]?).bind _ = (m.HashTable[b]?).bind _
        rw [List.getElem?_set_self hlt, hc, Option.some_bind, Option.some_bind, hv p hwk]
  · have hc2 : (m.HashTable.set b c')[Hash key % m.HashSize]? = some ck := by
      rw [List.getElem?_set_ne (fun e => hb e.symm)]; exact hck
    constructor
    · rw [Find_eq Hash ⟨m.HashSize, m.HashTable.set b c', count⟩ key ck hpos hc2]
    · intro s hs
      have hs' := Option.some.inj hs
      cases hwk : walkChain key ck with
      | none => rw [hwk] at hs'; cases hs'
      | some p =>
        rw [hwk, Option.map_some'] at hs'
        have hsp : s = (Hash key % m.HashSize, p) := (Option.some.inj hs').symm
        rw [hsp]
        unfold valueAt
        show ((m.HashTable.set b c')[Hash key % m.HashSize]?).bind _
          = (m.HashTable[Hash key % m.HashSize]?).bind _
        rw [List.getElem?_set_ne (fun e => hb e.symm)]

/-- C32. `Insert` affects only its own key. For every map with a table of `HashSize > 0`
buckets, all keys `k' ≠ k` and every value `v`: `Insert(k)` and `Insert(k, v)` return, and
after either of them `Find(k')` returns what it returned before, the same miss or the same
slot holding the same value, whether or not the two keys share a bucket. In every bucket
the chain after `Insert(k)` is the old chain or the old chain with one node for `k`
appended at its end, and `Insert(k, v)` leaves the same keys in the same order. -/
theorem C32_insert_frame (Hash : TKey → Nat) (m : Map TKey TValue) (hwf : m.WF)
    (hpos : 0 < m.HashSize) (k k' : TKey) (hne : k' ≠ k) (v : TValue) :
    ∃ slot1 m1 slot2 m2, Insert Hash m k = some (slot1, m1) ∧
      InsertValue Hash m k v = some (slot2, m2) ∧
      Find Hash m1 k' = Find Hash m k' ∧ Find Hash m2 k' = Find Hash m k' ∧
      (∀ s, Find Hash m k' = some (some s) →
        m1.valueAt s = m.valueAt s ∧ m2.valueAt s = m.valueAt s) ∧
      (∀ (b : Nat) (chain : List (MapNode TKey TValue)), m.HashTable[b]? = some chain →
        ∃ c1 c2, m1.HashTable[b]? = some c1 ∧ m2.HashTable[b]? = some c2 ∧
          (c1 = chain ∨ c1 = chain ++ [⟨k, default⟩]) ∧
          c2.map MapNode.Key = c1.map MapNode.Key) := by
  obtain ⟨chain, hc, hcase⟩ := Insert_cases Hash m k hwf hpos
  obtain ⟨chain', hc', hcase'⟩ := InsertValue_cases Hash m k v hwf hpos
  rw [hc] at hc'
  cases hc'
  have hlt : Hash k % m.HashSize < m.HashTable.length := by
    rw [hwf]; exact Nat.mod_lt _ hpos
  rcases hcase with ⟨pos, hw, hi⟩ | ⟨hw, hi⟩
  · rcases hcase' with ⟨pos', node, hw', hn, hk, hi'⟩ | ⟨hw', _⟩
    · rw [hw] at hw'
      cases hw'
      have hfr := find_frame Hash m hwf hpos _ chain (chain.set pos { node with Value := v })
        m.ItemCount hc k'
        (walkChain_congr k' _ _ (map_key_set chain pos node v hn))
        (by
          intro p hp
          obtain ⟨n', hn', hk'⟩ := walkChain_some k' chain p hp
          have hpp : pos ≠ p := by
            intro e
            rw [e, hn'] at hn
            have := Option.some.inj hn
            rw [this] at hk'
            exact hne (hk'.symm.trans hk)
          rw [List.getElem?_set_ne hpp])
      refine ⟨_, m, _, _, hi, hi', rfl, hfr.1, fun s hs => ⟨rfl, hfr.2 s hs⟩, ?_⟩
      intro b ch hb
      by_cases hbb : b = Hash k % m.HashSize
      · rw [hbb] at hb
        rw [hc] at hb
        cases hb
        refine ⟨chain, chain.set pos { node with Value := v }, by rw [hbb]; exact hc, ?_,
          Or.inl rfl, map_key_set chain pos node v hn⟩
        show (m.HashTable.set (Hash k % m.HashSize) _)[b]? = _
        rw [hbb, List.getElem?_set_self hlt]
      · refine ⟨ch, ch, hb, ?_, Or.inl rfl, rfl⟩
        show (m.HashTable.set (Hash k % m.HashSize) _)[b]? = _
        rw [List.getElem?_set_ne (fun e => hbb e.symm)]; exact hb
    · rw [hw] at hw'; cases hw'
  · rcases hcase' with ⟨pos', node, hw', _⟩ | ⟨_, hi'⟩
    · rw [hw] at hw'; cases hw'
    · have happ : ∀ (x : TValue) (p : Nat), walkChain k' chain = some p →
          (chain ++ [(⟨k, x⟩ : MapNode TKey TValue)])[p]? = chain[p]? := by
        intro x p hp
        obtain ⟨n', hn', _⟩ := walkChain_some k' chain p hp
        have hpl : p < chain.length := by
          by_contra hcon
          rw [List.getElem?_eq_none (by omega)] at hn'
          cases hn'
        rw [List.getElem?_append_left hpl]
      have hfr1 := find_frame Hash m hwf hpos _ chain (chain ++ [⟨k, default⟩])
        (toUInt32 (m.ItemCount + 1)) hc k' (walkChain_other k k' default chain hne)
        (happ default)
      have hfr2 := find_frame Hash m hwf hpos _ chain (chain ++ [⟨k, v⟩])
        (toUInt32 (m.ItemCount + 1)) hc k' (walkChain_other k k' v chain hne) (happ v)
      refine ⟨_, _, _, _, hi, hi', hfr1.1, hfr2.1,
        fun s hs => ⟨hfr1.2 s hs, hfr2.2 s hs⟩, ?_⟩
      intro b ch hb
      by_cases hbb : b = Hash k % m.HashSize
      · rw [hbb] at hb
        rw [hc] at hb
        cases hb
        refine ⟨chain ++ [⟨k, default⟩], chain ++ [⟨k, v⟩], ?_, ?_, Or.inr rfl, ?_⟩
        · show (m.HashTable.set (Hash k % m.HashSize) _)[b]? = _
          rw [hbb, List.getElem?_set_self hlt]
        · show (m.HashTable.set (Hash k % m.HashSize) _)[b]? = _
          rw [hbb, List.getElem?_set_self hlt]
        · simp
      · refine ⟨ch, ch, ?_, ?_, Or.inl rfl, rfl⟩
        · show (m.HashTable.set (Hash k % m.HashSize) _)[b]? = _
          rw [List.getElem?_set_ne (fun e => hbb e.symm)]; exact hb
        · show (m.HashTable.set (Hash k % m.HashSize) _)[b]? = _
          rw [List.getElem?_set_ne (fun e => hbb e.symm)]; exact hb

theorem C32_insert_frame_witness :
    ∃ slot1 m1 slot2 m2, Insert id exampleMap 1 = some (slot1, m1) ∧
      InsertValue id exampleMap 1 5 = some (slot2, m2) ∧
      Find id m1 7 = Find id exampleMap 7 ∧ Find id m2 7 = Find id exampleMap 7 ∧
      (∀ s, Find id exampleMap 7 = some (some s) →
        m1.valueAt s = exampleMap.valueAt s ∧ m2.valueAt s = exampleMap.valueAt s) ∧
      (∀ (b : Nat) (chain : List (MapNode Nat Nat)), exampleMap.HashTable[b]? = some chain →
        ∃ c1 c2, m1.HashTable[b]? = some c1 ∧ m2.HashTable[b]? = some c2 ∧
          (c1 = chain ∨ c1 = chain ++ [⟨1, default⟩]) ∧
          c2.map MapNode.Key = c1.map MapNode.Key) :=
  C32_insert_frame id exampleMap exampleMap_wf (by decide) 1 7 (by decide) 5

end Map

namespace Map

variable {TKey TValue : Type} [DecidableEq TKey] [Inhabited TValue]

/-- `Iterate` on a map with a table of `HashSize` buckets visits the nodes of the chains,
bucket after bucket. -/
theorem Iterate_eq (m : Map TKey TValue) (hwf : m.WF) :
    m.Iterate = some
      (m.HashTable.map fun chain => chain.map fun item => (item.Key, item.Value)).flatten := by
  unfold Iterate
  obtain ⟨visits, hv, hP⟩ := forLoop_inv
    (fun bucket (visits : List (TKey × TValue)) =>
      (m.HashTable[bucket]?).map fun chain =>
        visits ++ chain.map fun item => (item.Key, item.Value))
    (fun i visits => visits =
      ((m.HashTable.take i).map fun chain =>
        chain.map fun item => (item.Key, item.Value)).flatten)
    m.HashSize 0 [] (by simp)
    (by
      intro i t _ hi ht
      have hlt : i < m.HashTable.length := by rw [hwf]; omega
      have e : m.HashTable.take (i + 1) = m.HashTable.take i ++ [m.HashTable[i]] := by
        rw [List.take_succ, List.getElem?_eq_getElem hlt]
        rfl
      refine ⟨_, ?_, rfl⟩
      show (m.HashTable[i]?).map _ = _
      rw [List.getElem?_eq_getElem hlt, Option.map_some', ht, e, List.map_append,
        List.flatten_append]
      simp)
  rw [hv, hP, Nat.zero_add, ← hwf, List.take_length]

/-- C39 (amended). `Iterate` visits every stored entry exactly once. In every state
reachable from `Init(hashSize > 0)` by `Insert` and `Clear`, `Iterate` returns after
calling the visitor once for each node, in increasing bucket order and, within a bucket,
in chain order; the number of calls is the number of stored nodes, `Count()` is that number
modulo 2^32 and equal to it while fewer than 2^32 entries are stored; no key is visited
twice; and as `Insert` only ever appends to the chain of a bucket, chain order is insertion
order. `Iterate` only reads the map. -/
theorem C39_iterate_visits_all (Hash : TKey → Nat) (m : Map TKey TValue) (keys : List TKey)
    (hr : ReachableFrom Hash m keys) :
    ∃ visits, m.Iterate = some visits ∧
      visits = (m.HashTable.map fun chain =>
        chain.map fun item => (item.Key, item.Value)).flatten ∧
      visits.length = m.nodeCount ∧ m.Count = visits.length % 4294967296 ∧
      (visits.length < 4294967296 → visits.length = m.Count) ∧
      (visits.map Prod.fst).Nodup ∧
      (∀ key slot m', Insert Hash m key = some (slot, m') →
        ∀ (b : Nat) (chain : List (MapNode TKey TValue)), m.HashTable[b]? = some chain →
          ∃ chain', m'.HashTable[b]? = some chain' ∧ chain <+: chain') := by
  have hinv := reachable_tableInv Hash m keys hr
  have hlen : ((m.HashTable.map fun chain =>
      chain.map fun item => (item.Key, item.Value)).flatten).length = m.nodeCount := by
    rw [List.length_flatten, List.map_map]
    unfold nodeCount
    congr 1
    apply List.map_congr_left
    intro chain _
    simp
  have hcount : m.Count = m.nodeCount % 4294967296 := hinv.count
  refine ⟨_, Iterate_eq m hinv.wf, rfl, hlen, by rw [hlen]; exact hcount, ?_, ?_, ?_⟩
  · intro h
    rw [hlen] at h ⊢
    rw [hcount, Nat.mod_eq_of_lt h]
  · have hkeys : ((m.HashTable.map fun chain =>
        chain.map fun item => (item.Key, item.Value)).flatten).map Prod.fst
        = (m.HashTable.map fun chain => chain.map MapNode.Key).flatten := by
      rw [List.map_flatten, List.map_map]
      congr 1
      apply List.map_congr_left
      intro chain _
      simp [Function.comp]
    rw [hkeys, List.nodup_flatten]
    constructor
    · intro l hl
      obtain ⟨chain, hmem, rfl⟩ := List.mem_map.1 hl
      obtain ⟨b, hb⟩ := List.getElem?_of_mem hmem
      exact hinv.nodup b chain hb
    · rw [List.pairwise_iff_getElem]
      intro i j hi hj hij
      rw [List.length_map] at hi hj
      rw [List.getElem_map, List.getElem_map]
      intro x hx1 hx2
      obtain ⟨n1, hn1, hk1⟩ := List.mem_map.1 hx1
      obtain ⟨n2, hn2, hk2⟩ := List.mem_map.1 hx2
      have h1 := (hinv.inBucket i _ (List.getElem?_eq_getElem hi) n1 hn1).1
      have h2 := (hinv.inBucket j _ (List.getElem?_eq_getElem hj) n2 hn2).1
      rw [hk1] at h1
      rw [hk2] at h2
      omega
  · intro key slot m' hi b chain hb
    obtain ⟨c, hc, hcase⟩ := Insert_cases Hash m key hinv.wf hinv.pos
    have hlt : Hash key % m.HashSize < m.HashTable.length := by
      rw [hinv.wf]; exact Nat.mod_lt _ hinv.pos
    rcases hcase with ⟨pos, _, h1⟩ | ⟨_, h1⟩
    · rw [h1] at hi
      cases hi
      exact ⟨chain, hb, List.prefix_refl _⟩
    · rw [h1] at hi
      cases hi
      by_cases hbb : b = Hash key % m.HashSize
      · rw [hbb] at hb
        rw [hc] at hb
        cases hb
        refine ⟨chain ++ [⟨key, default⟩], ?_, List.prefix_append _ _⟩
        show (m.HashTable.set (Hash key % m.HashSize) _)[b]? = _
        rw [hbb, List.getElem?_set_self hlt]
      · refine ⟨chain, ?_, List.prefix_refl _⟩
        show (m.HashTable.set (Hash key % m.HashSize) _)[b]? = _
        rw [List.getElem?_set_ne (fun e => hbb e.symm)]; exact hb

theorem C39_iterate_visits_all_witness :
    ∃ visits, exampleMap.Iterate = some visits ∧
      visits = (exampleMap.HashTable.map fun chain =>
        chain.map fun item => (item.Key, item.Value)).flatten ∧
      visits.length = exampleMap.nodeCount ∧ exampleMap.Count = visits.length % 4294967296 ∧
      (visits.length < 4294967296 → visits.length = exampleMap.Count) ∧
      (visits.map Prod.fst).Nodup ∧
      (∀ key slot m', Insert id exampleMap key = some (slot, m') →
        ∀ (b : Nat) (chain : List (MapNode Nat Nat)), exampleMap.HashTable[b]? = some chain →
          ∃ chain', m'.HashTable[b]? = some chain' ∧ chain <+: chain') :=
  C39_iterate_visits_all id exampleMap [7, 4] exampleMap_reachable

/-- C39, counterexample. After `Init(1)` and 2^32 calls of `Insert` with the keys
0, 1, ..., 2^32 - 1, `Iterate` calls the visitor 2^32 times while `Count()` is 0. -/
theorem C39_counterexample :
    (∃ keys, ReachableFrom id (chainMap 4294967296) keys) ∧
    (∃ visits, (chainMap 4294967296).Iterate = some visits ∧ visits.length = 4294967296) ∧
    (chainMap 4294967296).Count = 0 := by
  refine ⟨chainMap_reachable _, ?_, ?_⟩
  · have h : ∀ n, ∃ visits, (chainMap n).Iterate = some visits ∧ visits.length = n := by
      intro n
      refine ⟨_, Iterate_eq (chainMap n) rfl, ?_⟩
      show ([(List.range n).map fun k => (⟨k, default⟩ : MapNode Nat Nat)].map fun chain =>
        chain.map fun item => (item.Key, item.Value)).flatten.length = n
      simp
    exact h _
  · have : ∀ n, (chainMap n).Count = n % 4294967296 := fun _ => rfl
    rw [this]

end Map

/-! ## `Array<T>`: `Reallocate` -/

namespace Array

variable {T : Type}

/-- C38. `Reallocate(newCapacity)` on a well-formed array returns, sets `Capacity` to
`newCapacity` (the new buffer has that many slots), never changes `Size` (nor the two
unknown fields), and keeps the first `min(Size, newCapacity)` elements at their indices;
the other slots of the new buffer are raw. So for `newCapacity ≥ Size` the element sequence
is preserved, and for `newCapacity < Size` the array is left with `Size` greater than
`Capacity`. -/
theorem C38_reallocate_frame (a : Array T) (hwf : a.WF) (newCapacity : Nat) :
    ∃ a', a.Reallocate newCapacity = some a' ∧ a'.Capacity = newCapacity ∧
      a'.Buf.length = newCapacity ∧ a'.Size = a.Size ∧
      a'.Unknown = a.Unknown ∧ a'.Unknown2 = a.Unknown2 ∧
      (∀ i, i < min a.Size newCapacity → a'.get i = a.get i) ∧
      (∀ i, min a.Size newCapacity ≤ i → a'.get i = none) ∧
      (a.Size ≤ newCapacity → a'.toList = a.toList) ∧
      (newCapacity < a.Size → a'.Size > a'.Capacity) := by
  have hlen : a.Size ≤ a.Buf.length := by rw [hwf.buf]; exact hwf.size
  have hre := Reallocate_eq a newCapacity (fun i hi => hwf.elems i (by omega))
  have hl : (a.Buf.take (min a.Size newCapacity)).length = min a.Size newCapacity := by
    rw [List.length_take]; omega
  have hget : ∀ i, i < min a.Size newCapacity →
      readSlot (a.Buf.take (min a.Size newCapacity)
        ++ List.replicate (newCapacity - min a.Size newCapacity) none) i = a.get i :=
    fun i hi => readSlot_take_append _ _ _ _ hi (by omega)
  refine ⟨_, hre, rfl, ?_, rfl, rfl, rfl, hget, ?_, ?_, ?_⟩
  · show (a.Buf.take (min a.Size newCapacity)
      ++ List.replicate (newCapacity - min a.Size newCapacity) none).length = newCapacity
    rw [List.length_append, hl, List.length_replicate]; omega
  · intro i hi
    exact readSlot_append_replicate _ _ _ (by omega)
  · intro hle
    unfold toList
    apply List.filterMap_congr
    intro i hi
    have hi' : i < a.Size := List.mem_range.1 hi
    exact hget i (by omega)
  · intro hlt
    exact hlt

theorem C38_reallocate_frame_witness :
    ∃ a', (rangeArray 3).Reallocate 2 = some a' ∧ a'.Capacity = 2 ∧
      a'.Buf.length = 2 ∧ a'.Size = (rangeArray 3).Size ∧
      a'.Unknown = (rangeArray 3).Unknown ∧ a'.Unknown2 = (rangeArray 3).Unknown2 ∧
      (∀ i, i < min (rangeArray 3).Size 2 → a'.get i = (rangeArray 3).get i) ∧
      (∀ i, min (rangeArray 3).Size 2 ≤ i → a'.get i = none) ∧
      ((rangeArray 3).Size ≤ 2 → a'.toList = (rangeArray 3).toList) ∧
      (2 < (rangeArray 3).Size → a'.Size > a'.Capacity) :=
  C38_reallocate_frame (rangeArray 3) (lua.MultiHashSetProxyImpl.rangeArray_wf 3 (by decide)) 2

end Array

/-! ## `MultiHashSetProxyImpl<T>`: iteration indices and indexed access -/

namespace lua.MultiHashSetProxyImpl

variable {T : Type}

end lua.MultiHashSetProxyImpl

/-! ## `MultiHashMap<TKey, TValue>`: copy assignment -/

namespace MultiHashMap

/-- C33. Copy assignment does not make the target equal to the source. The target
`exampleOtherMultiHashMap` holds the key 4294967290, the source `exampleMultiHashMap` the
key 5 with the value 3. After the assignment the target still has its old key set: it holds
4294967290 and not 5, while `NumValues` is that of the source and the one slot of `Values`
holds what the allocation left there. -/
theorem C33_assign_keeps_old_keys (fresh : Option Nat) :
    (assign fresh exampleOtherMultiHashMap exampleMultiHashMap).map
        (fun m => (m.toMultiHashSet, m.NumValues, m.Values))
      = some (exampleOtherMultiHashMap.toMultiHashSet, 1, some [fresh]) ∧
    (assign fresh exampleOtherMultiHashMap exampleMultiHashMap).bind
        (fun m => Find exampleEnv m 5) = some none ∧
    Find exampleEnv exampleMultiHashMap 5 = some (some 0) ∧
    (assign fresh exampleOtherMultiHashMap exampleMultiHashMap).bind
        (fun m => Find exampleEnv m 4294967290) = some (some 0) ∧
    Find exampleEnv exampleMultiHashMap 4294967290 = some none := by
  have h : assign fresh exampleOtherMultiHashMap exampleMultiHashMap
      = some ⟨exampleSet3, some [fresh], 1⟩ := rfl
  refine ⟨rfl, ?_, by decide, ?_, by decide⟩
  · rw [h, Option.some_bind]
    show Option.map (fun index : Int => if index = -1 then none else some index)
      (MultiHashSet.FindIndex exampleEnv exampleSet3 5) = some none
    decide
  · rw [h, Option.some_bind]
    show Option.map (fun index : Int => if index = -1 then none else some index)
      (MultiHashSet.FindIndex exampleEnv exampleSet3 4294967290) = some (some 0)
    decide

end MultiHashMap

/-! ## `Set<T>`: `InsertAt` inside the elements -/

theorem forLoopDown_inv {σ : Type} (body : Nat → σ → Option σ) (P : Nat → σ → Prop) :
    ∀ (n hi : Nat) (s : σ), n ≤ hi → P hi s →
      (∀ i t, hi - n < i → i ≤ hi → P i t → ∃ t', body i t = some t' ∧ P (i - 1) t') →
      ∃ s', forLoopDown body n hi s = some s' ∧ P (hi - n) s' := by
  intro n
  induction n with
  | zero => intro hi s _ h0 _; exact ⟨s, rfl, by simpa using h0⟩
  | succ n ih =>
    intro hi s hle h0 hstep
    obtain ⟨t, ht, hPt⟩ := hstep hi s (by omega) (Nat.le_refl _) h0
    obtain ⟨s', hs', hP'⟩ := ih (hi - 1) t (by omega) hPt
      (fun i u h1 h2 hp => hstep i u (by omega) (by omega) hp)
    refine ⟨s', ?_, ?_⟩
    · show (body hi s).bind (forLoopDown body n (hi - 1)) = some s'
      rw [ht, Option.some_bind, hs']
    · have e : hi - 1 - n = hi - (n + 1) := by omega
      rw [← e]; exact hP'

/-- The loop `for (i = size; i > index; i--) buf[i] = buf[i - 1]` of `InsertAt`. -/
theorem shift_up_loop {T : Type} (buf : List (Option T)) (index size : Nat)
    (hsz : size < buf.length) (hi : index ≤ size)
    (hel : ∀ j, j < size → ∃ v, readSlot buf j = some v) :
    ∃ b, forLoopDown (fun i b => (readSlot b (i - 1)).bind (writeSlot b i))
        (size - index) size buf = some b ∧ b.length = buf.length ∧
      ∀ j, b[j]? = if index < j ∧ j ≤ size then buf[j - 1]? else buf[j]? := by
  obtain ⟨b, hb, hlen, hP⟩ := forLoopDown_inv
    (fun i (b : List (Option T)) => (readSlot b (i - 1)).bind (writeSlot b i))
    (fun k b => b.length = buf.length ∧
      ∀ j, b[j]? = if k < j ∧ j ≤ size then buf[j - 1]? else buf[j]?)
    (size - index) size buf (by omega)
    ⟨rfl, fun j => by rw [if_neg (by omega)]⟩
    (by
      intro k t hk1 hk2 hPt
      obtain ⟨hl, hPt⟩ := hPt
      obtain ⟨v, hv⟩ := hel (k - 1) (by omega)
      have hv' : buf[k - 1]? = some (some v) := (readSlot_eq_some _ _ _).1 hv
      have hread : readSlot t (k - 1) = some v := by
        rw [← hv]
        apply readSlot_congr
        rw [hPt (k - 1), if_neg (by omega)]
      refine ⟨t.set k (some v), ?_, ?_, ?_⟩
      · show (readSlot t (k - 1)).bind (writeSlot t k) = _
        rw [hread, Option.some_bind]
        unfold writeSlot
        rw [if_pos (by omega)]
      · rw [List.length_set]; exact hl
      · intro j
        by_cases hjk : j = k
        · rw [hjk, List.getElem?_set_self (by omega), if_pos ⟨by omega, hk2⟩, hv']
        · rw [List.getElem?_set_ne (fun e => hjk e.symm), hPt j]
          by_cases h1 : k < j ∧ j ≤ size
          · rw [if_pos h1, if_pos ⟨by omega, h1.2⟩]
          · rw [if_neg h1, if_neg (by omega)])
  refine ⟨b, hb, hlen, ?_⟩
  have e : size - (size - index) = index := by omega
  rw [e] at hP
  exact hP

namespace Set

variable {T : Type}

/-- The reallocation that `Add` and `InsertAt` start with, on a well-formed set that has a
free slot or whose `CapacityIncrement` exceeds `Size`: the elements lie at the start of a
buffer of more than `Size` slots. -/
theorem set_reserve (s : Set T) (hwf : s.toCompactSet.WF)
    (hroom : s.Size < s.Capacity ∨ s.Size < s.CapacityIncrement) :
    ∃ n, (if s.Capacity ≤ s.Size then
          (s.toCompactSet.Reallocate s.CapacityIncrement).map fun c =>
            ({ s with toCompactSet := c } : Set T)
        else some s)
      = some ⟨⟨s.Buf.take s.Size ++ List.replicate (n - s.Size) none, n, s.Size⟩,
          s.CapacityIncrementSize⟩ ∧
      s.Size < n ∧ n < 4294967296 ∧
      n = (if s.Capacity ≤ s.Size then s.CapacityIncrement else s.Capacity) := by
  have hwfa : s.toCompactSet.toArray.WF := hwf
  have hcap : s.Capacity < 4294967296 := hwfa.cap
  have hsize : s.Size ≤ s.Capacity := hwfa.size
  have hbuf : s.Buf.length = s.Capacity := hwfa.buf
  have hlen : s.Size ≤ s.Buf.length := by omega
  have hinc32 : s.CapacityIncrement < 4294967296 := by
    unfold CapacityIncrement toUInt32
    split_ifs
    · exact Nat.mod_lt _ (by norm_num)
    · exact Nat.mod_lt _ (by norm_num)
    · norm_num
  by_cases hc : s.Capacity ≤ s.Size
  · have hn : s.Size < s.CapacityIncrement := by
      rcases hroom with h | h
      · omega
      · exact h
    have hre := CompactSet.compact_Reallocate_eq s.toCompactSet s.CapacityIncrement hlen
      (fun i hi => hwfa.elems i (show i < s.Size by
        have : i < min s.Size s.CapacityIncrement := hi
        omega))
    have hmin : min s.Size s.CapacityIncrement = s.Size := by omega
    rw [hmin] at hre
    refine ⟨s.CapacityIncrement, ?_, hn, hinc32, by rw [if_pos hc]⟩
    rw [if_pos hc, hre, Option.map_some']
  · have hn : s.Size < s.Capacity := by omega
    have hb : s.Buf = s.Buf.take s.Size ++ List.replicate (s.Capacity - s.Size) none := by
      apply List.ext_getElem?
      intro j
      by_cases hj : j < s.Size
      · rw [List.getElem?_append_left (by rw [List.length_take]; omega), List.getElem?_take,
          if_pos hj]
      · rw [List.getElem?_append_right (by rw [List.length_take]; omega),
          List.getElem?_replicate, List.length_take]
        have hr : readSlot s.Buf j = none := hwfa.raw j (show s.Size ≤ j by omega)
        by_cases hjc : j < s.Capacity
        · rw [if_pos (by omega)]
          unfold readSlot at hr
          have hjl : j < s.Buf.length := by omega
          rw [List.getElem?_eq_getElem hjl] at hr ⊢
          cases hx : s.Buf[j] with
          | none => rfl
          | some w => rw [hx] at hr; cases hr
        · rw [if_neg (by omega), List.getElem?_eq_none (by omega)]
    refine ⟨s.Capacity, ?_, hn, hcap, by rw [if_neg hc]⟩
    rw [if_neg hc, ← hb]

/-- What `InsertAt` does to a well-formed set, at an index not after `Size`, when the set
has a free slot or its `CapacityIncrement` exceeds `Size`. -/
theorem set_InsertAt_spec (s : Set T) (hwf : s.toCompactSet.WF) (index : Nat)
    (hi : index ≤ s.Size) (v : T)
    (hroom : s.Size < s.Capacity ∨ s.Size < s.CapacityIncrement) :
    ∃ s', s.InsertAt index v = some s' ∧ s'.toCompactSet.WF ∧ s'.Size = s.Size + 1 ∧
      s'.Capacity = (if s.Capacity ≤ s.Size then s.CapacityIncrement else s.Capacity) ∧
      ∀ j, s'.toCompactSet.get j =
        if j < index then s.toCompactSet.get j
        else if j = index then some v
        else if j ≤ s.Size then s.toCompactSet.get (j - 1) else none := by
  have hwfa : s.toCompactSet.toArray.WF := hwf
  have hsize : s.Size ≤ s.Capacity := hwfa.size
  have hbuf : s.Buf.length = s.Capacity := hwfa.buf
  have hlen : s.Size ≤ s.Buf.length := by omega
  obtain ⟨n, hres, hn, hn32, hncap⟩ := set_reserve s hwf hroom
  have hl0 : (s.Buf.take s.Size ++ List.replicate (n - s.Size) (none : Option T)).length = n := by
    rw [List.length_append, List.length_take, List.length_replicate]; omega
  have hget0 : ∀ j, readSlot (s.Buf.take s.Size ++ List.replicate (n - s.Size) none) j
      = if j < s.Size then s.toCompactSet.get j else none := by
    intro j
    by_cases hj : j < s.Size
    · rw [if_pos hj]; exact Array.readSlot_take_append _ _ _ _ hj hlen
    · rw [if_neg hj]
      exact Array.readSlot_append_replicate _ _ _ (by rw [List.length_take]; omega)
  obtain ⟨b, hb, hbl, hP⟩ := shift_up_loop
    (s.Buf.take s.Size ++ List.replicate (n - s.Size) none) index s.Size (by omega) hi
    (fun j hj => by rw [hget0 j, if_pos hj]; exact hwfa.elems j hj)
  have e1 : toUInt32 (s.Size + 1) = s.Size + 1 := toUInt32_of_lt _ (by omega)
  have hget : ∀ j, readSlot (b.set index (some v)) j =
      if j < index then s.toCompactSet.get j
      else if j = index then some v
      else if j ≤ s.Size then s.toCompactSet.get (j - 1) else none := by
    intro j
    by_cases hj : j = index
    · rw [hj, if_neg (by omega), if_pos rfl]
      exact readSlot_set_eq b index v (by omega)
    · rw [readSlot_set_ne _ _ _ _ (fun e => hj e.symm), if_neg hj]
      by_cases h1 : j < index
      · have h0 := hget0 j
        rw [if_pos (show j < s.Size by omega)] at h0
        rw [if_pos h1, ← h0]
        apply readSlot_congr
        rw [hP j, if_neg (by omega)]
      · rw [if_neg h1]
        by_cases h2 : j ≤ s.Size
        · rw [if_pos h2]
          have h3 : readSlot (s.Buf.take s.Size ++ List.replicate (n - s.Size) none) (j - 1)
              = s.toCompactSet.get (j - 1) := by
            rw [hget0 (j - 1), if_pos (by omega)]
          rw [← h3]
          apply readSlot_congr
          rw [hP j, if_pos ⟨by omega, h2⟩]
        · rw [if_neg h2]
          have h3 : readSlot (s.Buf.take s.Size ++ List.replicate (n - s.Size) none) j
              = none := by
            rw [hget0 j, if_neg (by omega)]
          rw [← h3]
          apply readSlot_congr
          rw [hP j, if_neg (by omega)]
  refine ⟨⟨⟨b.set index (some v), n, toUInt32 (s.Size + 1)⟩, s.CapacityIncrementSize⟩, ?_,
    ⟨?_, hn32, ?_, ?_, ?_⟩, e1, hncap, hget⟩
  · unfold InsertAt
    rw [hres, Option.some_bind]
    simp only [hb, Option.some_bind]
    unfold writeSlot
    rw [if_pos (by omega), Option.map_some']
  · show (b.set index (some v)).length = n
    rw [List.length_set, hbl, hl0]
  · show toUInt32 (s.Size + 1) ≤ n
    rw [e1]; omega
  · intro j hj
    have hj' : j < s.Size + 1 := by
      have : j < toUInt32 (s.Size + 1) := hj
      rwa [e1] at this
    show ∃ w, readSlot (b.set index (some v)) j = some w
    rw [hget j]
    by_cases h1 : j < index
    · rw [if_pos h1]; exact hwfa.elems j (show j < s.Size by omega)
    · rw [if_neg h1]
      by_cases h2 : j = index
      · rw [if_pos h2]; exact ⟨v, rfl⟩
      · rw [if_neg h2, if_pos (by omega)]
        exact hwfa.elems (j - 1) (show j - 1 < s.Size by omega)
  · intro j hj
    have hj' : s.Size + 1 ≤ j := by
      have : toUInt32 (s.Size + 1) ≤ j := hj
      rwa [e1] at this
    show readSlot (b.set index (some v)) j = none
    rw [hget j, if_neg (by omega), if_neg (by omega), if_neg (by omega)]

/-- C36 (amended). For every well-formed `Set` (`Capacity ≥ Size`) whose new capacity fits
32 bits (`Capacity + CapacityIncrementSize < 2^32` when `CapacityIncrementSize` is not 0,
`2 * Capacity < 2^32` when it is 0), every index `≤ Size` and every value `v`:
`InsertAt(index, v)` returns and yields the old element sequence with `v` inserted at
position `index`: the elements before `index` are unchanged, `v` is at `index`, each
element from `index` on is found one position up, and `Size` increases by one; with
`index = Size` the result is the old sequence followed by `v`. -/
theorem C36_insertAt_inserts (s : Set T) (hwf : s.toCompactSet.WF) (index : Nat)
    (hi : index ≤ s.Size) (v : T)
    (hfit : (s.CapacityIncrementSize ≠ 0 →
        s.Capacity + s.CapacityIncrementSize < 4294967296) ∧
      (s.CapacityIncrementSize = 0 → 2 * s.Capacity < 4294967296)) :
    ∃ s', s.InsertAt index v = some s' ∧ s'.toCompactSet.WF ∧ s'.Size = s.Size + 1 ∧
      s'.toCompactSet.toList
        = s.toCompactSet.toList.take index ++ [v] ++ s.toCompactSet.toList.drop index ∧
      (∀ j, j < index → s'.toCompactSet.get j = s.toCompactSet.get j) ∧
      s'.toCompactSet.get index = some v ∧
      (∀ j, index ≤ j → j < s.Size → s'.toCompactSet.get (j + 1) = s.toCompactSet.get j) ∧
      (index = s.Size → s'.toCompactSet.toList = s.toCompactSet.toList ++ [v]) := by
  have hwfa : s.toCompactSet.toArray.WF := hwf
  have hsize : s.Size ≤ s.Capacity := hwfa.size
  have hroom : s.Size < s.Capacity ∨ s.Size < s.CapacityIncrement := by
    by_cases hlt : s.Size < s.Capacity
    · exact Or.inl hlt
    · right
      unfold CapacityIncrement
      by_cases h0 : s.CapacityIncrementSize ≠ 0
      · have := hfit.1 h0
        rw [if_pos h0, toUInt32_of_lt s.CapacityIncrementSize (by omega),
          toUInt32_of_lt _ this]
        omega
      · have := hfit.2 (by omega)
        rw [if_neg h0]
        by_cases hc : s.Capacity > 0
        · rw [if_pos hc, toUInt32_of_lt _ this]; omega
        · rw [if_neg hc]; omega
  obtain ⟨s', h, hwf', hsz, _, hget⟩ := set_InsertAt_spec s hwf index hi v hroom
  have hwfa' : s'.toCompactSet.toArray.WF := hwf'
  have hlen : s.toCompactSet.toList.length = s.Size :=
    (Array.toList_spec s.toCompactSet.toArray hwfa).1
  have hl : ∀ j, s.toCompactSet.toList[j]? = s.toCompactSet.get j :=
    Array.toList_getElem s.toCompactSet.toArray hwfa
  have hl' : ∀ j, s'.toCompactSet.toList[j]? = s'.toCompactSet.get j :=
    Array.toList_getElem s'.toCompactSet.toArray hwfa'
  have hlist : s'.toCompactSet.toList
      = s.toCompactSet.toList.take index ++ [v] ++ s.toCompactSet.toList.drop index := by
    apply List.ext_getElem?
    intro j
    have htl : (s.toCompactSet.toList.take index).length = index := by
      rw [List.length_take]; omega
    rw [hl' j, hget j, List.append_assoc]
    by_cases h1 : j < index
    · rw [if_pos h1, List.getElem?_append_left (by omega), List.getElem?_take, if_pos h1, hl j]
    · rw [if_neg h1, List.getElem?_append_right (by omega), htl]
      by_cases h2 : j = index
      · rw [if_pos h2, h2, Nat.sub_self]
        simp
      · rw [if_neg h2]
        obtain ⟨d, hd⟩ : ∃ d, j - index = d + 1 := ⟨j - index - 1, by omega⟩
        rw [hd, List.singleton_append, List.getElem?_cons_succ, List.getElem?_drop, hl]
        have e : index + d = j - 1 := by omega
        rw [e]
        by_cases h3 : j ≤ s.Size
        · rw [if_pos h3]
        · rw [if_neg h3]
          exact (hwfa.raw (j - 1) (show s.Size ≤ j - 1 by omega)).symm
  refine ⟨s', h, hwf', hsz, hlist, ?_, ?_, ?_, ?_⟩
  · intro j hj
    rw [hget j, if_pos hj]
  · rw [hget index, if_neg (by omega), if_pos rfl]
  · intro j h1 h2
    rw [hget (j + 1), if_neg (by omega), if_neg (by omega), if_pos (by omega),
      Nat.add_sub_cancel]
  · intro he
    rw [hlist, he, ← hlen, List.take_length, List.drop_length, List.append_nil]

theorem C36_insertAt_inserts_witness :
    ∃ s', (fullSet 3).InsertAt 0 9 = some s' ∧ s'.toCompactSet.WF ∧
      s'.Size = (fullSet 3).Size + 1 ∧
      s'.toCompactSet.toList
        = (fullSet 3).toCompactSet.toList.take 0 ++ [9]
          ++ (fullSet 3).toCompactSet.toList.drop 0 ∧
      (∀ j, j < 0 → s'.toCompactSet.get j = (fullSet 3).toCompactSet.get j) ∧
      s'.toCompactSet.get 0 = some 9 ∧
      (∀ j, 0 ≤ j → j < (fullSet 3).Size →
        s'.toCompactSet.get (j + 1) = (fullSet 3).toCompactSet.get j) ∧
      (0 = (fullSet 3).Size →
        s'.toCompactSet.toList = (fullSet 3).toCompactSet.toList ++ [9]) :=
  C36_insertAt_inserts (fullSet 3) (fullSet_wf 3) 0 (by decide) 9
    ⟨fun _ => by decide, fun _ => by decide⟩

/-- C36, counterexample. The full one-element set with `CapacityIncrementSize = 2^32` is
well-formed with `Capacity ≥ Size`; `InsertAt(0, 9)` reallocates to the old capacity 1 and
the shift loop then assigns `Buf[1]`, outside the buffer. -/
theorem C36_counterexample :
    (fullSet 4294967296).toCompactSet.WF ∧
    (fullSet 4294967296).Capacity ≥ (fullSet 4294967296).Size ∧
    0 ≤ (fullSet 4294967296).Size ∧ (fullSet 4294967296).InsertAt 0 9 = none :=
  ⟨fullSet_wf _, Nat.le_refl _, Nat.zero_le _, by decide⟩

end Set

/-! ## `BitArray<TDWords>` -/

namespace BitArray

variable {TDWords : Nat}

theorem mask_eq (index : Nat) : mask index = 2 ^ ((index - 1) % 32) := by
  unfold mask
  have h : (index - 1) &&& 0x1f = (index - 1) % 32 :=
    Nat.and_pow_two_sub_one_eq_mod (index - 1) 5
  rw [h, Nat.one_shiftLeft]
  apply toUInt32_of_lt
  have h32 : (index - 1) % 32 < 32 := Nat.mod_lt _ (by norm_num)
  calc 2 ^ ((index - 1) % 32) < 2 ^ 32 := Nat.pow_lt_pow_right (by norm_num) h32
    _ = 4294967296 := by norm_num

theorem wordIndex_eq (index : Nat) : (index - 1) >>> 5 = (index - 1) / 32 :=
  Nat.shiftRight_eq_div_pow (index - 1) 5

theorem and_two_pow_ne_zero (w k : Nat) : decide (w &&& 2 ^ k ≠ 0) = w.testBit k := by
  cases hb : w.testBit k with
  | true =>
    apply decide_eq_true
    intro h0
    have h1 : (w &&& 2 ^ k).testBit k = true := by
      rw [Nat.testBit_and, hb, Nat.testBit_two_pow_self]; rfl
    rw [h0, Nat.zero_testBit] at h1
    cases h1
  | false =>
    apply decide_eq_false
    intro h0
    apply h0
    apply Nat.eq_of_testBit_eq
    intro m
    rw [Nat.testBit_and, Nat.zero_testBit, Nat.testBit_two_pow]
    by_cases hm : k = m
    · rw [← hm, hb]; rfl
    · rw [decide_eq_false hm, Bool.and_false]

theorem inRange (index : Nat) (h1 : 1 ≤ index) (h2 : index ≤ 32 * TDWords)
    (hfit : 32 * TDWords < 4294967296) : outOfRange TDWords index = false := by
  unfold outOfRange
  rw [toUInt32_of_lt (TDWords * 32) (by omega)]
  apply decide_eq_false
  omega

theorem outOfRange_wordIndex (index : Nat) (h : outOfRange TDWords index = false) :
    (index - 1) / 32 < TDWords := by
  unfold outOfRange at h
  have h1 := of_decide_eq_false h
  have h2 : toUInt32 (TDWords * 32) ≤ TDWords * 32 := Nat.mod_le _ _
  omega

theorem IsSet_of_word (b : BitArray TDWords) (index : Nat)
    (hr : outOfRange TDWords index = false) (w : Nat)
    (hw : b.Bits[(index - 1) / 32]? = some w) :
    IsSet b index = some (w.testBit ((index - 1) % 32)) := by
  unfold IsSet
  rw [hr, wordIndex_eq, hw, mask_eq]
  show some (decide (w &&& 2 ^ ((index - 1) % 32) ≠ 0)) = _
  rw [and_two_pow_ne_zero]

theorem Set_of_word (b : BitArray TDWords) (index : Nat)
    (hr : outOfRange TDWords index = false) (w : Nat)
    (hw : b.Bits[(index - 1) / 32]? = some w) :
    Set b index =
      some (true, ⟨b.Bits.set ((index - 1) / 32) (w ||| 2 ^ ((index - 1) % 32))⟩) := by
  unfold Set
  rw [hr, wordIndex_eq, hw, mask_eq]
  rfl

theorem Clear_of_word (b : BitArray TDWords) (index : Nat)
    (hr : outOfRange TDWords index = false) (w : Nat)
    (hw : b.Bits[(index - 1) / 32]? = some w) :
    Clear b index =
      some (true, ⟨b.Bits.set ((index - 1) / 32)
        (w &&& (4294967295 ^^^ 2 ^ ((index - 1) % 32)))⟩) := by
  unfold Clear
  rw [hr, wordIndex_eq, hw, mask_eq]
  rfl

theorem same_bit_iff (i j : Nat) (hi : 1 ≤ i) (hj : 1 ≤ j) :
    j = i ↔ (j - 1) / 32 = (i - 1) / 32 ∧ (i - 1) % 32 = (j - 1) % 32 := by
  constructor
  · intro h; subst h; exact ⟨rfl, rfl⟩
  · intro h
    have e1 := Nat.div_add_mod (i - 1) 32
    have e2 := Nat.div_add_mod (j - 1) 32
    omega

/-- The three operations return on every index when `Bits` has `TDWords` words: the word
index `(index - 1) >> 5` of an accepted index is below `TDWords`. -/
theorem ops_total (b : BitArray TDWords) (hwf : b.WF) (index : Nat) :
    ∃ r b1 c b2 q, Set b index = some (r, b1) ∧ b1.WF ∧ Clear b index = some (c, b2) ∧
      b2.WF ∧ IsSet b index = some q := by
  cases hr : outOfRange TDWords index with
  | true =>
    refine ⟨false, b, false, b, false, ?_, hwf, ?_, hwf, ?_⟩
    · unfold Set; rw [hr]; rfl
    · unfold Clear; rw [hr]; rfl
    · unfold IsSet; rw [hr]; rfl
  | false =>
    have hlt : (index - 1) / 32 < b.Bits.length := by
      have h := outOfRange_wordIndex index hr
      have hl : b.Bits.length = TDWords := hwf
      omega
    have hw : b.Bits[(index - 1) / 32]? = some (b.Bits[(index - 1) / 32]) :=
      List.getElem?_eq_getElem hlt
    refine ⟨true, _, true, _, _, Set_of_word b index hr _ hw, ?_,
      Clear_of_word b index hr _ hw, ?_, IsSet_of_word b index hr _ hw⟩
    · show (b.Bits.set _ _).length = TDWords
      rw [List.length_set]; exact hwf
    · show (b.Bits.set _ _).length = TDWords
      rw [List.length_set]; exact hwf

/-- C34 (amended). For every bit array whose bit count `32 * TDWords` is below `2^32`
and whose `Bits` has `TDWords` words, and all indices `i`, `j` in `1..32*TDWords`:
`IsSet(j)` returns bit `(j-1) mod 32` of word `(j-1) div 32`; `Set(i)` returns true and
afterwards `IsSet(j)` holds iff `j = i` or `IsSet(j)` held before; `Clear(i)` returns true
and afterwards `IsSet(j)` holds iff `j ≠ i` and `IsSet(j)` held before. -/
theorem C34_bits_are_a_set (b : BitArray TDWords) (hwf : b.WF)
    (hfit : 32 * TDWords < 4294967296) (i j : Nat)
    (hi : 1 ≤ i ∧ i ≤ 32 * TDWords) (hj : 1 ≤ j ∧ j ≤ 32 * TDWords) :
    ∃ old, IsSet b j = some old ∧
      (∃ w, b.Bits[(j - 1) / 32]? = some w ∧ old = w.testBit ((j - 1) % 32)) ∧
      (∃ b1, Set b i = some (true, b1) ∧ b1.WF ∧
        IsSet b1 j = some (decide (j = i) || old)) ∧
      (∃ b2, Clear b i = some (true, b2) ∧ b2.WF ∧
        IsSet b2 j = some (decide (j ≠ i) && old)) := by
  have hl : b.Bits.length = TDWords := hwf
  have hri := inRange i hi.1 hi.2 hfit
  have hrj := inRange j hj.1 hj.2 hfit
  have hlti : (i - 1) / 32 < b.Bits.length := by
    have := outOfRange_wordIndex i hri; omega
  have hltj : (j - 1) / 32 < b.Bits.length := by
    have := outOfRange_wordIndex j hrj; omega
  have hwi : b.Bits[(i - 1) / 32]? = some (b.Bits[(i - 1) / 32]) :=
    List.getElem?_eq_getElem hlti
  have hwj : b.Bits[(j - 1) / 32]? = some (b.Bits[(j - 1) / 32]) :=
    List.getElem?_eq_getElem hltj
  have hbit : (j - 1) % 32 < 32 := Nat.mod_lt _ (by norm_num)
  refine ⟨_, IsSet_of_word b j hrj _ hwj, ⟨_, hwj, rfl⟩,
    ⟨_, Set_of_word b i hri _ hwi, ?_, ?_⟩, ⟨_, Clear_of_word b i hri _ hwi, ?_, ?_⟩⟩
  · show (b.Bits.set _ _).length = TDWords
    rw [List.length_set]; exact hl
  · by_cases hw : (j - 1) / 32 = (i - 1) / 32
    · rw [IsSet_of_word _ j hrj (b.Bits[(i - 1) / 32] ||| 2 ^ ((i - 1) % 32))
        (by show (b.Bits.set _ _)[(j - 1) / 32]? = _
            rw [hw, List.getElem?_set_self hlti])]
      congr 1
      rw [Nat.testBit_or, Nat.testBit_two_pow, Bool.or_comm]
      have e : b.Bits[(j - 1) / 32] = b.Bits[(i - 1) / 32] := by
        congr 1
      rw [e]
      congr 1
      by_cases hb : (i - 1) % 32 = (j - 1) % 32
      · rw [decide_eq_true hb, decide_eq_true ((same_bit_iff i j hi.1 hj.1).2 ⟨hw, hb⟩)]
      · rw [decide_eq_false hb,
          decide_eq_false (fun h => hb ((same_bit_iff i j hi.1 hj.1).1 h).2)]
    · rw [IsSet_of_word _ j hrj (b.Bits[(j - 1) / 32])
        (by show (b.Bits.set _ _)[(j - 1) / 32]? = _
            rw [List.getElem?_set_ne (fun h => hw h.symm), hwj])]
      rw [decide_eq_false (fun h => hw ((same_bit_iff i j hi.1 hj.1).1 h).1), Bool.false_or]
  · show (b.Bits.set _ _).length = TDWords
    rw [List.length_set]; exact hl
  · by_cases hw : (j - 1) / 32 = (i - 1) / 32
    · rw [IsSet_of_word _ j hrj
        (b.Bits[(i - 1) / 32] &&& (4294967295 ^^^ 2 ^ ((i - 1) % 32)))
        (by show (b.Bits.set _ _)[(j - 1) / 32]? = _
            rw [hw, List.getElem?_set_self hlti])]
      congr 1
      have hones : (4294967295 : Nat).testBit ((j - 1) % 32) = true := by
        have h := Nat.testBit_two_pow_sub_one 32 ((j - 1) % 32)
        rw [decide_eq_true hbit] at h
        exact h
      rw [Nat.testBit_and, Nat.testBit_xor, hones, Nat.testBit_two_pow, Bool.and_comm]
      have e : b.Bits[(j - 1) / 32] = b.Bits[(i - 1) / 32] := by
        congr 1
      rw [e]
      congr 1
      by_cases hb : (i - 1) % 32 = (j - 1) % 32
      · rw [decide_eq_true hb,
          decide_eq_false (fun h : j ≠ i => h ((same_bit_iff i j hi.1 hj.1).2 ⟨hw, hb⟩))]
        rfl
      · have hd : decide (j ≠ i) = true :=
          decide_eq_true (fun h => hb ((same_bit_iff i j hi.1 hj.1).1 h).2)
        rw [decide_eq_false hb, hd]
        rfl
    · rw [IsSet_of_word _ j hrj (b.Bits[(j - 1) / 32])
        (by show (b.Bits.set _ _)[(j - 1) / 32]? = _
            rw [List.getElem?_set_ne (fun h => hw h.symm), hwj])]
      have hd : decide (j ≠ i) = true :=
        decide_eq_true (fun h => hw ((same_bit_iff i j hi.1 hj.1).1 h).1)
      rw [hd, Bool.true_and]

theorem C34_bits_are_a_set_witness :
    ∃ old, IsSet exampleBitArray 34 = some old ∧
      (∃ w, exampleBitArray.Bits[(34 - 1) / 32]? = some w ∧
        old = w.testBit ((34 - 1) % 32)) ∧
      (∃ b1, Set exampleBitArray 3 = some (true, b1) ∧ b1.WF ∧
        IsSet b1 34 = some (decide (34 = 3) || old)) ∧
      (∃ b2, Clear exampleBitArray 3 = some (true, b2) ∧ b2.WF ∧
        IsSet b2 34 = some (decide (34 ≠ 3) && old)) :=
  C34_bits_are_a_set exampleBitArray rfl (by decide) 3 34 ⟨by decide, by decide⟩
    ⟨by decide, by decide⟩

/-- C34, counterexample. With `TDWords = 2^27` the `uint32_t` product `TDWords * 32` is 0:
index 1 lies in `1..32*TDWords`, and on the bit array of `2^27` zero words `Set(1)` and
`Clear(1)` return false and change nothing, and `IsSet(1)` is false after `Set(1)`. -/
theorem C34_counterexample :
    (zeroBitArray 134217728).WF ∧ 1 ≤ 1 ∧ 1 ≤ 32 * 134217728 ∧
    Set (zeroBitArray 134217728) 1 = some (false, zeroBitArray 134217728) ∧
    Clear (zeroBitArray 134217728) 1 = some (false, zeroBitArray 134217728) ∧
    IsSet (zeroBitArray 134217728) 1 = some false := by
  have hr : outOfRange 134217728 1 = true := by decide
  refine ⟨List.length_replicate _ _, Nat.le_refl _, by norm_num, ?_, ?_, ?_⟩
  · unfold Set; rw [hr]; rfl
  · unfold Clear; rw [hr]; rfl
  · unfold IsSet; rw [hr]; rfl

/-- C35. For every bit array whose `Bits` has `TDWords` words: for index 0 and for every
index above `32 * TDWords`, `Set` and `Clear` return false and leave the bit array as it
was, and `IsSet` returns false; and on every index the three operations return, that is,
no word outside `Bits[0..TDWords)` is read or written, and `Bits` keeps its `TDWords`
words. -/
theorem C35_out_of_range_rejected (b : BitArray TDWords) (hwf : b.WF) :
    (∀ index, index = 0 ∨ index > 32 * TDWords →
      Set b index = some (false, b) ∧ Clear b index = some (false, b) ∧
      IsSet b index = some false) ∧
    (∀ index, ∃ r b1 c b2 q, Set b index = some (r, b1) ∧ b1.WF ∧
      Clear b index = some (c, b2) ∧ b2.WF ∧ IsSet b index = some q) := by
  refine ⟨?_, ops_total b hwf⟩
  intro index h
  have hr : outOfRange TDWords index = true := by
    unfold outOfRange
    apply decide_eq_true
    have h2 : toUInt32 (TDWords * 32) ≤ TDWords * 32 := Nat.mod_le _ _
    omega
  refine ⟨?_, ?_, ?_⟩
  · unfold Set; rw [hr]; rfl
  · unfold Clear; rw [hr]; rfl
  · unfold IsSet; rw [hr]; rfl

theorem C35_out_of_range_rejected_witness :
    (∀ index, index = 0 ∨ index > 32 * 2 →
      Set exampleBitArray index = some (false, exampleBitArray) ∧
      Clear exampleBitArray index = some (false, exampleBitArray) ∧
      IsSet exampleBitArray index = some false) ∧
    (∀ index, ∃ r b1 c b2 q, Set exampleBitArray index = some (r, b1) ∧ b1.WF ∧
      Clear exampleBitArray index = some (c, b2) ∧ b2.WF ∧
      IsSet exampleBitArray index = some q) :=
  C35_out_of_range_rejected exampleBitArray rfl

end BitArray

/-! ## `MultiHashSet<T>`: the range in which `Add` returns -/

namespace MultiHashSet

/-- `Add` of a key that is not stored does not return on a reachable set that holds 2^31
keys: the lookup answers -1 or does not return, and `Keys.Add` cannot grow a full array of
2^31 slots, as the doubled capacity is 0 in `uint32_t`. -/
theorem set_Add_full {T : Type} [DecidableEq T] (E : HashEnv T)
    (hp : ∀ n, 0 < E.GetNearestMultiHashMapPrime n) (s : MultiHashSet T)
    (hr : Reachable E s) (x : T) (habs : ∀ i, i < s.Keys.Size → s.Keys.get i ≠ some x)
    (hfull : 2147483648 ≤ s.Keys.Size) : Add E s x = none := by
  obtain ⟨hinv, hdk, _⟩ := reachable_inv E hp s hr
  cases h : Add E s x with
  | none => rfl
  | some r =>
    obtain ⟨index, s'⟩ := r
    obtain ⟨_, hcase⟩ := set_Add_spec E hp s hinv hdk x index s' h
    rcases hcase with ⟨hf, hne, _⟩ | ⟨_, _, hlt, _⟩
    · rcases FindIndex_char E s hinv x index hf with ⟨h1, _⟩ | ⟨i, hi, _, hx⟩
      · exact absurd h1 hne
      · exact absurd hx (habs i hi)
    · omega

/-- Under a table-size function that returns positive bucket counts below 2^31, adding the
keys 0, 1, ..., n-1 in turn to the empty set reaches a set of these `n` keys, for every `n`
up to 2^31; its bucket count is 0 or a value of the table-size function. -/
theorem smallTable_family (E : HashEnv Nat) (hp : ∀ n, 0 < E.GetNearestMultiHashMapPrime n)
    (hb : ∀ n, E.GetNearestMultiHashMapPrime n < 2147483648) :
    ∀ n, n ≤ 2147483648 → ∃ s, Reachable E s ∧ s.Keys.Size = n ∧
      (∀ i, i < n → s.Keys.get i = some i) ∧
      (s.NumHashKeys = 0 ∨ ∃ m, s.NumHashKeys = E.GetNearestMultiHashMapPrime m) := by
  intro n
  induction n with
  | zero =>
    intro _
    exact ⟨MultiHashSet.empty, Reachable.empty, rfl,
      fun i hi => absurd hi (Nat.not_lt_zero _), Or.inl rfl⟩
  | succ n ih =>
    intro hn
    obtain ⟨s, hr, hsz, hkeys, hnum⟩ := ih (by omega)
    obtain ⟨hinv, hdk, hdn⟩ := reachable_inv E hp s hr
    have h31 : s.NumHashKeys < 2147483648 := by
      rcases hnum with h0 | ⟨m, hm⟩
      · omega
      · rw [hm]; exact hb m
    obtain ⟨index, s', h⟩ := set_Add_total E hp s hinv hdk hdn (by omega) h31 n
    obtain ⟨_, hcase⟩ := set_Add_spec E hp s hinv hdk n index s' h
    rcases hcase with ⟨hf, hne, _⟩ | ⟨_, _, _, hka, _, hbranch⟩
    · rcases FindIndex_char E s hinv n index hf with ⟨h1, _⟩ | ⟨i, hi, _, hxi⟩
      · exact absurd h1 hne
      · rw [hsz] at hi
        rw [hkeys i hi] at hxi
        have := Option.some.inj hxi
        omega
    · obtain ⟨_, ksz, kold, knew, _⟩ := Array.array_Add_spec s.Keys s'.Keys n hinv.keys hka
      rw [hsz] at ksz kold knew
      refine ⟨s', Reachable.add s n index s' hr h, ksz, ?_, ?_⟩
      · intro i hi
        by_cases hlt : i < n
        · rw [kold i hlt]; exact hkeys i hlt
        · have : i = n := by omega
          rw [this]; exact knew
      · rcases hbranch with ⟨_, hn'⟩ | ⟨_, hn'⟩
        · rw [hn']; exact hnum
        · exact Or.inr ⟨_, hn'⟩

theorem oneBucketEnv_pos : ∀ n, 0 < oneBucketEnv.GetNearestMultiHashMapPrime n :=
  fun _ => Nat.one_pos

/-- Under `oneBucketEnv`, adding the keys 0, 1, ..., 2^31 - 1 reaches a set of 2^31 keys in
one bucket. The key 2^31 is not stored and `FindIndex` answers -1 for it, but `Add` of it
does not return. -/
theorem oneBucketEnv_full :
    ∃ s, Reachable oneBucketEnv s ∧ s.Keys.Size = 2147483648 ∧ s.NumHashKeys = 1 ∧
      (∀ i, i < s.Keys.Size → s.Keys.get i ≠ some 2147483648) ∧
      FindIndex oneBucketEnv s 2147483648 = some (-1) ∧
      Add oneBucketEnv s 2147483648 = none := by
  obtain ⟨s, hr, hsz, hkeys, hnum⟩ :=
    smallTable_family oneBucketEnv oneBucketEnv_pos
      (fun _ => (by decide : (1 : Nat) < 2147483648)) 2147483648 (Nat.le_refl _)
  obtain ⟨hinv, _, _⟩ := reachable_inv oneBucketEnv oneBucketEnv_pos s hr
  have hone : s.NumHashKeys = 1 := by
    rcases hnum with h0 | ⟨m, hm⟩
    · have := (hinv.noTable h0).2
      omega
    · exact hm
  have habs : ∀ i, i < s.Keys.Size → s.Keys.get i ≠ some 2147483648 := by
    intro i hi h
    rw [hsz] at hi
    rw [hkeys i hi] at h
    have := Option.some.inj h
    omega
  refine ⟨s, hr, hsz, hone, habs, ?_,
    set_Add_full oneBucketEnv oneBucketEnv_pos s hr 2147483648 habs (by omega)⟩
  obtain ⟨r, h⟩ := FindIndex_total oneBucketEnv s hinv (by omega) 2147483648
  rcases FindIndex_char oneBucketEnv s hinv 2147483648 r h with ⟨h1, _⟩ | ⟨j, hj, _, hk⟩
  · rw [h, h1]
  · exact absurd hk (habs j hj)

/-- In the reachable set of `successorEnv_highBucket`, of 2^30 + 1 keys in 2147483651
buckets, the key 6442450944 is not stored and `Add` of it does not return: its lookup
leaves the keys. -/
theorem highBucket_Add :
    ∃ s, Reachable (successorEnv fun k => k) s ∧ s.Keys.Size = 1073741825 ∧
      s.NumHashKeys = 2147483651 ∧
      (∀ i, i < s.Keys.Size → s.Keys.get i ≠ some 6442450944) ∧
      FindIndex (successorEnv fun k => k) s 6442450944 = none ∧
      Add (successorEnv fun k => k) s 6442450944 = none := by
  obtain ⟨s, hr, ksz, kold, knew, _, hf, hnum⟩ := successorEnv_highBucket
  refine ⟨s, hr, ksz, hnum, ?_, hf, ?_⟩
  · intro i hi h
    rw [ksz] at hi
    by_cases hlt : i < 1073741824
    · rw [kold i hlt] at h
      have := Option.some.inj h
      omega
    · have hi' : i = 1073741824 := by omega
      rw [hi', knew] at h
      exact absurd (Option.some.inj h) (by decide)
  · unfold Add
    rw [hf]
    rfl

/-- C1, counterexample. Two reachable states, each under a table-size function that
returns positive bucket counts, in which `Add(x)` does not return, so that no state after
`Add(x)` exists in which `Contains(x)` could be true. With the identity as hash function and
the table-size function `n + 1`: the set of 2^30 + 1 keys in 2147483651 buckets (fewer than
2^31 keys, more than 2^31 buckets) and the key 6442450944. With the table-size function
that is constantly 1: the set of 2^31 keys in one bucket and the key 2^31. -/
theorem C1_counterexample :
    (∀ n, 0 < (successorEnv fun k => k).GetNearestMultiHashMapPrime n) ∧
    (∃ s, Reachable (successorEnv fun k => k) s ∧ s.Keys.Size = 1073741825 ∧
      s.NumHashKeys = 2147483651 ∧
      Add (successorEnv fun k => k) s 6442450944 = none) ∧
    (∀ n, 0 < oneBucketEnv.GetNearestMultiHashMapPrime n) ∧
    (∃ s, Reachable oneBucketEnv s ∧ s.Keys.Size = 2147483648 ∧ s.NumHashKeys = 1 ∧
      Add oneBucketEnv s 2147483648 = none) := by
  obtain ⟨s, hr, ksz, hnum, _, _, hadd⟩ := highBucket_Add
  obtain ⟨t, hrt, tsz, tnum, _, _, tadd⟩ := oneBucketEnv_full
  exact ⟨successorEnv_pos _, ⟨s, hr, ksz, hnum, hadd⟩, oneBucketEnv_pos,
    ⟨t, hrt, tsz, tnum, tadd⟩⟩

/-- C19, counterexample. Two reachable states with a key `x` that is not stored for which
`Add(x)` does not return, so that it neither returns the previous `Size` nor appends `x`.
In the set of 2^30 + 1 keys in 2147483651 buckets (identity hash, table-size function
`n + 1`) the lookup of the key 6442450944 leaves the keys. In the set of 2^31 keys in one
bucket (table-size function constantly 1) the lookup of the key 2^31 answers -1 and the key
array, full at 2^31 slots, cannot grow. -/
theorem C19_counterexample :
    (∃ s, Reachable (successorEnv fun k => k) s ∧ s.Keys.Size = 1073741825 ∧
      s.NumHashKeys = 2147483651 ∧
      (∀ i, i < s.Keys.Size → s.Keys.get i ≠ some 6442450944) ∧
      FindIndex (successorEnv fun k => k) s 6442450944 = none ∧
      Add (successorEnv fun k => k) s 6442450944 = none) ∧
    (∃ s, Reachable oneBucketEnv s ∧ s.Keys.Size = 2147483648 ∧ s.NumHashKeys = 1 ∧
      (∀ i, i < s.Keys.Size → s.Keys.get i ≠ some 2147483648) ∧
      FindIndex oneBucketEnv s 2147483648 = some (-1) ∧
      Add oneBucketEnv s 2147483648 = none) := by
  obtain ⟨s, hr, ksz, hnum, habs, hfind, hadd⟩ := highBucket_Add
  exact ⟨⟨s, hr, ksz, hnum, habs, hfind, hadd⟩, oneBucketEnv_full⟩

end MultiHashSet

end bg3se
